import Mathlib

/-!
# api-call-analyzer (`cmd/main.go`): filtering, ordering and aggregation

A shallow embedding of the functions `parseTimeOrDuration`, `filterEvents` and
`computeStats` of `cmd/main.go`, together with the parts of the Go runtime they
run on (`sort.Slice`, that is `pdqsort_func` of package `sort`; `strings.Contains`;
the `time` parsers), followed by the theorems that settle the specification's
statements about them.

Modelling conventions.

* Go strings are Lean `String`s. Go slices are Lean `List`s; an index outside the
  slice makes the embedded operation return `none`, which stands for a run-time
  fault of the Go program (as does running out of loop fuel).
* A `*CloudTrailEvent` is an `Option CloudTrailEvent`, `none` for the nil pointer:
  `json.Unmarshal` leaves `ctEvent` nil on the payload `null`, so the filtered list
  may hold nil entries. Reading a field through a nil pointer is a run-time fault.
* A `*Stat` held in `statsList` is never nil (each is the address of a fresh
  `Stat`), so `statsList` is a list of records; the one place where pointer identity
  matters (`computeStats` mutates a `Stat` through the map) is modelled with the
  position of the record in `statsList`.
* A point in time is the integer number of nanoseconds since the Unix epoch;
  `time.Duration` is an `int64` number of nanoseconds, arithmetic on it wraps.
* Everything the program obtains from outside (the CloudTrail pages, the JSON
  decoder, the clock, the time parsers) is a field of `Env`; theorems quantify
  over every `Env`.
-/

namespace ApiCallAnalyzer

/-! ## Data model (`main.go`, lines 35-120) -/

/-- An instant: nanoseconds since the Unix epoch (what `time.Time` comparisons see). -/
abbrev Time := Int

/-- A `time.Duration`: a signed 64-bit count of nanoseconds. -/
abbrev Duration := Int

/-- The struct `Options` (lines 35-61). -/
structure Options where
  CallSource : String
  EventSource : String
  API : String
  IdentityUserName : String
  StartTime : Time
  startTime : String
  EndTime : Time
  endTime : String
  UserAgent : String
  Region : String
  Version : Bool
  Output : String
deriving DecidableEq, Repr

/-- The struct `Stat` (lines 69-73). -/
structure Stat where
  EventSource : String
  API : String
  Calls : Int
deriving DecidableEq, Repr

/-- The struct `SessionIssuer` (lines 114-120); the Go field `Type` is `Type_` here. -/
structure SessionIssuer where
  Type_ : String
  PrincipalID : String
  ARN : String
  AccountID : String
  UserName : String
deriving DecidableEq, Repr

/-- The struct `Attributes` (lines 109-112). -/
structure Attributes where
  CreationDate : String
  MFAAuthenticated : String
deriving DecidableEq, Repr

/-- The struct `SessionContext` (lines 104-107). -/
structure SessionContext where
  SessionIssuer : SessionIssuer
  Attributes : Attributes
deriving DecidableEq, Repr

/-- The struct `UserIdentity` (lines 95-102); the Go field `Type` is `Type_` here. -/
structure UserIdentity where
  Type_ : String
  PrincipalID : String
  ARN : String
  AccountID : String
  SessionContext : SessionContext
  InvokedBy : String
deriving DecidableEq, Repr

/-- The struct `CloudTrailEvent` (lines 75-93). The two fields of Go type `any`
(`requestParameters`, `responseElements`) are kept as their JSON text. -/
structure CloudTrailEvent where
  EventVersion : String
  UserIdentity : UserIdentity
  EventTime : String
  EventSource : String
  EventName : String
  AWSRegion : String
  SourceIPAddress : String
  UserAgent : String
  RequestParameters : String
  ResponseElements : String
  RequestID : String
  EventID : String
  ReadOnly : Bool
  EventType : String
  ManagementEvent : Bool
  RecipientAccountID : String
  EventCategory : String
deriving DecidableEq, Repr

/-- An error value: its message and the messages of the errors wrapped into it
with the `%w` verb of `fmt.Errorf` (empty for an error that wraps nothing). -/
structure GoError where
  message : String
  unwrap : List String
deriving DecidableEq, Repr

deriving instance DecidableEq for Except

/-- The page-level envelope `types.Event` of the CloudTrail SDK, reduced to the two
fields `filterEvents` reads: `*event.EventSource` and `*event.CloudTrailEvent` (the
serialized payload). The SDK fills both; they are modelled by the strings they
point to. -/
structure RawEvent where
  EventSource : String
  CloudTrailEvent : String
deriving DecidableEq, Repr

/-- The attribute keys `types.LookupAttributeKeyEventName` and
`types.LookupAttributeKeyEventSource` used in lines 219-229. -/
inductive LookupAttributeKey
  | EventName
  | EventSource
deriving DecidableEq, Repr

/-- The struct `types.LookupAttribute`. -/
structure LookupAttribute where
  AttributeKey : LookupAttributeKey
  AttributeValue : String
deriving DecidableEq, Repr

/-- The struct `cloudtrail.LookupEventsInput` as built in lines 215-229. -/
structure LookupEventsInput where
  StartTime : Time
  EndTime : Time
  LookupAttributes : List LookupAttribute
deriving DecidableEq, Repr

/-- What the program obtains from outside the repository.

* `LoadDefaultConfig`: the outcome of `config.LoadDefaultConfig(ctx)`;
* `LookupEvents`: for a lookup input, the results of the successive
  `eventPaginator.NextPage(ctx)` calls made while `HasMorePages()` holds;
* `Unmarshal`: `json.Unmarshal` of a payload into the variable
  `var ctEvent *CloudTrailEvent`: the decoder's error message, or the value of
  `ctEvent` afterwards, which is `none` (a nil pointer) for the payload `null`;
* `Parse`: `time.Parse(time.RFC3339, ·)`;
* `ParseDuration`: `time.ParseDuration`;
* `Now`: the reading of `time.Now()`;
* `xorshiftNext`: one step of the pseudo-random generator `xorshift.Next` that
  `breakPatterns_func` of package `sort` draws from. -/
structure Env where
  LoadDefaultConfig : Except String Unit
  LookupEvents : LookupEventsInput → List (Except String (List RawEvent))
  Unmarshal : String → Except String (Option CloudTrailEvent)
  Parse : String → Except String Time
  ParseDuration : String → Except String Duration
  Now : Time
  xorshiftNext : Nat → Nat

/-! ## `strings.Contains` -/

/-- `strings.Contains(s, substr)`: `substr` occurs in `s` as a contiguous block. -/
def stringsContains (s substr : String) : Bool :=
  decide (substr.data <:+: s.data)

/-! ## Package `sort`: `sort.Slice` (pattern-defeating quicksort, `zsortfunc.go`)

`data.Less(i, j)` is the caller's closure `less(i, j)`, which reads elements `i` and
`j` of the slice being sorted; `data.Swap(i, j)` exchanges them. The closure is given by
its value on the two elements it reads, `none` when it faults (a nil pointer read). -/

section SortPackage

variable {α : Type}

/-- `data.Less(i, j)` for a closure comparing the elements at `i` and `j`. -/
def lessAt (less : α → α → Option Bool) (data : List α) (i j : Nat) : Option Bool :=
  match data[i]?, data[j]? with
  | some x, some y => less x y
  | _, _ => none

/-- `data.Swap(i, j)`. -/
def swapAt (data : List α) (i j : Nat) : Option (List α) :=
  match data[i]?, data[j]? with
  | some x, some y => some ((data.set i y).set j x)
  | _, _ => none

/-- The inner loop of `insertionSort_func`:
`for j := i; j > a && data.Less(j, j-1); j-- { data.Swap(j, j-1) }`. -/
def insertionSortInner (less : α → α → Option Bool) (a : Nat) : Nat → List α → Option (List α)
  | 0, data => some data
  | j + 1, data =>
    if a < j + 1 then
      match lessAt less data (j + 1) j with
      | none => none
      | some false => some data
      | some true =>
        match swapAt data (j + 1) j with
        | none => none
        | some data1 => insertionSortInner less a j data1
    else some data

/-- `insertionSort_func(data, a, b)`: `for i := a + 1; i < b; i++ { inner loop }`. -/
def insertionSort_func (less : α → α → Option Bool) (data : List α) (a b : Nat) : Option (List α) :=
  (List.range' (a + 1) (b - (a + 1))).foldlM (fun d i => insertionSortInner less a i d) data

/-- `siftDown_func(data, lo, hi, first)`; the loop variable `root` starts at `lo`.
The first argument bounds the number of iterations. -/
def siftDownLoop (less : α → α → Option Bool) (hi first : Nat) : Nat → Nat → List α → Option (List α)
  | 0, _, _ => none
  | fuel + 1, root, data =>
    let child := 2 * root + 1
    if child ≥ hi then some data
    else
      match (if child + 1 < hi then lessAt less data (first + child) (first + child + 1)
             else some false) with
      | none => none
      | some c =>
        let child1 := if c then child + 1 else child
        match lessAt less data (first + root) (first + child1) with
        | none => none
        | some false => some data
        | some true =>
          match swapAt data (first + root) (first + child1) with
          | none => none
          | some data1 => siftDownLoop less hi first fuel child1 data1

/-- `siftDown_func(data, lo, hi, first)`. -/
def siftDown_func (less : α → α → Option Bool) (data : List α) (lo hi first : Nat) : Option (List α) :=
  siftDownLoop less hi first (hi + 1) lo data

/-- `heapSort_func(data, a, b)`: build the heap (`for i := (hi-1)/2; i >= 0; i--`),
then pop the largest element to the end (`for i := hi-1; i >= 0; i--`). -/
def heapSort_func (less : α → α → Option Bool) (data : List α) (a b : Nat) : Option (List α) :=
  let first := a
  let lo := 0
  let hi := b - a
  match (List.range ((hi - 1) / 2 + 1)).reverse.foldlM
      (fun d i => siftDown_func less d i hi first) data with
  | none => none
  | some data1 =>
    (List.range hi).reverse.foldlM
      (fun d i =>
        match swapAt d first (first + i) with
        | none => none
        | some d1 => siftDown_func less d1 lo i first) data1

/-- A loop `for i < bound && test(i) { i++ }`; returns the final `i`. (A Go condition
`i <= j` is the case `bound = j + 1`.) The first argument bounds the number of
iterations. -/
def scanUp (test : Nat → Option Bool) (bound : Nat) : Nat → Nat → Option Nat
  | 0, i => if i < bound then none else some i
  | fuel + 1, i =>
    if i < bound then
      match test i with
      | none => none
      | some true => scanUp test bound fuel (i + 1)
      | some false => some i
    else some i

/-- A loop `for i <= j && test(j) { j-- }`; returns the final `j`. The first argument
bounds the number of iterations. -/
def scanDown (test : Nat → Option Bool) (i : Nat) : Nat → Nat → Option Nat
  | 0, j => if i ≤ j then none else some j
  | fuel + 1, j =>
    if i ≤ j then
      match test j with
      | none => none
      | some true => scanDown test i fuel (j - 1)
      | some false => some j
    else some j

/-- `!data.Less(i, j)`. -/
def notLessAt (less : α → α → Option Bool) (data : List α) (i j : Nat) : Option Bool :=
  match lessAt less data i j with
  | none => none
  | some c => some (!c)

/-- The final `for { ... }` loop of `partition_func`, entered with the current `i`
and `j`; returns the slice and the final `j`. Its body: the loops
`for i <= j && data.Less(i, a) { i++ }` and `for i <= j && !data.Less(j, a) { j-- }`,
then `if i > j { break }`, `data.Swap(i, j)`, `i++`, `j--`. -/
def partitionLoop (less : α → α → Option Bool) (a : Nat) :
    Nat → List α → Nat → Nat → Option (List α × Nat)
  | 0, _, _, _ => none
  | fuel + 1, data, i, j =>
    match scanUp (fun k => lessAt less data k a) (j + 1) (j + 1 - i) i with
    | none => none
    | some i1 =>
      match scanDown (fun k => notLessAt less data k a) i1 (j + 1 - i1) j with
      | none => none
      | some j1 =>
        if i1 > j1 then some (data, j1)
        else
          match swapAt data i1 j1 with
          | none => none
          | some data1 => partitionLoop less a fuel data1 (i1 + 1) (j1 - 1)

/-- `partition_func(data, a, b, pivot)`: returns the slice, `newpivot` and
`alreadyPartitioned`. -/
def partition_func (less : α → α → Option Bool) (data : List α) (a b pivot : Nat) :
    Option (List α × Nat × Bool) :=
  match swapAt data a pivot with
  | none => none
  | some data1 =>
    let i := a + 1
    let j := b - 1
    match scanUp (fun k => lessAt less data1 k a) (j + 1) (j + 1 - i) i with
    | none => none
    | some i1 =>
      match scanDown (fun k => notLessAt less data1 k a) i1 (j + 1 - i1) j with
      | none => none
      | some j1 =>
        if i1 > j1 then
          match swapAt data1 j1 a with
          | none => none
          | some data2 => some (data2, j1, true)
        else
          match swapAt data1 i1 j1 with
          | none => none
          | some data2 =>
            match partitionLoop less a (b - a + 1) data2 (i1 + 1) (j1 - 1) with
            | none => none
            | some (data3, j2) =>
              match swapAt data3 j2 a with
              | none => none
              | some data4 => some (data4, j2, false)

/-- The `for { ... }` loop of `partitionEqual_func`; returns the slice and the final
`i`. Its body: the loops `for i <= j && !data.Less(a, i) { i++ }` and
`for i <= j && data.Less(a, j) { j-- }`, then `if i > j { break }`, `data.Swap(i, j)`,
`i++`, `j--`. -/
def partitionEqualLoop (less : α → α → Option Bool) (a : Nat) :
    Nat → List α → Nat → Nat → Option (List α × Nat)
  | 0, _, _, _ => none
  | fuel + 1, data, i, j =>
    match scanUp (fun k => notLessAt less data a k) (j + 1) (j + 1 - i) i with
    | none => none
    | some i1 =>
      match scanDown (fun k => lessAt less data a k) i1 (j + 1 - i1) j with
      | none => none
      | some j1 =>
        if i1 > j1 then some (data, i1)
        else
          match swapAt data i1 j1 with
          | none => none
          | some data1 => partitionEqualLoop less a fuel data1 (i1 + 1) (j1 - 1)

/-- `partitionEqual_func(data, a, b, pivot)`: returns the slice and `newpivot`. -/
def partitionEqual_func (less : α → α → Option Bool) (data : List α) (a b pivot : Nat) :
    Option (List α × Nat) :=
  match swapAt data a pivot with
  | none => none
  | some data1 => partitionEqualLoop less a (b - a + 1) data1 (a + 1) (b - 1)

/-- The loop `for j := i - 1; j >= 1; j-- { if !data.Less(j, j-1) { break };
data.Swap(j, j-1) }` of `partialInsertionSort_func`, entered with the current `j`. -/
def shiftSmallerLeft (less : α → α → Option Bool) : Nat → List α → Option (List α)
  | 0, data => some data
  | j + 1, data =>
    match lessAt less data (j + 1) j with
    | none => none
    | some false => some data
    | some true =>
      match swapAt data (j + 1) j with
      | none => none
      | some data1 => shiftSmallerLeft less j data1

/-- The loop `for j := i + 1; j < b; j++ { if !data.Less(j, j-1) { break };
data.Swap(j, j-1) }` of `partialInsertionSort_func`, entered with the current `j`. -/
def shiftGreaterRight (less : α → α → Option Bool) (b : Nat) : Nat → Nat → List α → Option (List α)
  | 0, j, data => if j < b then none else some data
  | fuel + 1, j, data =>
    if j < b then
      match lessAt less data j (j - 1) with
      | none => none
      | some false => some data
      | some true =>
        match swapAt data j (j - 1) with
        | none => none
        | some data1 => shiftGreaterRight less b fuel (j + 1) data1
    else some data

/-- The loop `for j := 0; j < maxSteps; j++ { ... }` of `partialInsertionSort_func`;
the first argument is the number of steps left (`maxSteps - j`), `i` is carried along.
The body starts with the loop `for i < b && !data.Less(i, i-1) { i++ }`. -/
def partialInsertionSortLoop (less : α → α → Option Bool) (a b : Nat) :
    Nat → Nat → List α → Option (List α × Bool)
  | 0, _, data => some (data, false)
  | steps + 1, i, data =>
    match scanUp (fun k => notLessAt less data k (k - 1)) b (b - i) i with
    | none => none
    | some i1 =>
      if i1 = b then some (data, true)
      else if b - a < 50 then some (data, false)
      else
        match swapAt data i1 (i1 - 1) with
        | none => none
        | some data1 =>
          match (if i1 - a ≥ 2 then shiftSmallerLeft less (i1 - 1) data1 else some data1) with
          | none => none
          | some data2 =>
            match (if b - i1 ≥ 2 then shiftGreaterRight less b (b - (i1 + 1)) (i1 + 1) data2
                   else some data2) with
            | none => none
            | some data3 => partialInsertionSortLoop less a b steps i1 data3

/-- `partialInsertionSort_func(data, a, b)` with `maxSteps = 5` and
`shortestShifting = 50`: the slice and whether it is sorted at the end. -/
def partialInsertionSort_func (less : α → α → Option Bool) (data : List α) (a b : Nat) :
    Option (List α × Bool) :=
  partialInsertionSortLoop less a b 5 (a + 1) data

/-- `bits.Len(x)`: the number of bits needed to write `x` (0 for 0). -/
def bitsLen (x : Nat) : Nat :=
  if x = 0 then 0 else Nat.log2 x + 1

/-- `nextPowerOfTwo(length)`: `1 << bits.Len(length)`. -/
def nextPowerOfTwo (length : Nat) : Nat :=
  1 <<< bitsLen length

/-- One iteration of the loop `for i := 0; i < 3; i++` of `breakPatterns_func`, on the
slice and the generator state: `other := int(uint(random.Next()) & (modulus - 1))`,
`if other >= length { other -= length }`, and the swap of `data[a+other]` with the
`i`-th of the three positions `idx`, `idx+1`, `idx+2`, where
`idx := a + (length/4)*2 - 1`. -/
def breakPatternsStep (next : Nat → Nat) (a length : Nat) (st : List α × Nat) (i : Nat) :
    Option (List α × Nat) :=
  let random := next st.2
  let modulus := nextPowerOfTwo length
  let idx := a + (length / 4) * 2 - 1
  let other := random &&& (modulus - 1)
  let other1 := if other ≥ length then other - length else other
  match swapAt st.1 (idx + i) (a + other1) with
  | none => none
  | some d => some (d, random)

/-- `breakPatterns_func(data, a, b)`; `next` is `xorshift.Next`, and the generator is
seeded with `length`. -/
def breakPatterns_func (next : Nat → Nat) (data : List α) (a b : Nat) : Option (List α) :=
  let length := b - a
  if length ≥ 8 then
    match breakPatternsStep next a length (data, length) 0 with
    | none => none
    | some st1 =>
      match breakPatternsStep next a length st1 1 with
      | none => none
      | some st2 =>
        match breakPatternsStep next a length st2 2 with
        | none => none
        | some st3 => some st3.1
  else some data

/-- The type `sortedHint` of package `sort`. -/
inductive sortedHint
  | unknownHint
  | increasingHint
  | decreasingHint
deriving DecidableEq, Repr

/-- `order2_func(data, a, b, swaps)`: the ordered pair of indices and the updated
`*swaps`. -/
def order2_func (less : α → α → Option Bool) (data : List α) (a b swaps : Nat) :
    Option (Nat × Nat × Nat) :=
  match lessAt less data b a with
  | none => none
  | some true => some (b, a, swaps + 1)
  | some false => some (a, b, swaps)

/-- `median_func(data, a, b, c, swaps)`: the index of the median and the updated
`*swaps`. -/
def median_func (less : α → α → Option Bool) (data : List α) (a b c swaps : Nat) :
    Option (Nat × Nat) :=
  match order2_func less data a b swaps with
  | none => none
  | some (a1, b1, s1) =>
    match order2_func less data b1 c s1 with
    | none => none
    | some (b2, _, s2) =>
      match order2_func less data a1 b2 s2 with
      | none => none
      | some (_, b3, s3) => some (b3, s3)

/-- `medianAdjacent_func(data, a, swaps)`. -/
def medianAdjacent_func (less : α → α → Option Bool) (data : List α) (a swaps : Nat) :
    Option (Nat × Nat) :=
  median_func less data (a - 1) a (a + 1) swaps

/-- The `switch swaps` that ends `choosePivot_func`, with `maxSwaps = 4 * 3`. -/
def hintOfSwaps (swaps : Nat) : sortedHint :=
  if swaps = 0 then sortedHint.increasingHint
  else if swaps = 4 * 3 then sortedHint.decreasingHint
  else sortedHint.unknownHint

/-- The Tukey ninther step of `choosePivot_func`: `i`, `j` and `k` are replaced by
`medianAdjacent_func(data, i, &swaps)`, `medianAdjacent_func(data, j, &swaps)` and
`medianAdjacent_func(data, k, &swaps)`; returns them with the count of swaps. -/
def choosePivotNinther (less : α → α → Option Bool) (data : List α) (i j k : Nat) :
    Option (Nat × Nat × Nat × Nat) :=
  match medianAdjacent_func less data i 0 with
  | none => none
  | some (i1, s1) =>
    match medianAdjacent_func less data j s1 with
    | none => none
    | some (j1, s2) =>
      match medianAdjacent_func less data k s2 with
      | none => none
      | some (k1, s3) => some (i1, j1, k1, s3)

/-- `choosePivot_func(data, a, b)` with `shortestNinther = 50`. -/
def choosePivot_func (less : α → α → Option Bool) (data : List α) (a b : Nat) :
    Option (Nat × sortedHint) :=
  let l := b - a
  let i := a + l / 4 * 1
  let j := a + l / 4 * 2
  let k := a + l / 4 * 3
  if l ≥ 8 then
    match (if l ≥ 50 then choosePivotNinther less data i j k else some (i, j, k, 0)) with
    | none => none
    | some (i1, j1, k1, swaps) =>
      match median_func less data i1 j1 k1 swaps with
      | none => none
      | some (j2, swaps1) => some (j2, hintOfSwaps swaps1)
  else some (j, hintOfSwaps 0)

/-- The loop `for i < j { data.Swap(i, j); i++; j-- }` of `reverseRange_func`. -/
def reverseRangeLoop : Nat → Nat → Nat → List α → Option (List α)
  | 0, i, j, data => if i < j then none else some data
  | fuel + 1, i, j, data =>
    if i < j then
      match swapAt data i j with
      | none => none
      | some data1 => reverseRangeLoop fuel (i + 1) (j - 1) data1
    else some data

/-- `reverseRange_func(data, a, b)`. -/
def reverseRange_func (data : List α) (a b : Nat) : Option (List α) :=
  reverseRangeLoop (b - a) a (b - 1) data

/-- The block `if !wasBalanced { breakPatterns_func(data, a, b); limit-- }` of
`pdqsort_func`: the slice and `limit` after it. -/
def pdqsortBreakPatterns (next : Nat → Nat) (data : List α) (a b limit : Nat)
    (wasBalanced : Bool) : Option (List α × Nat) :=
  if !wasBalanced then
    match breakPatterns_func next data a b with
    | none => none
    | some d => some (d, limit - 1)
  else some (data, limit)

/-- The block of `pdqsort_func` that chooses the pivot:
`pivot, hint := choosePivot_func(data, a, b)` and, `if hint == decreasingHint`,
`reverseRange_func(data, a, b)`, `pivot = (b - 1) - (pivot - a)`,
`hint = increasingHint`. Returns the slice, `pivot` and `hint`. -/
def pdqsortChoosePivot (less : α → α → Option Bool) (data : List α) (a b : Nat) :
    Option (List α × Nat × sortedHint) :=
  match choosePivot_func less data a b with
  | none => none
  | some (pivot, hint) =>
    if hint = sortedHint.decreasingHint then
      match reverseRange_func data a b with
      | none => none
      | some d => some (d, (b - 1) - (pivot - a), sortedHint.increasingHint)
    else some (data, pivot, hint)

/-- The block `if wasBalanced && wasPartitioned && hint == increasingHint {
if partialInsertionSort_func(data, a, b) { return } }` of `pdqsort_func`: the slice and
whether the function returns here. -/
def pdqsortLikelySorted (less : α → α → Option Bool) (data : List α) (a b : Nat)
    (wasBalanced wasPartitioned : Bool) (hint : sortedHint) : Option (List α × Bool) :=
  if wasBalanced && wasPartitioned && hint = sortedHint.increasingHint then
    partialInsertionSort_func less data a b
  else some (data, false)

/-- The condition `a > 0 && !data.Less(a-1, pivot)` of `pdqsort_func`. -/
def pdqsortManyDuplicates (less : α → α → Option Bool) (data : List α) (a pivot : Nat) :
    Option Bool :=
  if a > 0 then notLessAt less data (a - 1) pivot else some false

/-- `pdqsort_func(data, a, b, limit)` with `maxInsertion = 12`. One unit of the first
argument is spent per iteration of the `for` loop and per recursive call; the two
booleans are the loop variables `wasBalanced` and `wasPartitioned`, which a fresh call
starts at `true`. -/
def pdqsortLoop (next : Nat → Nat) (less : α → α → Option Bool) :
    Nat → List α → Nat → Nat → Nat → Bool → Bool → Option (List α)
  | 0, _, _, _, _, _, _ => none
  | fuel + 1, data, a, b, limit, wasBalanced, wasPartitioned =>
    let length := b - a
    if length ≤ 12 then insertionSort_func less data a b
    else if limit = 0 then heapSort_func less data a b
    else
      match pdqsortBreakPatterns next data a b limit wasBalanced with
      | none => none
      | some (data1, limit1) =>
        match pdqsortChoosePivot less data1 a b with
        | none => none
        | some (data2, pivot, hint) =>
          match pdqsortLikelySorted less data2 a b wasBalanced wasPartitioned hint with
          | none => none
          | some (data3, true) => some data3
          | some (data3, false) =>
            match pdqsortManyDuplicates less data3 a pivot with
            | none => none
            | some true =>
              match partitionEqual_func less data3 a b pivot with
              | none => none
              | some (data4, mid) =>
                pdqsortLoop next less fuel data4 mid b limit1 wasBalanced wasPartitioned
            | some false =>
              match partition_func less data3 a b pivot with
              | none => none
              | some (data4, mid, alreadyPartitioned) =>
                let leftLen := mid - a
                let rightLen := b - mid
                let balanceThreshold := length / 8
                if leftLen < rightLen then
                  match pdqsortLoop next less fuel data4 a mid limit1 true true with
                  | none => none
                  | some data5 =>
                    pdqsortLoop next less fuel data5 (mid + 1) b limit1
                      (decide (leftLen ≥ balanceThreshold)) alreadyPartitioned
                else
                  match pdqsortLoop next less fuel data4 (mid + 1) b limit1 true true with
                  | none => none
                  | some data5 =>
                    pdqsortLoop next less fuel data5 a mid limit1
                      (decide (rightLen ≥ balanceThreshold)) alreadyPartitioned

/-- `pdqsort_func(data, a, b, limit)`. -/
def pdqsort_func (next : Nat → Nat) (less : α → α → Option Bool) (data : List α)
    (a b limit : Nat) : Option (List α) :=
  pdqsortLoop next less (b - a + 1) data a b limit true true

/-- `sort.Slice(x, less)`: `pdqsort_func(lessSwap{less, swap}, 0, length, limit)` with
`limit := bits.Len(uint(length))`. -/
def Slice (next : Nat → Nat) (x : List α) (less : α → α → Option Bool) : Option (List α) :=
  let length := x.length
  let limit := bitsLen length
  pdqsort_func next less x 0 length limit

end SortPackage

/-! ## `parseTimeOrDuration` (lines 193-203) -/

/-- Conversion of an integer to `int64` (two's complement wrap-around). -/
def wrapInt64 (x : Int) : Int :=
  (x + 2 ^ 63) % 2 ^ 64 - 2 ^ 63

/-- `t.Add(d)` on instants. -/
def Time.Add (t : Time) (d : Duration) : Time :=
  t + d

/-- `t.Before(u)`. -/
def Time.Before (t u : Time) : Bool :=
  decide (t < u)

/-- `parseTimeOrDuration(input)`. -/
def parseTimeOrDuration (env : Env) (input : String) : Except GoError Time :=
  match env.Parse input with
  | .error err =>
    match env.ParseDuration input with
    | .error derr =>
      .error
        { message := "unable to parse as RFC3339 time or duration. Time Err: " ++ err ++
            " Duration Err: " ++ derr
          unwrap := [err, derr] }
    | .ok dur => .ok (Time.Add env.Now (wrapInt64 (-1 * dur)))
  | .ok t => .ok t

/-! ## `filterEvents` (lines 205-275) -/

/-- The five `continue` guards of lines 245-259: `true` when none of them fires, that
is when line 260 appends `ctEvent`. -/
def passesFilters (opts : Options) (event : RawEvent) (ctEvent : CloudTrailEvent) : Bool :=
  if opts.EventSource ≠ "" ∧ event.EventSource ≠ opts.EventSource then false
  else if opts.CallSource ≠ "" ∧ ctEvent.SourceIPAddress ≠ opts.CallSource then false
  else if opts.API ≠ "" ∧ ctEvent.EventName ≠ opts.API then false
  else if opts.IdentityUserName ≠ "" ∧
      ctEvent.UserIdentity.SessionContext.SessionIssuer.UserName ≠ opts.IdentityUserName then
    false
  else if opts.UserAgent ≠ "" ∧ !stringsContains ctEvent.UserAgent opts.UserAgent then false
  else true

/-- The five guards of lines 245-259 on the pointer `ctEvent`: `some true` when none
of them fires (line 260 appends `ctEvent`), `some false` when one of them `continue`s,
and `none` when a guard reads a field through a nil `ctEvent`. The first guard reads
only the envelope; each of the other four reads `ctEvent` when its criterion is not
empty. -/
def reachesAppend (opts : Options) (event : RawEvent) : Option CloudTrailEvent → Option Bool
  | some ctEvent => some (passesFilters opts event ctEvent)
  | none =>
    if opts.EventSource ≠ "" ∧ event.EventSource ≠ opts.EventSource then some false
    else if opts.CallSource ≠ "" then none
    else if opts.API ≠ "" then none
    else if opts.IdentityUserName ≠ "" then none
    else if opts.UserAgent ≠ "" then none
    else some true

/-- The loop `for _, event := range output.Events` (lines 240-261): the filtered list
after the page, and the error of line 243 if a payload does not decode; `none` for a
run-time fault (a nil pointer read in a guard). -/
def filterPage (env : Env) (opts : Options) :
    List RawEvent → List (Option CloudTrailEvent) →
      Option (List (Option CloudTrailEvent) × Option GoError)
  | [], filteredEvents => some (filteredEvents, none)
  | event :: rest, filteredEvents =>
    match env.Unmarshal event.CloudTrailEvent with
    | .error err =>
      some (filteredEvents,
        some { message := "unable to unmarshal cloudtrail event: " ++ err, unwrap := [err] })
    | .ok ctEvent =>
      match reachesAppend opts event ctEvent with
      | none => none
      | some true => filterPage env opts rest (filteredEvents ++ [ctEvent])
      | some false => filterPage env opts rest filteredEvents

/-- The comparison closure passed to `sort.Slice` in lines 263-273, on the two entries
`filteredEvents[i]` and `filteredEvents[j]` it reads; `none` when it reads a field
through a nil entry. Entry `j` is read only after the time of entry `i` has parsed. -/
def eventLess (env : Env) (eventI eventJ : Option CloudTrailEvent) : Option Bool :=
  match eventI with
  | none => none
  | some ei =>
    match env.Parse ei.EventTime with
    | .error _ => some true
    | .ok ti =>
      match eventJ with
      | none => none
      | some ej =>
        match env.Parse ej.EventTime with
        | .error _ => some true
        | .ok tj => some (Time.Before ti tj)

/-- The loop `for eventPaginator.HasMorePages()` (lines 234-262) over the remaining
page results, followed by the sort and the final `return` (lines 263-274). The result
is the triple returned by `filterEvents`. -/
def filterEventsLoop (env : Env) (opts : Options) :
    List (Except String (List RawEvent)) → Nat → List (Option CloudTrailEvent) →
      Option (Nat × List (Option CloudTrailEvent) × Option GoError)
  | [], rawEvents, filteredEvents =>
    match Slice env.xorshiftNext filteredEvents (eventLess env) with
    | none => none
    | some sorted => some (rawEvents, sorted, none)
  | .error err :: _, rawEvents, filteredEvents =>
    some (rawEvents, filteredEvents, some { message := err, unwrap := [] })
  | .ok output :: rest, rawEvents, filteredEvents =>
    let rawEvents1 := rawEvents + output.length
    match filterPage env opts output filteredEvents with
    | none => none
    | some (filteredEvents1, some err) => some (rawEvents1, filteredEvents1, some err)
    | some (filteredEvents1, none) => filterEventsLoop env opts rest rawEvents1 filteredEvents1

/-- The lookup input built in lines 215-229. -/
def lookupInput (opts : Options) : LookupEventsInput :=
  { StartTime := opts.StartTime
    EndTime := opts.EndTime
    LookupAttributes :=
      if opts.API ≠ "" then [{ AttributeKey := .EventName, AttributeValue := opts.API }]
      else if opts.EventSource ≠ "" then
        [{ AttributeKey := .EventSource, AttributeValue := opts.EventSource }]
      else [] }

/-- `filterEvents(ctx, opts)`: the returned `(int, []*CloudTrailEvent, error)`, or
`none` for a run-time fault. An entry of the returned slice is `none` when it is a nil
pointer. -/
def filterEvents (env : Env) (opts : Options) :
    Option (Nat × List (Option CloudTrailEvent) × Option GoError) :=
  match env.LoadDefaultConfig with
  | .error err => some (0, [], some { message := err, unwrap := [] })
  | .ok _ => filterEventsLoop env opts (env.LookupEvents (lookupInput opts)) 0 []

/-! ## `computeStats` (lines 316-333) -/

/-- `stat.Calls++` through the pointer at position `p` of `statsList`. -/
def incrementCalls : Nat → List Stat → List Stat
  | _, [] => []
  | 0, stat :: rest => { stat with Calls := stat.Calls + 1 } :: rest
  | p + 1, stat :: rest => stat :: incrementCalls p rest

/-- The key of line 320: `fmt.Sprintf("%s:%s", event.EventSource, event.EventName)`. -/
def statKey (event : CloudTrailEvent) : String :=
  event.EventSource ++ ":" ++ event.EventName

/-- The loop of lines 319-328. The map `stats` sends a key to the position in
`statsList` of the `Stat` its pointer refers to. Line 320 reads two fields of `event`:
a nil entry of `events` is a run-time fault (`none`). -/
def computeStatsLoop :
    List (Option CloudTrailEvent) → List (String × Nat) → List Stat → Option (List Stat)
  | [], _, statsList => some statsList
  | none :: _, _, _ => none
  | some event :: events, stats, statsList =>
    let key := statKey event
    match stats.lookup key with
    | some p => computeStatsLoop events stats (incrementCalls p statsList)
    | none =>
      let p := statsList.length
      let stat : Stat := { EventSource := event.EventSource, API := event.EventName, Calls := 0 }
      computeStatsLoop events ((key, p) :: stats) (incrementCalls p (statsList ++ [stat]))

/-- The comparison closure of lines 329-331 (the entries of `statsList` are never nil:
each is the address of a fresh `Stat`). -/
def statLess (si sj : Stat) : Bool :=
  decide (si.Calls < sj.Calls)

/-- `computeStats(events)`, or `none` for a run-time fault. -/
def computeStats (env : Env) (events : List (Option CloudTrailEvent)) : Option (List Stat) :=
  match computeStatsLoop events [] [] with
  | none => none
  | some statsList => Slice env.xorshiftNext statsList (fun si sj => some (statLess si sj))

/-! ## A reference environment for concrete runs

The theorems below hold for every `Env`. To run the program on concrete inputs one
`Env` is fixed here. Its two time parsers follow the documentation of Go's package
`time` on a fragment of the accepted inputs (described at each definition); outside
that fragment they report a parse failure. Its decoder reads the payload `null` and
payloads made of `key=value` fields separated by `;`, a stand-in for the JSON text of
a real payload. -/

/-- The value of a decimal digit. -/
def digitValue (c : Char) : Option Nat :=
  if 48 ≤ c.toNat ∧ c.toNat ≤ 57 then some (c.toNat - 48) else none

/-- Reads exactly `n` decimal digits: their value and the rest of the input. -/
def readDigits : Nat → Nat → List Char → Option (Nat × List Char)
  | 0, acc, rest => some (acc, rest)
  | _ + 1, _, [] => none
  | n + 1, acc, c :: rest =>
    match digitValue c with
    | none => none
    | some d => readDigits n (10 * acc + d) rest

/-- Reads a non-empty run of decimal digits as a fraction of a second, in nanoseconds
(digits past the ninth are dropped): the argument `scale` is the weight of the next
digit. -/
def readFraction : Nat → Nat → List Char → Nat × List Char
  | scale, acc, c :: rest =>
    match digitValue c with
    | none => (acc, c :: rest)
    | some d => readFraction (scale / 10) (acc + d * scale) rest
  | _, acc, [] => (acc, [])

/-- Leap years of the Gregorian calendar. -/
def isLeapYear (year : Nat) : Bool :=
  year % 4 = 0 ∧ (year % 100 ≠ 0 ∨ year % 400 = 0)

/-- The number of days of a month. -/
def daysInMonth (year month : Nat) : Nat :=
  if month = 2 then (if isLeapYear year then 29 else 28)
  else if month = 4 ∨ month = 6 ∨ month = 9 ∨ month = 11 then 30
  else 31

/-- Days from 1970-01-01 to the given civil date (proleptic Gregorian calendar). -/
def daysFromCivil (year month day : Nat) : Int :=
  let y : Int := if month ≤ 2 then (year : Int) - 1 else year
  let era : Int := y / 400
  let yoe : Int := y - era * 400
  let mp : Int := ((month : Int) + 9) % 12
  let doy : Int := (153 * mp + 2) / 5 + day - 1
  let doe : Int := yoe * 365 + yoe / 4 - yoe / 100 + doy
  era * 146097 + doe - 719468

/-- The zone suffix `Z` or `+hh:mm` / `-hh:mm`, as seconds east of UTC; nothing may
follow it. -/
def readZone : List Char → Option Int
  | ['Z'] => some 0
  | sign :: rest =>
    if sign = '+' ∨ sign = '-' then
      match readDigits 2 0 rest with
      | some (hh, ':' :: rest1) =>
        match readDigits 2 0 rest1 with
        | some (mm, []) =>
          if hh < 24 ∧ mm < 60 then
            let offset : Int := (hh * 3600 + mm * 60 : Nat)
            some (if sign = '-' then -offset else offset)
          else none
        | _ => none
      | _ => none
    else none
  | [] => none

/-- The instant written by a timestamp of the form
`YYYY-MM-DDThh:mm:ss[.fraction](Z|+hh:mm|-hh:mm)` (RFC 3339, section 5.6, with
upper-case `T` and `Z`, fields in range, no leap second). Go's
`time.Parse(time.RFC3339, s)` returns this instant on every such `s`. -/
def parseRFC3339Chars (s : List Char) : Option Time :=
  match readDigits 4 0 s with
  | some (year, '-' :: s1) =>
    match readDigits 2 0 s1 with
    | some (month, '-' :: s2) =>
      match readDigits 2 0 s2 with
      | some (day, 'T' :: s3) =>
        match readDigits 2 0 s3 with
        | some (hour, ':' :: s4) =>
          match readDigits 2 0 s4 with
          | some (minute, ':' :: s5) =>
            match readDigits 2 0 s5 with
            | some (second, s6) =>
              let frac : Option (Nat × List Char) :=
                match s6 with
                | '.' :: c :: s7 =>
                  match digitValue c with
                  | none => none
                  | some _ => some (readFraction 100000000 0 (c :: s7))
                | _ => some (0, s6)
              match frac with
              | none => none
              | some (nanos, s8) =>
                match readZone s8 with
                | none => none
                | some offset =>
                  if 1 ≤ month ∧ month ≤ 12 ∧ 1 ≤ day ∧ day ≤ daysInMonth year month ∧
                      hour < 24 ∧ minute < 60 ∧ second < 60 then
                    let secs : Int :=
                      daysFromCivil year month day * 86400 +
                        (hour * 3600 + minute * 60 + second : Nat) - offset
                    some (secs * 1000000000 + nanos)
                  else none
            | none => none
          | _ => none
        | _ => none
      | _ => none
    | _ => none
  | _ => none

/-- The reference reading of `time.Parse(time.RFC3339, s)`. The error message is
Go's up to the detail after the colon. -/
def referenceParse (s : String) : Except String Time :=
  match parseRFC3339Chars s.data with
  | some t => .ok t
  | none => .error ("parsing time \"" ++ s ++ "\" as \"2006-01-02T15:04:05Z07:00\": cannot parse")

/-- The table `unitMap` of package `time`, in nanoseconds. -/
def unitMap (u : List Char) : Option Nat :=
  if u = ['n', 's'] then some 1
  else if u = ['u', 's'] ∨ u = ['µ', 's'] ∨ u = ['μ', 's'] then some 1000
  else if u = ['m', 's'] then some 1000000
  else if u = ['s'] then some 1000000000
  else if u = ['m'] then some 60000000000
  else if u = ['h'] then some 3600000000000
  else none

/-- The function `leadingInt` of package `time`: the leading run of digits as a number,
and the rest; `none` when the number exceeds `1 << 63`. -/
def leadingInt : Nat → List Char → Option (Nat × List Char)
  | x, c :: rest =>
    match digitValue c with
    | none => some (x, c :: rest)
    | some d =>
      if x > 2 ^ 63 / 10 then none
      else if x * 10 + d > 2 ^ 63 then none
      else leadingInt (x * 10 + d) rest
  | x, [] => some (x, [])

/-- The unit of a duration term: the characters up to the next `.` or digit. -/
def readUnit : List Char → List Char × List Char
  | c :: rest =>
    if c = '.' ∨ (digitValue c).isSome then ([], c :: rest)
    else ((readUnit rest).1.cons c, (readUnit rest).2)
  | [] => ([], [])

/-- The loop `for s != ""` of `time.ParseDuration` on terms without a fractional
part: the sum `d` of the terms read so far, in nanoseconds, or the error message. The
first argument bounds the number of terms. -/
def parseDurationTerms (orig : String) : Nat → Nat → List Char → Except String Nat
  | _, d, [] => .ok d
  | 0, _, _ :: _ => .error ("time: invalid duration \"" ++ orig ++ "\"")
  | fuel + 1, d, c :: rest =>
    if (digitValue c).isSome then
      match leadingInt 0 (c :: rest) with
      | none => .error ("time: invalid duration \"" ++ orig ++ "\"")
      | some (v, s1) =>
        match s1 with
        | '.' :: _ => .error ("time: invalid duration \"" ++ orig ++ "\"")
        | _ =>
          match readUnit s1 with
          | ([], _) => .error ("time: missing unit in duration \"" ++ orig ++ "\"")
          | (u, s2) =>
            match unitMap u with
            | none =>
              .error ("time: unknown unit \"" ++ String.mk u ++ "\" in duration \"" ++ orig ++ "\"")
            | some unit =>
              if v > 2 ^ 63 / unit then .error ("time: invalid duration \"" ++ orig ++ "\"")
              else if d + v * unit > 2 ^ 63 then
                .error ("time: invalid duration \"" ++ orig ++ "\"")
              else parseDurationTerms orig fuel (d + v * unit) s2
    else .error ("time: invalid duration \"" ++ orig ++ "\"")

/-- The reference reading of `time.ParseDuration` on the inputs
`[-+]?([0-9]+[a-zµμ]+)+` and `[-+]?0` (every term a whole number and a unit). Go
returns the same `int64` value on these; inputs with a fractional term, which Go
evaluates in floating point, are outside the fragment and reported as invalid. -/
def referenceParseDuration (orig : String) : Except String Duration :=
  let invalid : Except String Duration := .error ("time: invalid duration \"" ++ orig ++ "\"")
  let neg : Bool := match orig.data with
    | c :: _ => c = '-'
    | [] => false
  let s : List Char := match orig.data with
    | c :: rest => if c = '-' ∨ c = '+' then rest else c :: rest
    | [] => []
  if s = ['0'] then .ok 0
  else if s = [] then invalid
  else
    match parseDurationTerms orig s.length 0 s with
    | .error err => .error err
    | .ok d =>
      if neg then .ok (-(d : Int))
      else if d > 2 ^ 63 - 1 then invalid
      else .ok (d : Int)

/-- One step of a 64-bit xorshift generator (shifts 13, 7, 17). No theorem depends
on the values it produces. -/
def xorshift64 (r : Nat) : Nat :=
  let r1 := r ^^^ ((r <<< 13) % 2 ^ 64)
  let r2 := r1 ^^^ (r1 >>> 7)
  r2 ^^^ ((r2 <<< 17) % 2 ^ 64)

/-- A `CloudTrailEvent` with every field empty. -/
def emptyEvent : CloudTrailEvent :=
  { EventVersion := "", EventTime := "", EventSource := "", EventName := "", AWSRegion := ""
    SourceIPAddress := "", UserAgent := "", RequestParameters := "", ResponseElements := ""
    RequestID := "", EventID := "", ReadOnly := false, EventType := "", ManagementEvent := false
    RecipientAccountID := "", EventCategory := ""
    UserIdentity :=
      { Type_ := "", PrincipalID := "", ARN := "", AccountID := "", InvokedBy := ""
        SessionContext :=
          { SessionIssuer := { Type_ := "", PrincipalID := "", ARN := "", AccountID := "", UserName := "" }
            Attributes := { CreationDate := "", MFAAuthenticated := "" } } } }

/-- An event with the given event source, event name and event time. -/
def mkEvent (eventSource eventName eventTime : String) : CloudTrailEvent :=
  { emptyEvent with EventSource := eventSource, EventName := eventName, EventTime := eventTime }

/-- Sets one field of an event from its name in the payload. -/
def setField (ev : CloudTrailEvent) (key value : String) : CloudTrailEvent :=
  if key = "eventTime" then { ev with EventTime := value }
  else if key = "eventSource" then { ev with EventSource := value }
  else if key = "eventName" then { ev with EventName := value }
  else if key = "sourceIPAddress" then { ev with SourceIPAddress := value }
  else if key = "userAgent" then { ev with UserAgent := value }
  else if key = "userName" then
    { ev with UserIdentity := { ev.UserIdentity with SessionContext :=
        { ev.UserIdentity.SessionContext with SessionIssuer :=
          { ev.UserIdentity.SessionContext.SessionIssuer with UserName := value } } } }
  else ev

/-- Splits a list of characters at every occurrence of `sep`. -/
def splitChars (sep : Char) : List Char → List (List Char)
  | [] => [[]]
  | c :: rest =>
    if c = sep then [] :: splitChars sep rest
    else
      match splitChars sep rest with
      | [] => [[c]]
      | w :: ws => (c :: w) :: ws

/-- The reference decoder: the payload `null` decodes, as the JSON text `null` does,
without an error and leaves the pointer nil; a payload `k1=v1;k2=v2;...` sets the named
fields of an otherwise empty event; a field without `=` is a decoding error. -/
def referenceUnmarshal (payload : String) : Except String (Option CloudTrailEvent) :=
  if payload = "null" then .ok none
  else
    match (splitChars ';' payload.data).foldlM
        (fun ev field =>
          match splitChars '=' field with
          | [key, value] => Except.ok (setField ev (String.mk key) (String.mk value))
          | _ =>
            Except.error ("invalid character in payload field \"" ++ String.mk field ++ "\""))
        emptyEvent with
    | .error err => .error err
    | .ok ev => .ok (some ev)

/-- The reference environment: no configuration error, the given page results, the
reference decoder and parsers, and a clock reading 2024-01-01T12:00:00Z. -/
def referenceEnv (pages : List (Except String (List RawEvent))) : Env :=
  { LoadDefaultConfig := .ok ()
    LookupEvents := fun _ => pages
    Unmarshal := referenceUnmarshal
    Parse := referenceParse
    ParseDuration := referenceParseDuration
    Now := 1704110400000000000
    xorshiftNext := xorshift64 }

/-- Options with every filter criterion empty. -/
def noFilter : Options :=
  { CallSource := "", EventSource := "", API := "", IdentityUserName := "", StartTime := 0
    startTime := "", EndTime := 0, endTime := "", UserAgent := "", Region := "", Version := false
    Output := "json" }

/-- Thirteen distinct (event source, API name) pairs, the first of them called twice:
the events `(svc0, Api)`, `(svc0, Api)`, `(svc1, Api)`, ..., `(svc12, Api)`. -/
def thirteenPairs : List CloudTrailEvent :=
  [mkEvent "svc0" "Api" "", mkEvent "svc0" "Api" "", mkEvent "svc1" "Api" "",
    mkEvent "svc2" "Api" "", mkEvent "svc3" "Api" "", mkEvent "svc4" "Api" "",
    mkEvent "svc5" "Api" "", mkEvent "svc6" "Api" "", mkEvent "svc7" "Api" "",
    mkEvent "svc8" "Api" "", mkEvent "svc9" "Api" "", mkEvent "svc10" "Api" "",
    mkEvent "svc11" "Api" "", mkEvent "svc12" "Api" ""]

/-- One page of three raw events: two calls of `DescribeInstances` on
`ec2.amazonaws.com` and one call of `ListClusters` on `eks.amazonaws.com`. -/
def threeRawEvents : List (Except String (List RawEvent)) :=
  [.ok
    [{ EventSource := "ec2.amazonaws.com"
       CloudTrailEvent :=
        "eventTime=2024-01-01T10:05:00Z;eventSource=ec2.amazonaws.com;eventName=DescribeInstances" },
     { EventSource := "eks.amazonaws.com"
       CloudTrailEvent :=
        "eventTime=2024-01-01T10:01:00Z;eventSource=eks.amazonaws.com;eventName=ListClusters" },
     { EventSource := "ec2.amazonaws.com"
       CloudTrailEvent :=
        "eventTime=2024-01-01T10:00:00Z;eventSource=ec2.amazonaws.com;eventName=DescribeInstances" }]]

/-! ## Vocabulary of the theorems about `sort.Slice` -/

section SortVocabulary

variable {α : Type}

/-- The comparison closure `less` orders the elements of `data` by an integer key:
on every two elements of `data`, `less x y` says whether `key x < key y`. -/
def OrdersBy (less : α → α → Option Bool) (key : α → Int) (data : List α) : Prop :=
  ∀ x ∈ data, ∀ y ∈ data, less x y = some (decide (key x < key y))

/-- The comparison closure `less` does not fault on any two elements of `data`. -/
def FaultFree (less : α → α → Option Bool) (data : List α) : Prop :=
  ∀ x ∈ data, ∀ y ∈ data, ∃ c, less x y = some c

/-- The key of the element at index `i` (0 outside the slice). -/
def keyAt (key : α → Int) (data : List α) (i : Nat) : Int :=
  match data[i]? with
  | some x => key x
  | none => 0

/-- The keys of `data[a:b]` are in ascending order. -/
def SortedOn (key : α → Int) (data : List α) (a b : Nat) : Prop :=
  ∀ i j, a ≤ i → i ≤ j → j < b → keyAt key data i ≤ keyAt key data j

/-- The slice `d` comes from `data` by rearranging `data[a:b]` only: it is a
permutation of `data`, equal to it outside `[a, b)`, and every element of `d[a:b]` is
an element of `data[a:b]`. -/
structure Within (a b : Nat) (data d : List α) : Prop where
  perm : d.Perm data
  frame : ∀ k, k < a ∨ b ≤ k → d[k]? = data[k]?
  range : ∀ k, a ≤ k → k < b → ∃ k1, a ≤ k1 ∧ k1 < b ∧ d[k]? = data[k1]?

end SortVocabulary

/-- The slice `d` keeps the elements of equal key in the order they have in `data`:
for every key value, the elements with that key form the same sequence in both. -/
def StableFor {α : Type} (key : α → Int) (data d : List α) : Prop :=
  ∀ c : Int, d.filter (fun x => decide (key x = c)) = data.filter (fun x => decide (key x = c))

/-- Four events on three (event source, API name) pairs, the first pair called twice:
`(svc1, DescribeX)`, `(svc2, DescribeY)`, `(svc1, DescribeX)`, `(svc3, DescribeZ)`. -/
def fourEvents : List CloudTrailEvent :=
  [mkEvent "svc1" "DescribeX" "", mkEvent "svc2" "DescribeY" "", mkEvent "svc1" "DescribeX" "",
    mkEvent "svc3" "DescribeZ" ""]

/-- Heap order on the nodes `p ≥ lo` of the heap stored in `data[first : first+hi]`: a
child (`2p+1` or `2p+2`) below `hi` has a key not greater than its parent's. -/
def HeapFrom {α : Type} (key : α → Int) (data : List α) (first lo hi : Nat) : Prop :=
  ∀ p c, lo ≤ p → (c = 2 * p + 1 ∨ c = 2 * p + 2) → c < hi →
    keyAt key data (first + c) ≤ keyAt key data (first + p)

/-- The element before `data[a:b]`, if there is one, has a key not greater than any
key of `data[a:b]` (the situation in which `pdqsort_func` works on `data[a:b]`). -/
def LowerBound {α : Type} (key : α → Int) (data : List α) (a b : Nat) : Prop :=
  a = 0 ∨ ∀ k, a ≤ k → k < b → keyAt key data (a - 1) ≤ keyAt key data k

/-- The instant that `time.Parse(time.RFC3339, event.EventTime)` yields for an entry of
the filtered list (0 when the entry is nil or the string does not parse). -/
def eventInstant (env : Env) : Option CloudTrailEvent → Time
  | none => 0
  | some event =>
    match env.Parse event.EventTime with
    | .ok t => t
    | .error _ => 0

/-- One page of two raw events, each with the payload `null`. -/
def twoNullPayloads : List (Except String (List RawEvent)) :=
  [.ok
    [{ EventSource := "ec2.amazonaws.com", CloudTrailEvent := "null" },
     { EventSource := "ec2.amazonaws.com", CloudTrailEvent := "null" }]]

/-- Three events with unparsable event times. -/
def threeUnparsable : List CloudTrailEvent :=
  [mkEvent "ec2.amazonaws.com" "RunInstances" "yesterday",
    mkEvent "ec2.amazonaws.com" "DescribeInstances" "",
    mkEvent "sts.amazonaws.com" "AssumeRole" "2024-01-01 10:00:00"]

/-- The (event source, API name) pair of an event. -/
def eventPair (event : CloudTrailEvent) : String × String :=
  (event.EventSource, event.EventName)

/-- The (event source, API name) pair of a stat. -/
def statPair (stat : Stat) : String × String :=
  (stat.EventSource, stat.API)

/-- The map key of a pair: `fmt.Sprintf("%s:%s", source, name)`. -/
def pairKey (pair : String × String) : String :=
  pair.1 ++ ":" ++ pair.2

/-- The position of the first occurrence of `q` in a list (the length of the list if
`q` does not occur). -/
def firstIndexOf (q : String × String) : List (String × String) → Nat
  | [] => 0
  | r :: rest => if r = q then 0 else firstIndexOf q rest + 1

/-- The position in `events` at which the pair of `stat` first occurs
(`events.length` if it does not occur). -/
def firstSeenAt (events : List CloudTrailEvent) (stat : Stat) : Nat :=
  firstIndexOf (statPair stat) (events.map eventPair)

/-- The state of the loop of `computeStats` after the events `seen`: the map `stats`
holds exactly the keys of the pairs in `pairs` (the pairs of `statsList`, in order);
every pair of `pairs` occurs in `seen` and every key of `seen` is the key of a pair of
`pairs`; the pairs are listed in the order of their first occurrence in `seen`; and no
two of them have the same key. -/
structure LoopState (seen : List CloudTrailEvent) (stats : List (String × Nat))
    (pairs : List (String × String)) : Prop where
  keys : ∀ k, stats.lookup k = none ↔ k ∉ pairs.map pairKey
  occurs : ∀ q ∈ pairs, q ∈ seen.map eventPair
  covers : ∀ e ∈ seen, statKey e ∈ pairs.map pairKey
  ordered : pairs.Pairwise
    (fun q r => firstIndexOf q (seen.map eventPair) < firstIndexOf r (seen.map eventPair))
  distinct : (pairs.map pairKey).Nodup

/-- Two events whose time strings are in one order and whose instants are in the
other: midnight UTC, and one hour past midnight at offset `+02:00` (an hour earlier). -/
def twoZoneEvents : List CloudTrailEvent :=
  [mkEvent "ec2.amazonaws.com" "DescribeInstances" "2024-01-01T00:00:00Z",
    mkEvent "ec2.amazonaws.com" "DescribeInstances" "2024-01-01T01:00:00+02:00"]

/-- The five conditions of the specification for one raw event and the value of
`ctEvent` after decoding: the EventSource criterion is empty or equals the envelope's
event source; each of the CallSource, API and IdentityUserName criteria is empty or
equals the decoded field; the UserAgent criterion is empty or occurs in the decoded
user agent. A decoded field is a field of the event `ctEvent` points to. -/
def criteriaHold (opts : Options) (event : RawEvent) (ctEvent : Option CloudTrailEvent) :
    Prop :=
  (opts.EventSource = "" ∨ event.EventSource = opts.EventSource) ∧
    (opts.CallSource = "" ∨
      ctEvent.map (fun c => c.SourceIPAddress) = some opts.CallSource) ∧
    (opts.API = "" ∨ ctEvent.map (fun c => c.EventName) = some opts.API) ∧
    (opts.IdentityUserName = "" ∨
      ctEvent.map (fun c => c.UserIdentity.SessionContext.SessionIssuer.UserName) =
        some opts.IdentityUserName) ∧
    (opts.UserAgent = "" ∨
      ctEvent.map (fun c => decide (opts.UserAgent.data <:+: c.UserAgent.data)) = some true)

instance (opts : Options) (event : RawEvent) (ctEvent : Option CloudTrailEvent) :
    Decidable (criteriaHold opts event ctEvent) := by
  unfold criteriaHold
  infer_instance

/-- The situation in which the guards read a field through a nil `ctEvent`: the
payload decoded to nil, the EventSource guard lets the event through, and one of the
four criteria that are compared with a decoded field is not empty. -/
def nilRead (opts : Options) (event : RawEvent) (ctEvent : Option CloudTrailEvent) : Prop :=
  ctEvent = none ∧ (opts.EventSource = "" ∨ event.EventSource = opts.EventSource) ∧
    (opts.CallSource ≠ "" ∨ opts.API ≠ "" ∨ opts.IdentityUserName ≠ "" ∨ opts.UserAgent ≠ "")

instance (opts : Options) (event : RawEvent) (ctEvent : Option CloudTrailEvent) :
    Decidable (nilRead opts event ctEvent) := by
  unfold nilRead
  infer_instance

/-- A page of three raw events: an `ec2.amazonaws.com` envelope whose payload names the
event source `sts.amazonaws.com`, an `eks.amazonaws.com` envelope with the payload
`null`, and an `ec2.amazonaws.com` envelope with a `RunInstances` payload. -/
def mixedPage : List RawEvent :=
  [{ EventSource := "ec2.amazonaws.com"
     CloudTrailEvent := "eventSource=sts.amazonaws.com;eventName=DescribeInstances" },
   { EventSource := "eks.amazonaws.com", CloudTrailEvent := "null" },
   { EventSource := "ec2.amazonaws.com"
     CloudTrailEvent := "eventSource=ec2.amazonaws.com;eventName=RunInstances" }]

/-! # Theorems -/

/-! ## Package `sort`: reads and swaps -/

section SortBasics

variable {α : Type}

theorem lessAt_eq (less : α → α → Option Bool) {l : List α} {i j : Nat}
    (hi : i < l.length) (hj : j < l.length) :
    lessAt less l i j = less l[i] l[j] := by
  simp [lessAt, List.getElem?_eq_getElem hi, List.getElem?_eq_getElem hj]

/-- A closure that faults on no two elements of a slice faults on no two elements of a
rearrangement of it. -/
theorem FaultFree.rearranged {less : α → α → Option Bool} {data d : List α}
    (h : FaultFree less data) (hp : d.Perm data) : FaultFree less d :=
  fun x hx y hy => h x (hp.subset hx) y (hp.subset hy)

theorem lessAt_isSome {less : α → α → Option Bool} {l : List α} {i j : Nat}
    (hff : FaultFree less l) (hi : i < l.length) (hj : j < l.length) :
    ∃ c, lessAt less l i j = some c := by
  rw [lessAt_eq less hi hj]
  exact hff _ (List.getElem_mem hi) _ (List.getElem_mem hj)

theorem notLessAt_isSome {less : α → α → Option Bool} {l : List α} {i j : Nat}
    (hff : FaultFree less l) (hi : i < l.length) (hj : j < l.length) :
    ∃ c, notLessAt less l i j = some c := by
  obtain ⟨c, hc⟩ := lessAt_isSome hff hi hj
  exact ⟨!c, by simp [notLessAt, hc]⟩

theorem swapAt_eq_some {l : List α} {i j : Nat}
    (hi : i < l.length) (hj : j < l.length) :
    swapAt l i j = some ((l.set i l[j]).set j l[i]) := by
  simp [swapAt, List.getElem?_eq_getElem hi, List.getElem?_eq_getElem hj]

/-- Putting `y` where `x` stood and `x` in front is a rearrangement. -/
theorem cons_set_perm (x y : α) :
    ∀ (t : List α) (j : Nat), t[j]? = some x → (x :: t.set j y).Perm (y :: t)
  | [], j, h => by simp at h
  | u :: t, 0, h => by
    simp only [List.getElem?_cons_zero, Option.some.injEq] at h
    subst h
    simpa using List.Perm.swap y u t
  | u :: t, j + 1, h => by
    simp only [List.getElem?_cons_succ] at h
    simp only [List.set_cons_succ]
    exact (List.Perm.swap u x _).trans
      (((cons_set_perm x y t j h).cons u).trans (List.Perm.swap y u t))

theorem swapAt_perm : ∀ {data : List α} {i j : Nat} {d : List α},
    swapAt data i j = some d → d.Perm data
  | [], i, j, d, h => by simp [swapAt] at h
  | u :: t, 0, 0, d, h => by
    simp [swapAt] at h
    subst h
    exact List.Perm.refl _
  | u :: t, 0, j + 1, d, h => by
    simp only [swapAt, List.getElem?_cons_zero, List.getElem?_cons_succ] at h
    cases hj : t[j]? with
    | none => simp [hj] at h
    | some y =>
      simp only [hj, List.set_cons_zero, List.set_cons_succ, Option.some.injEq] at h
      subst h
      exact cons_set_perm y u t j hj
  | u :: t, i + 1, 0, d, h => by
    simp only [swapAt, List.getElem?_cons_zero, List.getElem?_cons_succ] at h
    cases hi : t[i]? with
    | none => simp [hi] at h
    | some x =>
      simp only [hi, List.set_cons_zero, List.set_cons_succ, Option.some.injEq] at h
      subst h
      exact cons_set_perm x u t i hi
  | u :: t, i + 1, j + 1, d, h => by
    simp only [swapAt, List.getElem?_cons_succ] at h
    cases hi : t[i]? with
    | none => simp [hi] at h
    | some x =>
      cases hj : t[j]? with
      | none => simp [hi, hj] at h
      | some y =>
        simp only [hi, hj, List.set_cons_succ, Option.some.injEq] at h
        subst h
        have hs : swapAt t i j = some ((t.set i y).set j x) := by simp [swapAt, hi, hj]
        exact (swapAt_perm hs).cons u

theorem swapAt_isSome {l : List α} {i j : Nat}
    (hi : i < l.length) (hj : j < l.length) :
    ∃ d, swapAt l i j = some d ∧ d.Perm l :=
  ⟨_, swapAt_eq_some hi hj, swapAt_perm (swapAt_eq_some hi hj)⟩

end SortBasics

/-! ## Package `sort`: every run ends, without a fault, in a rearrangement

These hold for a comparison closure that faults on no two elements of the slice,
consistent or not. -/

section SortSafety

variable {α : Type}

theorem insertionSortInner_safe (less : α → α → Option Bool) (a : Nat) :
    ∀ (j : Nat) (data : List α), j < data.length → FaultFree less data →
      ∃ d, insertionSortInner less a j data = some d ∧ d.Perm data
  | 0, data, _, _ => ⟨data, by simp [insertionSortInner], List.Perm.refl _⟩
  | j + 1, data, hj, hff => by
    rw [insertionSortInner]
    split_ifs with ha
    · obtain ⟨c, hc⟩ := lessAt_isSome hff hj (Nat.lt_of_succ_lt hj)
      rw [hc]
      cases c
      · exact ⟨data, rfl, List.Perm.refl _⟩
      · obtain ⟨d1, hd1, hp1⟩ := swapAt_isSome hj (Nat.lt_of_succ_lt hj)
        simp only [hd1]
        obtain ⟨d, hd, hp⟩ :=
          insertionSortInner_safe less a j d1 (by rw [hp1.length_eq]; omega) (hff.rearranged hp1)
        exact ⟨d, hd, hp.trans hp1⟩
    · exact ⟨data, rfl, List.Perm.refl _⟩

/-- A loop whose body always ends in a rearrangement ends in a rearrangement. -/
theorem foldlM_safe {ι : Type} (f : List α → ι → Option (List α)) (data0 : List α) :
    ∀ (l : List ι),
      (∀ i ∈ l, ∀ d : List α, d.Perm data0 → ∃ d1, f d i = some d1 ∧ d1.Perm d) →
      ∀ data : List α, data.Perm data0 → ∃ d, l.foldlM f data = some d ∧ d.Perm data
  | [], _, data, _ => ⟨data, rfl, List.Perm.refl _⟩
  | i :: l, hf, data, hn => by
    obtain ⟨d1, hd1, hp1⟩ := hf i (List.mem_cons_self i l) data hn
    obtain ⟨d, hd, hp⟩ := foldlM_safe f data0 l
      (fun k hk => hf k (List.mem_cons_of_mem i hk)) d1 (hp1.trans hn)
    refine ⟨d, ?_, hp.trans hp1⟩
    simp only [List.foldlM_cons, hd1]
    exact hd

theorem insertionSort_func_safe (less : α → α → Option Bool) (data : List α) (a b : Nat)
    (hb : b ≤ data.length) (hff : FaultFree less data) :
    ∃ d, insertionSort_func less data a b = some d ∧ d.Perm data := by
  unfold insertionSort_func
  refine foldlM_safe _ data _ ?_ data (List.Perm.refl _)
  intro i hi d hd
  rw [List.mem_range'_1] at hi
  exact insertionSortInner_safe less a i d (by rw [hd.length_eq]; omega) (hff.rearranged hd)

theorem siftDownLoop_safe (less : α → α → Option Bool) (hi first : Nat) :
    ∀ (fuel root : Nat) (data : List α), first + hi ≤ data.length → 0 < fuel →
      hi < fuel + root → FaultFree less data →
      ∃ d, siftDownLoop less hi first fuel root data = some d ∧ d.Perm data
  | 0, _, _, _, h0, _, _ => absurd h0 (by omega)
  | fuel + 1, root, data, hlen, _, hfuel, hff => by
    rw [siftDownLoop]
    simp only []
    by_cases hchild : 2 * root + 1 ≥ hi
    · rw [if_pos hchild]
      exact ⟨data, rfl, List.Perm.refl _⟩
    · rw [if_neg hchild]
      have key : ∀ child1 : Nat, 2 * root + 1 ≤ child1 → child1 < hi →
          ∃ d, (match lessAt less data (first + root) (first + child1) with
            | none => none
            | some false => some data
            | some true =>
              match swapAt data (first + root) (first + child1) with
              | none => none
              | some data1 => siftDownLoop less hi first fuel child1 data1) = some d ∧
            d.Perm data := by
        intro child1 h1 h2
        obtain ⟨c, hc⟩ := lessAt_isSome hff (l := data) (i := first + root)
          (j := first + child1) (by omega) (by omega)
        rw [hc]
        cases c
        · exact ⟨data, rfl, List.Perm.refl _⟩
        · obtain ⟨d1, hd1, hp1⟩ := swapAt_isSome (l := data) (i := first + root)
            (j := first + child1) (by omega) (by omega)
          simp only [hd1]
          obtain ⟨d, hd, hp⟩ := siftDownLoop_safe less hi first fuel child1 d1
            (by rw [hp1.length_eq]; exact hlen) (by omega) (by omega) (hff.rearranged hp1)
          exact ⟨d, hd, hp.trans hp1⟩
      by_cases h2 : 2 * root + 1 + 1 < hi
      · obtain ⟨c, hc⟩ := lessAt_isSome hff (l := data) (i := first + (2 * root + 1))
          (j := first + (2 * root + 1) + 1) (by omega) (by omega)
        simp only [if_pos h2, hc]
        cases c
        · simpa using key (2 * root + 1) (by omega) (by omega)
        · simpa using key (2 * root + 1 + 1) (by omega) (by omega)
      · simp only [if_neg h2]
        simpa using key (2 * root + 1) (by omega) (by omega)

theorem siftDown_func_safe (less : α → α → Option Bool) (data : List α) (lo hi first : Nat)
    (hlen : first + hi ≤ data.length) (hff : FaultFree less data) :
    ∃ d, siftDown_func less data lo hi first = some d ∧ d.Perm data :=
  siftDownLoop_safe less hi first (hi + 1) lo data hlen (by omega) (by omega) hff

theorem heapSort_func_safe (less : α → α → Option Bool) (data : List α) (a b : Nat)
    (hab : a ≤ b) (hb : b ≤ data.length) (hff : FaultFree less data) :
    ∃ d, heapSort_func less data a b = some d ∧ d.Perm data := by
  unfold heapSort_func
  simp only []
  obtain ⟨d1, hd1, hp1⟩ := foldlM_safe
    (fun d i => siftDown_func less d i (b - a) a) data
    (List.range ((b - a - 1) / 2 + 1)).reverse
    (fun i _ d hd => siftDown_func_safe less d i (b - a) a
      (by rw [hd.length_eq]; omega) (hff.rearranged hd)) data (List.Perm.refl _)
  rw [hd1]
  simp only []
  obtain ⟨d2, hd2, hp2⟩ := foldlM_safe
    (fun d i =>
      match swapAt d a (a + i) with
      | none => none
      | some d1 => siftDown_func less d1 0 i a) data
    (List.range (b - a)).reverse
    (fun i hi d hd => by
      rw [List.mem_reverse, List.mem_range] at hi
      have hl := hd.length_eq
      obtain ⟨d3, hd3, hp3⟩ := swapAt_isSome (l := d) (i := a) (j := a + i)
        (by omega) (by omega)
      simp only [hd3]
      obtain ⟨d4, hd4, hp4⟩ := siftDown_func_safe less d3 0 i a
        (by rw [hp3.length_eq]; omega) (hff.rearranged (hp3.trans hd))
      exact ⟨d4, hd4, hp4.trans hp3⟩) d1 hp1
  exact ⟨d2, hd2, hp2.trans hp1⟩

end SortSafety

section SortSafety2

variable {α : Type}

theorem scanUp_safe (test : Nat → Option Bool) (bound : Nat) :
    ∀ (fuel i : Nat), (∀ k, i ≤ k → k < bound → ∃ c, test k = some c) →
      bound ≤ fuel + i →
      ∃ i1, scanUp test bound fuel i = some i1 ∧ i ≤ i1 ∧ (i1 ≤ bound ∨ i1 = i)
  | 0, i, _, hfuel => by
    rw [scanUp, if_neg (by omega)]
    exact ⟨i, rfl, le_refl _, Or.inr rfl⟩
  | fuel + 1, i, htest, hfuel => by
    rw [scanUp]
    by_cases hi : i < bound
    · rw [if_pos hi]
      obtain ⟨c, hc⟩ := htest i (le_refl _) hi
      rw [hc]
      cases c
      · exact ⟨i, rfl, le_refl _, Or.inr rfl⟩
      · obtain ⟨i1, h1, h2, h3⟩ := scanUp_safe test bound fuel (i + 1)
          (fun k hk hkb => htest k (by omega) hkb) (by omega)
        exact ⟨i1, h1, by omega, by omega⟩
    · rw [if_neg hi]
      exact ⟨i, rfl, le_refl _, Or.inr rfl⟩

theorem scanDown_safe (test : Nat → Option Bool) (i : Nat) (hi : 0 < i) :
    ∀ (fuel j : Nat), (∀ k, i ≤ k → k ≤ j → ∃ c, test k = some c) →
      j + 1 ≤ fuel + i →
      ∃ j1, scanDown test i fuel j = some j1 ∧ j1 ≤ j ∧ (i ≤ j1 + 1 ∨ j1 = j)
  | 0, j, _, hfuel => by
    rw [scanDown, if_neg (by omega)]
    exact ⟨j, rfl, le_refl _, Or.inr rfl⟩
  | fuel + 1, j, htest, hfuel => by
    rw [scanDown]
    by_cases hj : i ≤ j
    · rw [if_pos hj]
      obtain ⟨c, hc⟩ := htest j hj (le_refl _)
      rw [hc]
      cases c
      · exact ⟨j, rfl, le_refl _, Or.inl (by omega)⟩
      · obtain ⟨j1, h1, h2, h3⟩ := scanDown_safe test i hi fuel (j - 1)
          (fun k hk hkb => htest k hk (by omega)) (by omega)
        exact ⟨j1, h1, by omega, by omega⟩
    · rw [if_neg hj]
      exact ⟨j, rfl, le_refl _, Or.inr rfl⟩

theorem partitionLoop_safe (less : α → α → Option Bool) (a b : Nat) :
    ∀ (fuel : Nat) (data : List α) (i j : Nat), a < i → a ≤ j → j < b →
      b ≤ data.length → 0 < fuel → j + 1 < fuel + i → FaultFree less data →
      ∃ d j1, partitionLoop less a fuel data i j = some (d, j1) ∧ d.Perm data ∧
        a ≤ j1 ∧ j1 < b
  | 0, _, _, _, _, _, _, _, h0, _, _ => absurd h0 (by omega)
  | fuel + 1, data, i, j, hai, haj, hjb, hb, _, hfuel, hff => by
    rw [partitionLoop]
    obtain ⟨i1, hi1, hle1, hbd1⟩ := scanUp_safe (fun k => lessAt less data k a) (j + 1)
      (j + 1 - i) i (fun k _ hk => lessAt_isSome hff (by omega) (by omega)) (by omega)
    simp only [hi1]
    obtain ⟨j1, hj1, hle2, hbd2⟩ := scanDown_safe (fun k => notLessAt less data k a) i1
      (by omega) (j + 1 - i1) j
      (fun k _ hk => notLessAt_isSome hff (by omega) (by omega)) (by omega)
    simp only [hj1]
    by_cases hgt : i1 > j1
    · rw [if_pos hgt]
      exact ⟨data, j1, rfl, List.Perm.refl _, by omega, by omega⟩
    · rw [if_neg hgt]
      obtain ⟨d1, hd1, hp1⟩ := swapAt_isSome (l := data) (i := i1) (j := j1)
        (by omega) (by omega)
      simp only [hd1]
      obtain ⟨d, j2, hd, hp, h1, h2⟩ := partitionLoop_safe less a b fuel d1 (i1 + 1) (j1 - 1)
        (by omega) (by omega) (by omega) (by rw [hp1.length_eq]; exact hb) (by omega)
        (by omega) (hff.rearranged hp1)
      exact ⟨d, j2, hd, hp.trans hp1, h1, h2⟩

theorem partition_func_safe (less : α → α → Option Bool) (data : List α) (a b pivot : Nat)
    (hab : a < b) (hb : b ≤ data.length) (_ : a ≤ pivot) (hpb : pivot < b)
    (hff0 : FaultFree less data) :
    ∃ d mid already, partition_func less data a b pivot = some (d, mid, already) ∧
      d.Perm data ∧ a ≤ mid ∧ mid < b := by
  unfold partition_func
  obtain ⟨d1, hd1, hp1⟩ := swapAt_isSome (l := data) (i := a) (j := pivot)
    (by omega) (by omega)
  have hl1 := hp1.length_eq
  have hff := hff0.rearranged hp1
  simp only [hd1]
  obtain ⟨i1, hi1, hle1, hbd1⟩ := scanUp_safe (fun k => lessAt less d1 k a) (b - 1 + 1)
    (b - 1 + 1 - (a + 1)) (a + 1)
    (fun k _ hk => lessAt_isSome hff (by omega) (by omega)) (by omega)
  simp only [hi1]
  obtain ⟨j1, hj1, hle2, hbd2⟩ := scanDown_safe (fun k => notLessAt less d1 k a) i1
    (by omega) (b - 1 + 1 - i1) (b - 1)
    (fun k _ hk => notLessAt_isSome hff (by omega) (by omega)) (by omega)
  simp only [hj1]
  by_cases hgt : i1 > j1
  · rw [if_pos hgt]
    obtain ⟨d2, hd2, hp2⟩ := swapAt_isSome (l := d1) (i := j1) (j := a)
      (by omega) (by omega)
    simp only [hd2]
    exact ⟨d2, j1, true, rfl, hp2.trans hp1, by omega, by omega⟩
  · rw [if_neg hgt]
    obtain ⟨d2, hd2, hp2⟩ := swapAt_isSome (l := d1) (i := i1) (j := j1)
      (by omega) (by omega)
    simp only [hd2]
    obtain ⟨d3, j2, hd3, hp3, h1, h2⟩ := partitionLoop_safe less a b (b - a + 1) d2 (i1 + 1)
      (j1 - 1) (by omega) (by omega) (by omega) (by rw [hp2.length_eq]; omega) (by omega)
      (by omega) (hff.rearranged hp2)
    simp only [hd3]
    obtain ⟨d4, hd4, hp4⟩ := swapAt_isSome (l := d3) (i := j2) (j := a)
      (by rw [hp3.length_eq, hp2.length_eq]; omega)
      (by rw [hp3.length_eq, hp2.length_eq]; omega)
    simp only [hd4]
    exact ⟨d4, j2, false, rfl, ((hp4.trans hp3).trans hp2).trans hp1, h1, h2⟩

theorem partitionEqualLoop_safe (less : α → α → Option Bool) (a b : Nat) :
    ∀ (fuel : Nat) (data : List α) (i j : Nat), a < i → i ≤ b → a ≤ j → j < b →
      b ≤ data.length → 0 < fuel → j + 1 < fuel + i → FaultFree less data →
      ∃ d i1, partitionEqualLoop less a fuel data i j = some (d, i1) ∧ d.Perm data ∧
        a < i1 ∧ i1 ≤ b
  | 0, _, _, _, _, _, _, _, _, h0, _, _ => absurd h0 (by omega)
  | fuel + 1, data, i, j, hai, hib, haj, hjb, hb, _, hfuel, hff => by
    rw [partitionEqualLoop]
    obtain ⟨i1, hi1, hle1, hbd1⟩ := scanUp_safe (fun k => notLessAt less data a k) (j + 1)
      (j + 1 - i) i (fun k _ hk => notLessAt_isSome hff (by omega) (by omega)) (by omega)
    simp only [hi1]
    obtain ⟨j1, hj1, hle2, hbd2⟩ := scanDown_safe (fun k => lessAt less data a k) i1
      (by omega) (j + 1 - i1) j
      (fun k _ hk => lessAt_isSome hff (by omega) (by omega)) (by omega)
    simp only [hj1]
    by_cases hgt : i1 > j1
    · rw [if_pos hgt]
      exact ⟨data, i1, rfl, List.Perm.refl _, by omega, by omega⟩
    · rw [if_neg hgt]
      obtain ⟨d1, hd1, hp1⟩ := swapAt_isSome (l := data) (i := i1) (j := j1)
        (by omega) (by omega)
      simp only [hd1]
      obtain ⟨d, i2, hd, hp, h1, h2⟩ := partitionEqualLoop_safe less a b fuel d1 (i1 + 1)
        (j1 - 1) (by omega) (by omega) (by omega) (by omega)
        (by rw [hp1.length_eq]; exact hb) (by omega) (by omega) (hff.rearranged hp1)
      exact ⟨d, i2, hd, hp.trans hp1, h1, h2⟩

theorem partitionEqual_func_safe (less : α → α → Option Bool) (data : List α) (a b pivot : Nat)
    (hab : a + 1 < b) (hb : b ≤ data.length) (_ : a ≤ pivot) (hpb : pivot < b)
    (hff : FaultFree less data) :
    ∃ d mid, partitionEqual_func less data a b pivot = some (d, mid) ∧
      d.Perm data ∧ a < mid ∧ mid ≤ b := by
  unfold partitionEqual_func
  obtain ⟨d1, hd1, hp1⟩ := swapAt_isSome (l := data) (i := a) (j := pivot)
    (by omega) (by omega)
  simp only [hd1]
  obtain ⟨d, i2, hd, hp, h1, h2⟩ := partitionEqualLoop_safe less a b (b - a + 1) d1 (a + 1)
    (b - 1) (by omega) (by omega) (by omega) (by omega) (by rw [hp1.length_eq]; exact hb)
    (by omega) (by omega) (hff.rearranged hp1)
  exact ⟨d, i2, hd, hp.trans hp1, h1, h2⟩

end SortSafety2

section SortSafety3

variable {α : Type}

theorem shiftSmallerLeft_safe (less : α → α → Option Bool) :
    ∀ (j : Nat) (data : List α), j < data.length → FaultFree less data →
      ∃ d, shiftSmallerLeft less j data = some d ∧ d.Perm data
  | 0, data, _, _ => ⟨data, by simp [shiftSmallerLeft], List.Perm.refl _⟩
  | j + 1, data, hj, hff => by
    rw [shiftSmallerLeft]
    obtain ⟨c, hc⟩ := lessAt_isSome hff hj (Nat.lt_of_succ_lt hj)
    rw [hc]
    cases c
    · exact ⟨data, rfl, List.Perm.refl _⟩
    · obtain ⟨d1, hd1, hp1⟩ := swapAt_isSome hj (Nat.lt_of_succ_lt hj)
      simp only [hd1]
      obtain ⟨d, hd, hp⟩ := shiftSmallerLeft_safe less j d1 (by rw [hp1.length_eq]; omega)
        (hff.rearranged hp1)
      exact ⟨d, hd, hp.trans hp1⟩

theorem shiftGreaterRight_safe (less : α → α → Option Bool) (b : Nat) :
    ∀ (fuel j : Nat) (data : List α), b ≤ data.length → b ≤ fuel + j →
      FaultFree less data →
      ∃ d, shiftGreaterRight less b fuel j data = some d ∧ d.Perm data
  | 0, j, data, _, hfuel, _ => by
    rw [shiftGreaterRight, if_neg (by omega)]
    exact ⟨data, rfl, List.Perm.refl _⟩
  | fuel + 1, j, data, hb, hfuel, hff => by
    rw [shiftGreaterRight]
    by_cases hj : j < b
    · rw [if_pos hj]
      obtain ⟨c, hc⟩ := lessAt_isSome hff (l := data) (i := j) (j := j - 1)
        (by omega) (by omega)
      rw [hc]
      cases c
      · exact ⟨data, rfl, List.Perm.refl _⟩
      · obtain ⟨d1, hd1, hp1⟩ := swapAt_isSome (l := data) (i := j) (j := j - 1)
          (by omega) (by omega)
        simp only [hd1]
        obtain ⟨d, hd, hp⟩ := shiftGreaterRight_safe less b fuel (j + 1) d1
          (by rw [hp1.length_eq]; exact hb) (by omega) (hff.rearranged hp1)
        exact ⟨d, hd, hp.trans hp1⟩
    · rw [if_neg hj]
      exact ⟨data, rfl, List.Perm.refl _⟩

theorem partialInsertionSortLoop_safe (less : α → α → Option Bool) (a b : Nat) :
    ∀ (steps i : Nat) (data : List α), 0 < i → i ≤ b → b ≤ data.length →
      FaultFree less data →
      ∃ d sorted, partialInsertionSortLoop less a b steps i data = some (d, sorted) ∧
        d.Perm data
  | 0, _, data, _, _, _, _ => ⟨data, false, rfl, List.Perm.refl _⟩
  | steps + 1, i, data, hi, hib, hb, hff => by
    rw [partialInsertionSortLoop]
    obtain ⟨i1, hi1, hle1, hbd1⟩ := scanUp_safe (fun k => notLessAt less data k (k - 1)) b
      (b - i) i (fun k _ hk => notLessAt_isSome hff (by omega) (by omega)) (by omega)
    simp only [hi1]
    by_cases h1 : i1 = b
    · rw [if_pos h1]
      exact ⟨data, true, rfl, List.Perm.refl _⟩
    · rw [if_neg h1]
      by_cases h2 : b - a < 50
      · rw [if_pos h2]
        exact ⟨data, false, rfl, List.Perm.refl _⟩
      · rw [if_neg h2]
        obtain ⟨d1, hd1, hp1⟩ := swapAt_isSome (l := data) (i := i1) (j := i1 - 1)
          (by omega) (by omega)
        simp only [hd1]
        have hl1 := hp1.length_eq
        obtain ⟨d2, hd2, hp2⟩ : ∃ d2,
            (if i1 - a ≥ 2 then shiftSmallerLeft less (i1 - 1) d1 else some d1) = some d2 ∧
              d2.Perm d1 := by
          split_ifs
          · exact shiftSmallerLeft_safe less (i1 - 1) d1 (by omega) (hff.rearranged hp1)
          · exact ⟨d1, rfl, List.Perm.refl _⟩
        simp only [hd2]
        have hl2 := hp2.length_eq
        obtain ⟨d3, hd3, hp3⟩ : ∃ d3,
            (if b - i1 ≥ 2 then shiftGreaterRight less b (b - (i1 + 1)) (i1 + 1) d2
              else some d2) = some d3 ∧ d3.Perm d2 := by
          split_ifs
          · exact shiftGreaterRight_safe less b (b - (i1 + 1)) (i1 + 1) d2 (by omega)
              (by omega) (hff.rearranged (hp2.trans hp1))
          · exact ⟨d2, rfl, List.Perm.refl _⟩
        simp only [hd3]
        obtain ⟨d, sorted, hd, hp⟩ := partialInsertionSortLoop_safe less a b steps i1 d3
          (by omega) (by omega) (by rw [hp3.length_eq]; omega)
          (hff.rearranged ((hp3.trans hp2).trans hp1))
        exact ⟨d, sorted, hd, ((hp.trans hp3).trans hp2).trans hp1⟩

theorem partialInsertionSort_func_safe (less : α → α → Option Bool) (data : List α) (a b : Nat)
    (hab : a < b) (hb : b ≤ data.length) (hff : FaultFree less data) :
    ∃ d sorted, partialInsertionSort_func less data a b = some (d, sorted) ∧ d.Perm data :=
  partialInsertionSortLoop_safe less a b 5 (a + 1) data (by omega) (by omega) hb hff

theorem nextPowerOfTwo_le (length : Nat) (h : 0 < length) :
    nextPowerOfTwo length ≤ 2 * length := by
  unfold nextPowerOfTwo bitsLen
  rw [if_neg (by omega), Nat.one_shiftLeft, pow_succ]
  have := Nat.log2_self_le (n := length) (by omega)
  omega

theorem breakPatternsStep_safe (next : Nat → Nat) (a length : Nat) (st : List α × Nat)
    (i : Nat) (h8 : 8 ≤ length) (hlen : a + length ≤ st.1.length) (hi : i < 3) :
    ∃ st1, breakPatternsStep next a length st i = some st1 ∧ st1.1.Perm st.1 := by
  unfold breakPatternsStep
  simp only []
  have hpow := nextPowerOfTwo_le length (by omega)
  have hand : next st.2 &&& (nextPowerOfTwo length - 1) ≤ nextPowerOfTwo length - 1 :=
    Nat.and_le_right
  obtain ⟨d, hd, hp⟩ := swapAt_isSome (l := st.1)
    (i := a + length / 4 * 2 - 1 + i)
    (j := a + if next st.2 &&& (nextPowerOfTwo length - 1) ≥ length then
            (next st.2 &&& (nextPowerOfTwo length - 1)) - length
          else next st.2 &&& (nextPowerOfTwo length - 1))
    (by omega) (by split_ifs <;> omega)
  rw [hd]
  exact ⟨_, rfl, hp⟩

theorem breakPatterns_func_safe (next : Nat → Nat) (data : List α) (a b : Nat)
    (hab : a ≤ b) (hb : b ≤ data.length) :
    ∃ d, breakPatterns_func next data a b = some d ∧ d.Perm data := by
  unfold breakPatterns_func
  simp only []
  by_cases h8 : b - a ≥ 8
  · rw [if_pos h8]
    obtain ⟨st1, h1, hp1⟩ := breakPatternsStep_safe next a (b - a) (data, b - a) 0 h8
      (by simp only []; omega) (by omega)
    obtain ⟨st2, h2, hp2⟩ := breakPatternsStep_safe next a (b - a) st1 1 h8
      (by rw [hp1.length_eq]; simp only []; omega) (by omega)
    obtain ⟨st3, h3, hp3⟩ := breakPatternsStep_safe next a (b - a) st2 2 h8
      (by rw [hp2.length_eq, hp1.length_eq]; simp only []; omega) (by omega)
    simp only [h1, h2, h3]
    exact ⟨st3.1, rfl, (hp3.trans hp2).trans hp1⟩
  · rw [if_neg h8]
    exact ⟨data, rfl, List.Perm.refl _⟩

end SortSafety3

section SortSafety4

variable {α : Type}

theorem order2_func_safe (less : α → α → Option Bool) (data : List α) (a b swaps : Nat)
    (ha : a < data.length) (hb : b < data.length) (hff : FaultFree less data) :
    ∃ x y s, order2_func less data a b swaps = some (x, y, s) ∧
      ((x = a ∧ y = b) ∨ (x = b ∧ y = a)) := by
  unfold order2_func
  obtain ⟨c, hc⟩ := lessAt_isSome hff hb ha
  rw [hc]
  cases c
  · exact ⟨a, b, swaps, rfl, Or.inl ⟨rfl, rfl⟩⟩
  · exact ⟨b, a, swaps + 1, rfl, Or.inr ⟨rfl, rfl⟩⟩

theorem median_func_safe (less : α → α → Option Bool) (data : List α) (a b c swaps : Nat)
    (ha : a < data.length) (hb : b < data.length) (hc : c < data.length)
    (hff : FaultFree less data) :
    ∃ m s, median_func less data a b c swaps = some (m, s) ∧ (m = a ∨ m = b ∨ m = c) := by
  unfold median_func
  obtain ⟨a1, b1, s1, h1, hab⟩ := order2_func_safe less data a b swaps ha hb hff
  simp only [h1]
  have ha1 : a1 < data.length := by
    rcases hab with ⟨rfl, _⟩ | ⟨rfl, _⟩ <;> assumption
  have hb1 : b1 < data.length := by
    rcases hab with ⟨_, rfl⟩ | ⟨_, rfl⟩ <;> assumption
  obtain ⟨b2, c2, s2, h2, hbc⟩ := order2_func_safe less data b1 c s1 hb1 hc hff
  simp only [h2]
  have hb2 : b2 < data.length := by
    rcases hbc with ⟨rfl, _⟩ | ⟨rfl, _⟩ <;> assumption
  obtain ⟨a3, b3, s3, h3, hab3⟩ := order2_func_safe less data a1 b2 s2 ha1 hb2 hff
  simp only [h3]
  refine ⟨b3, s3, rfl, ?_⟩
  have hb3 : b3 = a1 ∨ b3 = b2 := by
    rcases hab3 with ⟨_, h⟩ | ⟨_, h⟩
    · exact Or.inr h
    · exact Or.inl h
  have hb2' : b2 = b1 ∨ b2 = c := by
    rcases hbc with ⟨h, _⟩ | ⟨h, _⟩
    · exact Or.inl h
    · exact Or.inr h
  have hab' : (a1 = a ∨ a1 = b) ∧ (b1 = a ∨ b1 = b) := by
    rcases hab with ⟨h, h'⟩ | ⟨h, h'⟩
    · exact ⟨Or.inl h, Or.inr h'⟩
    · exact ⟨Or.inr h, Or.inl h'⟩
  clear hab hbc hab3 h1 h2 h3
  omega

theorem choosePivotNinther_safe (less : α → α → Option Bool) (data : List α) (i j k : Nat)
    (hi : 0 < i) (hj : 0 < j) (hk : 0 < k) (hi1 : i + 1 < data.length)
    (hj1 : j + 1 < data.length) (hk1 : k + 1 < data.length) (hff : FaultFree less data) :
    ∃ i1 j1 k1 s, choosePivotNinther less data i j k = some (i1, j1, k1, s) ∧
      i - 1 ≤ i1 ∧ i1 ≤ i + 1 ∧ j - 1 ≤ j1 ∧ j1 ≤ j + 1 ∧ k - 1 ≤ k1 ∧ k1 ≤ k + 1 := by
  unfold choosePivotNinther medianAdjacent_func
  obtain ⟨i1, s1, h1, hm1⟩ := median_func_safe less data (i - 1) i (i + 1) 0
    (by omega) (by omega) hi1 hff
  obtain ⟨j1, s2, h2, hm2⟩ := median_func_safe less data (j - 1) j (j + 1) s1
    (by omega) (by omega) hj1 hff
  obtain ⟨k1, s3, h3, hm3⟩ := median_func_safe less data (k - 1) k (k + 1) s2
    (by omega) (by omega) hk1 hff
  simp only [h1, h2, h3]
  exact ⟨i1, j1, k1, s3, rfl, by omega, by omega, by omega, by omega, by omega, by omega⟩

theorem choosePivot_func_safe (less : α → α → Option Bool) (data : List α) (a b : Nat)
    (hab : a + 8 ≤ b) (hb : b ≤ data.length) (hff : FaultFree less data) :
    ∃ pivot hint, choosePivot_func less data a b = some (pivot, hint) ∧
      a ≤ pivot ∧ pivot < b := by
  unfold choosePivot_func
  simp only []
  rw [if_pos (by omega : b - a ≥ 8)]
  have hq1 : (b - a) / 4 * 4 ≤ b - a := Nat.div_mul_le_self _ _
  have hq2 : 2 ≤ (b - a) / 4 := by omega
  have hq3 : b - a ≥ 50 → 12 ≤ (b - a) / 4 := fun h => by omega
  generalize (b - a) / 4 = q at hq1 hq2 hq3 ⊢
  obtain ⟨i1, j1, k1, s, hn, hi1, hi2, hj1, hj2, hk1, hk2⟩ : ∃ i1 j1 k1 s,
      (if b - a ≥ 50 then choosePivotNinther less data (a + q * 1) (a + q * 2) (a + q * 3)
        else some (a + q * 1, a + q * 2, a + q * 3, 0)) = some (i1, j1, k1, s) ∧
      a ≤ i1 ∧ i1 < b ∧ a ≤ j1 ∧ j1 < b ∧ a ≤ k1 ∧ k1 < b := by
    by_cases h50 : b - a ≥ 50
    · rw [if_pos h50]
      have hq4 := hq3 h50
      obtain ⟨i1, j1, k1, s, h, h1, h2, h3, h4, h5, h6⟩ := choosePivotNinther_safe less data
        (a + q * 1) (a + q * 2) (a + q * 3) (by omega) (by omega) (by omega) (by omega)
        (by omega) (by omega) hff
      exact ⟨i1, j1, k1, s, h, by omega, by omega, by omega, by omega, by omega, by omega⟩
    · rw [if_neg h50]
      exact ⟨_, _, _, _, rfl, by omega, by omega, by omega, by omega, by omega, by omega⟩
  simp only [hn]
  obtain ⟨m, s1, hm, hmm⟩ := median_func_safe less data i1 j1 k1 s (by omega) (by omega)
    (by omega) hff
  simp only [hm]
  exact ⟨m, _, rfl, by omega, by omega⟩

theorem reverseRangeLoop_safe :
    ∀ (fuel i j : Nat) (data : List α), j < data.length → j ≤ fuel + i →
      ∃ d, reverseRangeLoop fuel i j data = some d ∧ d.Perm data
  | 0, i, j, data, _, hfuel => by
    rw [reverseRangeLoop, if_neg (by omega)]
    exact ⟨data, rfl, List.Perm.refl _⟩
  | fuel + 1, i, j, data, hj, hfuel => by
    rw [reverseRangeLoop]
    by_cases hij : i < j
    · rw [if_pos hij]
      obtain ⟨d1, hd1, hp1⟩ := swapAt_isSome (l := data) (i := i) (j := j)
        (by omega) (by omega)
      simp only [hd1]
      obtain ⟨d, hd, hp⟩ := reverseRangeLoop_safe fuel (i + 1) (j - 1) d1
        (by rw [hp1.length_eq]; omega) (by omega)
      exact ⟨d, hd, hp.trans hp1⟩
    · rw [if_neg hij]
      exact ⟨data, rfl, List.Perm.refl _⟩

theorem reverseRange_func_safe (data : List α) (a b : Nat) (hab : a < b)
    (hb : b ≤ data.length) :
    ∃ d, reverseRange_func data a b = some d ∧ d.Perm data :=
  reverseRangeLoop_safe (b - a) a (b - 1) data (by omega) (by omega)

end SortSafety4

section SortSafety5

variable {α : Type}

theorem pdqsortBreakPatterns_safe (next : Nat → Nat) (data : List α) (a b limit : Nat)
    (wasBalanced : Bool) (hab : a ≤ b) (hb : b ≤ data.length) :
    ∃ d limit1, pdqsortBreakPatterns next data a b limit wasBalanced = some (d, limit1) ∧
      d.Perm data := by
  unfold pdqsortBreakPatterns
  split_ifs
  · obtain ⟨d, hd, hp⟩ := breakPatterns_func_safe next data a b hab hb
    simp only [hd]
    exact ⟨d, _, rfl, hp⟩
  · exact ⟨data, limit, rfl, List.Perm.refl _⟩

theorem pdqsortChoosePivot_safe (less : α → α → Option Bool) (data : List α) (a b : Nat)
    (hab : a + 8 ≤ b) (hb : b ≤ data.length) (hff : FaultFree less data) :
    ∃ d pivot hint, pdqsortChoosePivot less data a b = some (d, pivot, hint) ∧
      d.Perm data ∧ a ≤ pivot ∧ pivot < b := by
  unfold pdqsortChoosePivot
  obtain ⟨pivot, hint, hc, h1, h2⟩ := choosePivot_func_safe less data a b hab hb hff
  simp only [hc]
  split_ifs
  · obtain ⟨d, hd, hp⟩ := reverseRange_func_safe data a b (by omega) hb
    simp only [hd]
    exact ⟨d, _, _, rfl, hp, by omega, by omega⟩
  · exact ⟨data, pivot, hint, rfl, List.Perm.refl _, h1, h2⟩

theorem pdqsortLikelySorted_safe (less : α → α → Option Bool) (data : List α) (a b : Nat)
    (wasBalanced wasPartitioned : Bool) (hint : sortedHint) (hab : a < b)
    (hb : b ≤ data.length) (hff : FaultFree less data) :
    ∃ d sorted, pdqsortLikelySorted less data a b wasBalanced wasPartitioned hint =
      some (d, sorted) ∧ d.Perm data := by
  unfold pdqsortLikelySorted
  split_ifs
  · exact partialInsertionSort_func_safe less data a b hab hb hff
  · exact ⟨data, false, rfl, List.Perm.refl _⟩

theorem pdqsortManyDuplicates_safe (less : α → α → Option Bool) (data : List α) (a pivot : Nat)
    (ha : a ≤ data.length) (hp : pivot < data.length) (hff : FaultFree less data) :
    ∃ c, pdqsortManyDuplicates less data a pivot = some c := by
  unfold pdqsortManyDuplicates
  split_ifs
  · exact notLessAt_isSome hff (by omega) hp
  · exact ⟨false, rfl⟩

/-- `pdqsort_func` ends, without a fault, in a rearrangement of the slice, for every
comparison closure that faults on no two elements of the slice. -/
theorem pdqsortLoop_safe (next : Nat → Nat) (less : α → α → Option Bool) :
    ∀ (fuel : Nat) (data : List α) (a b limit : Nat) (wasBalanced wasPartitioned : Bool),
      a ≤ b → b ≤ data.length → b - a < fuel → FaultFree less data →
      ∃ d, pdqsortLoop next less fuel data a b limit wasBalanced wasPartitioned = some d ∧
        d.Perm data
  | 0, _, _, _, _, _, _, _, _, h0, _ => absurd h0 (by omega)
  | fuel + 1, data, a, b, limit, wasBalanced, wasPartitioned, hab, hb, hfuel, hff => by
    rw [pdqsortLoop]
    simp only []
    by_cases h12 : b - a ≤ 12
    · rw [if_pos h12]
      exact insertionSort_func_safe less data a b hb hff
    rw [if_neg h12]
    by_cases hlimit : limit = 0
    · rw [if_pos hlimit]
      exact heapSort_func_safe less data a b hab hb hff
    rw [if_neg hlimit]
    obtain ⟨d1, limit1, h1, hp1⟩ :=
      pdqsortBreakPatterns_safe next data a b limit wasBalanced hab hb
    simp only [h1]
    have hl1 := hp1.length_eq
    obtain ⟨d2, pivot, hint, h2, hp2, hpa, hpb⟩ :=
      pdqsortChoosePivot_safe less d1 a b (by omega) (by omega) (hff.rearranged hp1)
    simp only [h2]
    have hl2 := hp2.length_eq
    obtain ⟨d3, sorted, h3, hp3⟩ := pdqsortLikelySorted_safe less d2 a b wasBalanced
      wasPartitioned hint (by omega) (by omega) (hff.rearranged (hp2.trans hp1))
    simp only [h3]
    have hl3 := hp3.length_eq
    have hp03 : d3.Perm data := (hp3.trans hp2).trans hp1
    have hff3 := hff.rearranged hp03
    cases sorted
    swap
    · exact ⟨d3, rfl, hp03⟩
    simp only []
    obtain ⟨c, h4⟩ := pdqsortManyDuplicates_safe less d3 a pivot (by omega) (by omega) hff3
    simp only [h4]
    cases c
    · simp only []
      obtain ⟨d4, mid, already, h5, hp4, hm1, hm2⟩ :=
        partition_func_safe less d3 a b pivot (by omega) (by omega) hpa hpb hff3
      simp only [h5]
      have hl4 := hp4.length_eq
      have hff4 := hff3.rearranged hp4
      by_cases hlr : mid - a < b - mid
      · rw [if_pos hlr]
        obtain ⟨d5, h6, hp5⟩ := pdqsortLoop_safe next less fuel d4 a mid limit1 true true
          hm1 (by omega) (by omega) hff4
        simp only [h6]
        obtain ⟨d6, h7, hp6⟩ := pdqsortLoop_safe next less fuel d5 (mid + 1) b limit1
          (decide (mid - a ≥ (b - a) / 8)) already (by omega)
          (by rw [hp5.length_eq]; omega) (by omega) (hff4.rearranged hp5)
        exact ⟨d6, h7, ((hp6.trans hp5).trans hp4).trans hp03⟩
      · rw [if_neg hlr]
        obtain ⟨d5, h6, hp5⟩ := pdqsortLoop_safe next less fuel d4 (mid + 1) b limit1 true
          true (by omega) (by omega) (by omega) hff4
        simp only [h6]
        obtain ⟨d6, h7, hp6⟩ := pdqsortLoop_safe next less fuel d5 a mid limit1
          (decide (b - mid ≥ (b - a) / 8)) already hm1
          (by rw [hp5.length_eq]; omega) (by omega) (hff4.rearranged hp5)
        exact ⟨d6, h7, ((hp6.trans hp5).trans hp4).trans hp03⟩
    · simp only []
      obtain ⟨d4, mid, h5, hp4, hm1, hm2⟩ :=
        partitionEqual_func_safe less d3 a b pivot (by omega) (by omega) hpa hpb hff3
      simp only [h5]
      obtain ⟨d5, h6, hp5⟩ := pdqsortLoop_safe next less fuel d4 mid b limit1 wasBalanced
        wasPartitioned hm2 (by rw [hp4.length_eq]; omega) (by omega) (hff3.rearranged hp4)
      exact ⟨d5, h6, (hp5.trans hp4).trans hp03⟩

/-- `sort.Slice` ends, without a fault, in a rearrangement of the slice, for every
comparison closure that faults on no two elements of the slice. -/
theorem Slice_safe (next : Nat → Nat) (x : List α) (less : α → α → Option Bool)
    (hff : FaultFree less x) :
    ∃ d, Slice next x less = some d ∧ d.Perm x :=
  pdqsortLoop_safe next less (x.length - 0 + 1) x 0 x.length (bitsLen x.length) true true
    (Nat.zero_le _) (le_refl _) (by omega) hff

end SortSafety5

/-! ## Package `sort`: the effect of reads and swaps on the keys -/

section SortKeys

variable {α : Type}

theorem OrdersBy.perm {less : α → α → Option Bool} {key : α → Int} {data d : List α}
    (h : OrdersBy less key data) (hp : d.Perm data) : OrdersBy less key d :=
  fun x hx y hy => h x (hp.mem_iff.1 hx) y (hp.mem_iff.1 hy)

/-- A closure that orders the elements by a key faults on none of them. -/
theorem OrdersBy.faultFree {less : α → α → Option Bool} {key : α → Int} {data : List α}
    (h : OrdersBy less key data) : FaultFree less data :=
  fun x hx y hy => ⟨_, h x hx y hy⟩

theorem keyAt_eq (key : α → Int) {l : List α} {i : Nat} (hi : i < l.length) :
    keyAt key l i = key l[i] := by
  simp [keyAt, List.getElem?_eq_getElem hi]

theorem lessAt_ordersBy {less : α → α → Option Bool} {key : α → Int} {l : List α}
    (h : OrdersBy less key l) {i j : Nat} (hi : i < l.length) (hj : j < l.length) :
    lessAt less l i j = some (decide (keyAt key l i < keyAt key l j)) := by
  rw [lessAt_eq less hi hj, keyAt_eq key hi, keyAt_eq key hj,
    h _ (List.getElem_mem hi) _ (List.getElem_mem hj)]

theorem notLessAt_ordersBy {less : α → α → Option Bool} {key : α → Int} {l : List α}
    (h : OrdersBy less key l) {i j : Nat} (hi : i < l.length) (hj : j < l.length) :
    notLessAt less l i j = some (decide (keyAt key l j ≤ keyAt key l i)) := by
  rw [notLessAt, lessAt_ordersBy h hi hj]
  simp only [Option.some.injEq]
  by_cases hlt : keyAt key l i < keyAt key l j
  · simp [hlt]
  · simp [hlt, not_lt.1 hlt]

theorem swapAt_bounds {l d : List α} {i j : Nat} (h : swapAt l i j = some d) :
    i < l.length ∧ j < l.length := by
  unfold swapAt at h
  cases hi : l[i]? with
  | none => simp [hi] at h
  | some x =>
    cases hj : l[j]? with
    | none => simp [hi, hj] at h
    | some y =>
      exact ⟨(List.getElem?_eq_some_iff.1 hi).1, (List.getElem?_eq_some_iff.1 hj).1⟩

theorem swapAt_getElem? {l d : List α} {i j : Nat} (h : swapAt l i j = some d) (k : Nat) :
    d[k]? = if k = j then l[i]? else if k = i then l[j]? else l[k]? := by
  obtain ⟨hi, hj⟩ := swapAt_bounds h
  rw [swapAt_eq_some hi hj] at h
  cases h
  rw [List.getElem?_set]
  by_cases hkj : j = k
  · subst hkj
    simp [List.length_set, hj, List.getElem?_eq_getElem hi]
  · rw [if_neg hkj, if_neg (fun h => hkj h.symm), List.getElem?_set]
    by_cases hki : i = k
    · subst hki
      simp [hi, List.getElem?_eq_getElem hj]
    · rw [if_neg hki, if_neg (fun h => hki h.symm)]

theorem keyAt_swapAt (key : α → Int) {l d : List α} {i j : Nat} (h : swapAt l i j = some d)
    (k : Nat) :
    keyAt key d k =
      if k = j then keyAt key l i else if k = i then keyAt key l j else keyAt key l k := by
  unfold keyAt
  rw [swapAt_getElem? h k]
  split_ifs <;> rfl

theorem Within.refl (a b : Nat) (data : List α) : Within a b data data :=
  ⟨List.Perm.refl _, fun _ _ => rfl, fun k h1 h2 => ⟨k, h1, h2, rfl⟩⟩

theorem Within.trans {a b : Nat} {data d1 d2 : List α} (h1 : Within a b data d1)
    (h2 : Within a b d1 d2) : Within a b data d2 :=
  ⟨h2.perm.trans h1.perm, fun k hk => (h2.frame k hk).trans (h1.frame k hk),
    fun k hk1 hk2 => by
      obtain ⟨k1, h3, h4, h5⟩ := h2.range k hk1 hk2
      obtain ⟨k2, h6, h7, h8⟩ := h1.range k1 h3 h4
      exact ⟨k2, h6, h7, h5.trans h8⟩⟩

theorem Within.mono {a b a1 b1 : Nat} {data d : List α} (h : Within a b data d)
    (ha : a1 ≤ a) (hb : b ≤ b1) : Within a1 b1 data d :=
  ⟨h.perm, fun k hk => h.frame k (by omega), fun k hk1 hk2 => by
    by_cases hin : a ≤ k ∧ k < b
    · obtain ⟨k1, h3, h4, h5⟩ := h.range k hin.1 hin.2
      exact ⟨k1, by omega, by omega, h5⟩
    · exact ⟨k, hk1, hk2, h.frame k (by omega)⟩⟩

theorem Within.swap {a b : Nat} {l d : List α} {i j : Nat} (h : swapAt l i j = some d)
    (hai : a ≤ i) (hib : i < b) (haj : a ≤ j) (hjb : j < b) : Within a b l d :=
  ⟨swapAt_perm h, fun k hk => by
    rw [swapAt_getElem? h k, if_neg (by omega), if_neg (by omega)],
    fun k hk1 hk2 => by
      rw [swapAt_getElem? h k]
      split_ifs
      · exact ⟨i, hai, hib, rfl⟩
      · exact ⟨j, haj, hjb, rfl⟩
      · exact ⟨k, hk1, hk2, rfl⟩⟩

theorem Within.length_eq {a b : Nat} {data d : List α} (h : Within a b data d) :
    d.length = data.length :=
  h.perm.length_eq

theorem Within.keyAt_frame (key : α → Int) {a b : Nat} {data d : List α}
    (h : Within a b data d) {k : Nat} (hk : k < a ∨ b ≤ k) :
    keyAt key d k = keyAt key data k := by
  unfold keyAt
  rw [h.frame k hk]

theorem Within.keyAt_range (key : α → Int) {a b : Nat} {data d : List α}
    (h : Within a b data d) {k : Nat} (hk1 : a ≤ k) (hk2 : k < b) :
    ∃ k1, a ≤ k1 ∧ k1 < b ∧ keyAt key d k = keyAt key data k1 := by
  obtain ⟨k1, h1, h2, h3⟩ := h.range k hk1 hk2
  exact ⟨k1, h1, h2, by unfold keyAt; rw [h3]⟩

theorem Within.ordersBy {less : α → α → Option Bool} {key : α → Int} {a b : Nat} {data d : List α}
    (h : Within a b data d) (ho : OrdersBy less key data) : OrdersBy less key d :=
  ho.perm h.perm

/-- A slice sorted from end to end is sorted as a list. -/
theorem SortedOn.pairwise {key : α → Int} {data : List α}
    (h : SortedOn key data 0 data.length) : data.Pairwise (fun x y => key x ≤ key y) := by
  rw [List.pairwise_iff_getElem]
  intro i j hi hj hij
  have := h i j (Nat.zero_le _) (by omega) hj
  rwa [keyAt_eq key hi, keyAt_eq key hj] at this

end SortKeys

/-! ## Package `sort`: insertion sort sorts, and keeps equal keys in order -/

section InsertionSort

variable {α : Type}

theorem StableFor.same (key : α → Int) (data : List α) : StableFor key data data :=
  fun _ => rfl

theorem StableFor.chain {key : α → Int} {data d1 d2 : List α} (h1 : StableFor key data d1)
    (h2 : StableFor key d1 d2) : StableFor key data d2 :=
  fun c => (h2 c).trans (h1 c)

/-- Exchanging two neighbours of different keys keeps equal keys in order. -/
theorem swapAt_adjacent_stable (key : α → Int) :
    ∀ (l d : List α) (j : Nat), swapAt l (j + 1) j = some d →
      keyAt key l j ≠ keyAt key l (j + 1) → StableFor key l d
  | [], d, j, h, _ => by simp [swapAt] at h
  | [u], d, j, h, _ => by
    have := (swapAt_bounds h).1
    simp at this
  | u :: v :: t, d, 0, h, hne => by
    simp [swapAt] at h
    subst h
    intro c
    simp only [keyAt, List.getElem?_cons_zero, List.getElem?_cons_succ] at hne
    by_cases hu : key u = c <;> by_cases hv : key v = c
    · exact absurd (hu.trans hv.symm) hne
    · simp [List.filter_cons, hu, hv]
    · simp [List.filter_cons, hu, hv]
    · simp [List.filter_cons, hu, hv]
  | u :: v :: t, d, j + 1, h, hne => by
    have hb := swapAt_bounds h
    have hb1 : j + 1 < (v :: t).length := by simpa using hb.1
    have hb2 : j < (v :: t).length := by simpa using hb.2
    have hs := swapAt_eq_some hb1 hb2
    have h2 : d = u :: ((v :: t).set (j + 1) (v :: t)[j]).set j (v :: t)[j + 1] := by
      rw [swapAt_eq_some hb.1 hb.2] at h
      simpa using h.symm
    have hne2 : keyAt key (v :: t) j ≠ keyAt key (v :: t) (j + 1) := by
      simpa [keyAt] using hne
    have ih := swapAt_adjacent_stable key (v :: t) _ j hs hne2
    intro c
    rw [h2, List.filter_cons, List.filter_cons (x := u), ih c]

theorem insertionSortInner_spec {less : α → α → Option Bool} {key : α → Int} (a i : Nat) :
    ∀ (j : Nat) (data d : List α), insertionSortInner less a j data = some d →
      OrdersBy less key data → a ≤ j → j ≤ i → i < data.length →
      (∀ p q, a ≤ p → p < q → q ≤ i → q ≠ j → keyAt key data p ≤ keyAt key data q) →
      Within a (i + 1) data d ∧ SortedOn key d a (i + 1) ∧ StableFor key data d
  | 0, data, d, h, _, ha, _, _, inv => by
    simp only [insertionSortInner, Option.some.injEq] at h
    subst h
    refine ⟨Within.refl _ _ _, fun p q hp hpq hq => ?_, StableFor.same _ _⟩
    have e := inv p q hp
    by_cases hpq2 : p = q
    · subst hpq2; exact le_refl _
    · exact e (by omega) (by omega) (by omega)
  | j + 1, data, d, h, ho, ha, hji, hi, inv => by
    rw [insertionSortInner] at h
    by_cases haj : a < j + 1
    · rw [if_pos haj, lessAt_ordersBy ho (by omega) (by omega)] at h
      by_cases hlt : keyAt key data (j + 1) < keyAt key data j
      · simp only [hlt, decide_True] at h
        obtain ⟨d1, hd1, hp1⟩ := swapAt_isSome (l := data) (i := j + 1) (j := j)
          (by omega) (by omega)
        simp only [hd1] at h
        have hinv1 : ∀ p q, a ≤ p → p < q → q ≤ i → q ≠ j →
            keyAt key d1 p ≤ keyAt key d1 q := by
          intro p q hp hpq hq hqj
          have e1 := inv p q hp hpq hq
          have e2 := inv p j hp
          have e3 := inv (j + 1) q (by omega)
          have e4 := inv j q (by omega)
          rw [keyAt_swapAt key hd1 p, keyAt_swapAt key hd1 q]
          split_ifs <;> omega
        obtain ⟨hw, hs, hst⟩ := insertionSortInner_spec a i j d1 d h (ho.perm hp1)
          (by omega) (by omega) (by rw [hp1.length_eq]; exact hi) hinv1
        exact ⟨(Within.swap hd1 (by omega) (by omega) (by omega) (by omega)).trans hw, hs,
          (swapAt_adjacent_stable key data d1 j hd1 (by omega)).chain hst⟩
      · simp only [hlt, decide_False, Option.some.injEq] at h
        subst h
        refine ⟨Within.refl _ _ _, fun p q hp hpq hq => ?_, StableFor.same _ _⟩
        by_cases hpq2 : p = q
        · subst hpq2; exact le_refl _
        · by_cases hq1 : q = j + 1
          · subst hq1
            by_cases hp1 : p = j
            · subst hp1; omega
            · have e2 := inv p j hp (by omega) (by omega) (by omega)
              omega
          · exact inv p q hp (by omega) (by omega) hq1
    · rw [if_neg haj] at h
      simp only [Option.some.injEq] at h
      subst h
      refine ⟨Within.refl _ _ _, fun p q hp hpq hq => ?_, StableFor.same _ _⟩
      by_cases hpq2 : p = q
      · subst hpq2; exact le_refl _
      · exact inv p q hp (by omega) (by omega) (by omega)

theorem insertionSortFold_spec {less : α → α → Option Bool} {key : α → Int} (a : Nat) :
    ∀ (n i : Nat) (data d : List α),
      (List.range' i n).foldlM (fun d k => insertionSortInner less a k d) data = some d →
      OrdersBy less key data → a < i → i + n ≤ data.length → SortedOn key data a i →
      Within a (i + n) data d ∧ SortedOn key d a (i + n) ∧ StableFor key data d
  | 0, i, data, d, h, _, _, _, hs => by
    simp only [List.range'_zero, List.foldlM_nil, Option.pure_def, Option.some.injEq] at h
    subst h
    exact ⟨Within.refl _ _ _, hs, StableFor.same _ _⟩
  | n + 1, i, data, d, h, ho, hai, hlen, hs => by
    rw [List.range'_succ, List.foldlM_cons] at h
    cases h1 : insertionSortInner less a i data with
    | none => simp [h1] at h
    | some d1 =>
      simp only [h1, Option.bind_eq_bind, Option.some_bind] at h
      obtain ⟨hw1, hs1, hst1⟩ := insertionSortInner_spec a i i data d1 h1 ho
        (by omega) (le_refl _) (by omega)
        (fun p q hp hpq hq hqi => hs p q hp (by omega) (by omega))
      obtain ⟨hw2, hs2, hst2⟩ := insertionSortFold_spec a n (i + 1) d1 d h (hw1.ordersBy ho)
        (by omega) (by rw [hw1.length_eq]; omega) hs1
      have e : i + 1 + n = i + (n + 1) := by omega
      rw [e] at hw2 hs2
      exact ⟨(hw1.mono (le_refl _) (by omega)).trans hw2, hs2, hst1.chain hst2⟩

/-- `insertionSort_func` sorts `data[a:b]` by key, touches nothing else, and keeps
elements of equal key in their order. -/
theorem insertionSort_func_spec {less : α → α → Option Bool} {key : α → Int} {data d : List α}
    {a b : Nat} (h : insertionSort_func less data a b = some d) (ho : OrdersBy less key data)
    (hab : a ≤ b) (hb : b ≤ data.length) :
    Within a b data d ∧ SortedOn key d a b ∧ StableFor key data d := by
  unfold insertionSort_func at h
  by_cases hlt : a < b
  · obtain ⟨hw, hs, hst⟩ := insertionSortFold_spec a (b - (a + 1)) (a + 1) data d
      h ho (by omega) (by omega)
      (fun p q hp hpq hq => by
        have : p = q := by omega
        subst this; exact le_refl _)
    have e : a + 1 + (b - (a + 1)) = b := by omega
    rw [e] at hw hs
    exact ⟨hw, hs, hst⟩
  · have e : b - (a + 1) = 0 := by omega
    rw [e] at h
    simp only [List.range'_zero, List.foldlM_nil, Option.pure_def, Option.some.injEq] at h
    subst h
    exact ⟨Within.refl _ _ _, fun p q hp hpq hq => by omega, StableFor.same _ _⟩

end InsertionSort

/-- On a slice of at most `maxInsertion = 12` elements `sort.Slice` is one insertion
sort. -/
theorem Slice_small {α : Type} (next : Nat → Nat) (x : List α) (less : α → α → Option Bool)
    (h : x.length ≤ 12) : Slice next x less = insertionSort_func less x 0 x.length := by
  unfold Slice pdqsort_func
  simp only [Nat.sub_zero]
  rw [pdqsortLoop]
  simp only [Nat.sub_zero, if_pos h]

/-! ## Package `sort`: the pieces of `pdqsort_func` that only rearrange `data[a:b]` -/

section SortFrames

variable {α : Type}

theorem breakPatternsStep_within (next : Nat → Nat) (a length : Nat) (st st1 : List α × Nat)
    (i : Nat) (h : breakPatternsStep next a length st i = some st1) (h8 : 8 ≤ length)
    (hi : i < 3) : Within a (a + length) st.1 st1.1 := by
  unfold breakPatternsStep at h
  simp only [] at h
  have hpow := nextPowerOfTwo_le length (by omega)
  have hand : next st.2 &&& (nextPowerOfTwo length - 1) ≤ nextPowerOfTwo length - 1 :=
    Nat.and_le_right
  cases hs : swapAt st.1 (a + length / 4 * 2 - 1 + i)
      (a + if next st.2 &&& (nextPowerOfTwo length - 1) ≥ length then
            (next st.2 &&& (nextPowerOfTwo length - 1)) - length
          else next st.2 &&& (nextPowerOfTwo length - 1)) with
  | none => simp [hs] at h
  | some d =>
    simp only [hs, Option.some.injEq] at h
    subst h
    exact Within.swap hs (by omega) (by omega) (by omega) (by split_ifs <;> omega)

theorem breakPatterns_func_within (next : Nat → Nat) {data d : List α} {a b : Nat}
    (h : breakPatterns_func next data a b = some d) (hab : a ≤ b) : Within a b data d := by
  unfold breakPatterns_func at h
  simp only [] at h
  by_cases h8 : b - a ≥ 8
  · rw [if_pos h8] at h
    have e : a + (b - a) = b := by omega
    cases h1 : breakPatternsStep next a (b - a) (data, b - a) 0 with
    | none => simp [h1] at h
    | some st1 =>
      cases h2 : breakPatternsStep next a (b - a) st1 1 with
      | none => simp [h1, h2] at h
      | some st2 =>
        cases h3 : breakPatternsStep next a (b - a) st2 2 with
        | none => simp [h1, h2, h3] at h
        | some st3 =>
          simp only [h1, h2, h3, Option.some.injEq] at h
          subst h
          have w1 := breakPatternsStep_within next a (b - a) _ _ 0 h1 h8 (by omega)
          have w2 := breakPatternsStep_within next a (b - a) _ _ 1 h2 h8 (by omega)
          have w3 := breakPatternsStep_within next a (b - a) _ _ 2 h3 h8 (by omega)
          rw [e] at w1 w2 w3
          exact (w1.trans w2).trans w3
  · rw [if_neg h8] at h
    simp only [Option.some.injEq] at h
    subst h
    exact Within.refl _ _ _

theorem reverseRangeLoop_within :
    ∀ (fuel i j : Nat) (data d : List α), reverseRangeLoop fuel i j data = some d →
      Within i (j + 1) data d
  | 0, i, j, data, d, h => by
    rw [reverseRangeLoop] at h
    split_ifs at h
    simp only [Option.some.injEq] at h
    subst h
    exact Within.refl _ _ _
  | fuel + 1, i, j, data, d, h => by
    rw [reverseRangeLoop] at h
    by_cases hij : i < j
    · rw [if_pos hij] at h
      cases hs : swapAt data i j with
      | none => simp [hs] at h
      | some d1 =>
        simp only [hs] at h
        have w := reverseRangeLoop_within fuel (i + 1) (j - 1) d1 d h
        exact (Within.swap hs (le_refl _) (by omega) (by omega) (by omega)).trans
          (w.mono (by omega) (by omega))
    · rw [if_neg hij] at h
      simp only [Option.some.injEq] at h
      subst h
      exact Within.refl _ _ _

theorem reverseRange_func_within {data d : List α} {a b : Nat}
    (h : reverseRange_func data a b = some d) (hab : a < b) : Within a b data d := by
  have w := reverseRangeLoop_within (b - a) a (b - 1) data d h
  have e : b - 1 + 1 = b := by omega
  rwa [e] at w

theorem shiftGreaterRight_within (less : α → α → Option Bool) (b : Nat) :
    ∀ (fuel j : Nat) (data d : List α), shiftGreaterRight less b fuel j data = some d →
      0 < j → Within (j - 1) b data d
  | 0, j, data, d, h, _ => by
    rw [shiftGreaterRight] at h
    split_ifs at h
    simp only [Option.some.injEq] at h
    subst h
    exact Within.refl _ _ _
  | fuel + 1, j, data, d, h, hj => by
    rw [shiftGreaterRight] at h
    by_cases hjb : j < b
    · rw [if_pos hjb] at h
      cases hc : lessAt less data j (j - 1) with
      | none => simp [hc] at h
      | some c =>
        cases c
        · simp only [hc, Option.some.injEq] at h
          subst h
          exact Within.refl _ _ _
        · cases hs : swapAt data j (j - 1) with
          | none => simp [hc, hs] at h
          | some d1 =>
            simp only [hc, hs] at h
            have w := shiftGreaterRight_within less b fuel (j + 1) d1 d h (by omega)
            exact (Within.swap hs (by omega) hjb (le_refl _) (by omega)).trans
              (w.mono (by omega) (le_refl _))
    · rw [if_neg hjb] at h
      simp only [Option.some.injEq] at h
      subst h
      exact Within.refl _ _ _

/-- What a loop `for i < bound && test(i) { i++ }` has seen when it stops. -/
theorem scanUp_spec (test : Nat → Option Bool) (bound : Nat) :
    ∀ (fuel i i1 : Nat), scanUp test bound fuel i = some i1 →
      i ≤ i1 ∧ (∀ k, i ≤ k → k < i1 → test k = some true) ∧
        (i1 < bound → test i1 = some false) ∧ (i1 ≤ bound ∨ i1 = i)
  | 0, i, i1, h => by
    rw [scanUp] at h
    split_ifs at h with hb
    simp only [Option.some.injEq] at h
    subst h
    exact ⟨le_refl _, fun k h1 h2 => by omega, fun h => absurd h hb, Or.inr rfl⟩
  | fuel + 1, i, i1, h => by
    rw [scanUp] at h
    by_cases hb : i < bound
    · rw [if_pos hb] at h
      cases ht : test i with
      | none => simp [ht] at h
      | some c =>
        cases c
        · simp only [ht, Option.some.injEq] at h
          subst h
          exact ⟨le_refl _, fun k h1 h2 => by omega, fun _ => ht, Or.inl (by omega)⟩
        · simp only [ht] at h
          obtain ⟨h1, h2, h3, h4⟩ := scanUp_spec test bound fuel (i + 1) i1 h
          refine ⟨by omega, fun k hk1 hk2 => ?_, h3, by omega⟩
          by_cases hki : k = i
          · subst hki; exact ht
          · exact h2 k (by omega) hk2
    · rw [if_neg hb] at h
      simp only [Option.some.injEq] at h
      subst h
      exact ⟨le_refl _, fun k h1 h2 => by omega, fun h => absurd h hb, Or.inr rfl⟩

/-- What a loop `for i <= j && test(j) { j-- }` has seen when it stops. -/
theorem scanDown_spec (test : Nat → Option Bool) (i : Nat) (hi : 0 < i) :
    ∀ (fuel j j1 : Nat), scanDown test i fuel j = some j1 →
      j1 ≤ j ∧ (∀ k, j1 < k → k ≤ j → test k = some true) ∧
        (i ≤ j1 → test j1 = some false) ∧ (i ≤ j1 + 1 ∨ j1 = j)
  | 0, j, j1, h => by
    rw [scanDown] at h
    split_ifs at h with hb
    simp only [Option.some.injEq] at h
    subst h
    exact ⟨le_refl _, fun k h1 h2 => by omega, fun h => absurd h hb, Or.inr rfl⟩
  | fuel + 1, j, j1, h => by
    rw [scanDown] at h
    by_cases hb : i ≤ j
    · rw [if_pos hb] at h
      cases ht : test j with
      | none => simp [ht] at h
      | some c =>
        cases c
        · simp only [ht, Option.some.injEq] at h
          subst h
          exact ⟨le_refl _, fun k h1 h2 => by omega, fun _ => ht, Or.inl (by omega)⟩
        · simp only [ht] at h
          obtain ⟨h1, h2, h3, h4⟩ := scanDown_spec test i hi fuel (j - 1) j1 h
          refine ⟨by omega, fun k hk1 hk2 => ?_, h3, by omega⟩
          by_cases hkj : k = j
          · subst hkj; exact ht
          · exact h2 k hk1 (by omega)
    · rw [if_neg hb] at h
      simp only [Option.some.injEq] at h
      subst h
      exact ⟨le_refl _, fun k h1 h2 => by omega, fun h => absurd h hb, Or.inr rfl⟩

end SortFrames

/-! ## Package `sort`: the two partition functions -/

section SortPartition

variable {α : Type}

theorem partitionLoop_spec {less : α → α → Option Bool} {key : α → Int} (a b : Nat) :
    ∀ (fuel : Nat) (data d : List α) (i j j1 : Nat),
      partitionLoop less a fuel data i j = some (d, j1) → OrdersBy less key data →
      a < i → a ≤ j → j < b → b ≤ data.length →
      (∀ k, a < k → k < i → keyAt key data k < keyAt key data a) →
      (∀ k, j < k → k < b → keyAt key data a ≤ keyAt key data k) →
      Within (a + 1) b data d ∧ a ≤ j1 ∧ j1 < b ∧
        (∀ k, a < k → k ≤ j1 → keyAt key d k < keyAt key data a) ∧
        (∀ k, j1 < k → k < b → keyAt key data a ≤ keyAt key d k)
  | 0, _, _, _, _, _, h, _, _, _, _, _, _, _ => by simp [partitionLoop] at h
  | fuel + 1, data, d, i, j, j1, h, ho, hai, haj, hjb, hb, hL, hR => by
    rw [partitionLoop] at h
    cases hi1 : scanUp (fun k => lessAt less data k a) (j + 1) (j + 1 - i) i with
    | none => simp [hi1] at h
    | some i1 =>
      simp only [hi1] at h
      obtain ⟨hu1, hu2, hu3, hu4⟩ := scanUp_spec _ _ _ _ _ hi1
      cases hj1 : scanDown (fun k => notLessAt less data k a) i1 (j + 1 - i1) j with
      | none => simp [hj1] at h
      | some j2 =>
        simp only [hj1] at h
        obtain ⟨hd1, hd2, hd3, hd4⟩ := scanDown_spec _ i1 (by omega) _ _ _ hj1
        have hL1 : ∀ k, a < k → k < i1 → keyAt key data k < keyAt key data a := by
          intro k hk1 hk2
          by_cases hki : k < i
          · exact hL k hk1 hki
          · have := hu2 k (by omega) hk2
            rw [lessAt_ordersBy ho (by omega) (by omega)] at this
            simpa using this
        have hR1 : ∀ k, j2 < k → k < b → keyAt key data a ≤ keyAt key data k := by
          intro k hk1 hk2
          by_cases hkj : j < k
          · exact hR k hkj hk2
          · have := hd2 k hk1 (by omega)
            rw [notLessAt_ordersBy ho (by omega) (by omega)] at this
            simpa using this
        by_cases hgt : i1 > j2
        · rw [if_pos hgt] at h
          simp only [Option.some.injEq, Prod.mk.injEq] at h
          obtain ⟨rfl, rfl⟩ := h
          exact ⟨Within.refl _ _ _, by omega, by omega,
            fun k hk1 hk2 => hL1 k hk1 (by omega), hR1⟩
        · rw [if_neg hgt] at h
          cases hs : swapAt data i1 j2 with
          | none => simp [hs] at h
          | some d1 =>
            simp only [hs] at h
            have hstop1 : keyAt key data a ≤ keyAt key data i1 := by
              have := hu3 (by omega)
              rw [lessAt_ordersBy ho (by omega) (by omega)] at this
              simpa using this
            have hstop2 : keyAt key data j2 < keyAt key data a := by
              have := hd3 (by omega)
              rw [notLessAt_ordersBy ho (by omega) (by omega)] at this
              simpa using this
            have hne : i1 ≠ j2 := by
              intro he
              rw [he] at hstop1
              omega
            have hw1 : Within (a + 1) b data d1 :=
              Within.swap hs (by omega) (by omega) (by omega) (by omega)
            have hka : keyAt key d1 a = keyAt key data a :=
              hw1.keyAt_frame key (Or.inl (by omega))
            obtain ⟨hw, h1, h2, h3, h4⟩ := partitionLoop_spec a b fuel d1 d (i1 + 1) (j2 - 1) j1
              h (hw1.ordersBy ho) (by omega) (by omega) (by omega)
              (by rw [hw1.length_eq]; exact hb)
              (fun k hk1 hk2 => by
                have e := hL1 k hk1
                rw [hka, keyAt_swapAt key hs k]
                split_ifs <;> omega)
              (fun k hk1 hk2 => by
                have e := hR1 k
                rw [hka, keyAt_swapAt key hs k]
                split_ifs <;> omega)
            rw [hka] at h3 h4
            exact ⟨hw1.trans hw, h1, h2, h3, h4⟩

/-- `partition_func` puts the keys smaller than the pivot's before `newpivot`, the
pivot at `newpivot` and the others after it. -/
theorem partition_func_spec {less : α → α → Option Bool} {key : α → Int} {data d : List α}
    {a b pivot mid : Nat} {already : Bool}
    (h : partition_func less data a b pivot = some (d, mid, already))
    (ho : OrdersBy less key data) (hab : a < b) (hb : b ≤ data.length) (hap : a ≤ pivot)
    (hpb : pivot < b) :
    Within a b data d ∧ a ≤ mid ∧ mid < b ∧
      (∀ k, a ≤ k → k < mid → keyAt key d k < keyAt key d mid) ∧
      (∀ k, mid < k → k < b → keyAt key d mid ≤ keyAt key d k) := by
  unfold partition_func at h
  cases hs0 : swapAt data a pivot with
  | none => simp [hs0] at h
  | some d1 =>
    rw [hs0] at h
    dsimp only at h
    have hw0 : Within a b data d1 := Within.swap hs0 (le_refl _) hab hap hpb
    have ho1 := hw0.ordersBy ho
    have hl1 := hw0.length_eq
    cases hi1 : scanUp (fun k => lessAt less d1 k a) (b - 1 + 1) (b - 1 + 1 - (a + 1))
        (a + 1) with
    | none => rw [hi1] at h; cases h
    | some i1 =>
      rw [hi1] at h
      dsimp only at h
      obtain ⟨hu1, hu2, hu3, hu4⟩ := scanUp_spec _ _ _ _ _ hi1
      cases hj1 : scanDown (fun k => notLessAt less d1 k a) i1 (b - 1 + 1 - i1) (b - 1) with
      | none => rw [hj1] at h; cases h
      | some j1 =>
        rw [hj1] at h
        dsimp only at h
        obtain ⟨hd1, hd2, hd3, hd4⟩ := scanDown_spec _ i1 (by omega) _ _ _ hj1
        have hL1 : ∀ k, a < k → k < i1 → keyAt key d1 k < keyAt key d1 a := by
          intro k hk1 hk2
          have := hu2 k (by omega) hk2
          rw [lessAt_ordersBy ho1 (by omega) (by omega)] at this
          simpa using this
        have hR1 : ∀ k, j1 < k → k < b → keyAt key d1 a ≤ keyAt key d1 k := by
          intro k hk1 hk2
          have := hd2 k hk1 (by omega)
          rw [notLessAt_ordersBy ho1 (by omega) (by omega)] at this
          simpa using this
        by_cases hgt : i1 > j1
        · rw [if_pos hgt] at h
          cases hs : swapAt d1 j1 a with
          | none => simp [hs] at h
          | some d2 =>
            simp only [hs, Option.some.injEq, Prod.mk.injEq] at h
            obtain ⟨rfl, rfl, _⟩ := h
            have hc : j1 = a → keyAt key d1 j1 = keyAt key d1 a := fun h => by rw [h]
            refine ⟨hw0.trans (Within.swap hs (by omega) (by omega) (le_refl _) hab),
              by omega, by omega, fun k hk1 hk2 => ?_, fun k hk1 hk2 => ?_⟩
            · have e1 := hL1 k
              have e2 := hL1 j1
              rw [keyAt_swapAt key hs k, keyAt_swapAt key hs j1]
              split_ifs <;> omega
            · have e1 := hR1 k hk1 hk2
              rw [keyAt_swapAt key hs k, keyAt_swapAt key hs j1]
              split_ifs <;> omega
        · rw [if_neg hgt] at h
          cases hs : swapAt d1 i1 j1 with
          | none => simp [hs] at h
          | some d2 =>
            simp only [hs] at h
            have hstop1 : keyAt key d1 a ≤ keyAt key d1 i1 := by
              have := hu3 (by omega)
              rw [lessAt_ordersBy ho1 (by omega) (by omega)] at this
              simpa using this
            have hstop2 : keyAt key d1 j1 < keyAt key d1 a := by
              have := hd3 (by omega)
              rw [notLessAt_ordersBy ho1 (by omega) (by omega)] at this
              simpa using this
            have hne : i1 ≠ j1 := by
              intro he
              rw [he] at hstop1
              omega
            have hw1 : Within (a + 1) b d1 d2 :=
              Within.swap hs (by omega) (by omega) (by omega) (by omega)
            have hka : keyAt key d2 a = keyAt key d1 a :=
              hw1.keyAt_frame key (Or.inl (by omega))
            cases hloop : partitionLoop less a (b - a + 1) d2 (i1 + 1) (j1 - 1) with
            | none => simp [hloop] at h
            | some r =>
              obtain ⟨d3, j2⟩ := r
              simp only [hloop] at h
              obtain ⟨hw2, h1, h2, h3, h4⟩ := partitionLoop_spec a b _ d2 d3
                (i1 + 1) (j1 - 1) j2 hloop (hw1.ordersBy ho1) (by omega) (by omega) (by omega)
                (by rw [hw1.length_eq]; omega)
                (fun k hk1 hk2 => by
                  have e := hL1 k hk1
                  rw [hka, keyAt_swapAt key hs k]
                  split_ifs <;> omega)
                (fun k hk1 hk2 => by
                  have e := hR1 k
                  rw [hka, keyAt_swapAt key hs k]
                  split_ifs <;> omega)
              have hka3 : keyAt key d3 a = keyAt key d2 a :=
                hw2.keyAt_frame key (Or.inl (by omega))
              cases hs4 : swapAt d3 j2 a with
              | none => simp [hs4] at h
              | some d4 =>
                simp only [hs4, Option.some.injEq, Prod.mk.injEq] at h
                obtain ⟨rfl, rfl, _⟩ := h
                have hc : j2 = a → keyAt key d3 j2 = keyAt key d3 a := fun h => by rw [h]
                refine ⟨((hw0.trans (hw1.mono (by omega) (le_refl _))).trans
                    (hw2.mono (by omega) (le_refl _))).trans
                    (Within.swap hs4 (by omega) (by omega) (le_refl _) hab),
                  by omega, by omega, fun k hk1 hk2 => ?_, fun k hk1 hk2 => ?_⟩
                · have e1 := h3 k
                  have e2 := h3 j2
                  rw [keyAt_swapAt key hs4 k, keyAt_swapAt key hs4 j2]
                  split_ifs <;> omega
                · have e1 := h4 k hk1 hk2
                  rw [keyAt_swapAt key hs4 k, keyAt_swapAt key hs4 j2]
                  split_ifs <;> omega

end SortPartition

section SortPartitionEqual

variable {α : Type}

theorem partitionEqualLoop_spec {less : α → α → Option Bool} {key : α → Int} (a b : Nat) :
    ∀ (fuel : Nat) (data d : List α) (i j i2 : Nat),
      partitionEqualLoop less a fuel data i j = some (d, i2) → OrdersBy less key data →
      a < i → i ≤ b → a ≤ j → j < b → b ≤ data.length →
      (∀ k, a < k → k < i → keyAt key data k ≤ keyAt key data a) →
      (∀ k, j < k → k < b → keyAt key data a < keyAt key data k) →
      Within (a + 1) b data d ∧ a < i2 ∧ i2 ≤ b ∧
        (∀ k, a < k → k < i2 → keyAt key d k ≤ keyAt key data a) ∧
        (∀ k, i2 ≤ k → k < b → keyAt key data a < keyAt key d k)
  | 0, _, _, _, _, _, h, _, _, _, _, _, _, _, _ => by simp [partitionEqualLoop] at h
  | fuel + 1, data, d, i, j, i2, h, ho, hai, hib, haj, hjb, hb, hL, hR => by
    rw [partitionEqualLoop] at h
    cases hi1 : scanUp (fun k => notLessAt less data a k) (j + 1) (j + 1 - i) i with
    | none => rw [hi1] at h; cases h
    | some i1 =>
      rw [hi1] at h
      dsimp only at h
      obtain ⟨hu1, hu2, hu3, hu4⟩ := scanUp_spec _ _ _ _ _ hi1
      cases hj1 : scanDown (fun k => lessAt less data a k) i1 (j + 1 - i1) j with
      | none => rw [hj1] at h; cases h
      | some j2 =>
        rw [hj1] at h
        dsimp only at h
        obtain ⟨hd1, hd2, hd3, hd4⟩ := scanDown_spec _ i1 (by omega) _ _ _ hj1
        have hL1 : ∀ k, a < k → k < i1 → keyAt key data k ≤ keyAt key data a := by
          intro k hk1 hk2
          by_cases hki : k < i
          · exact hL k hk1 hki
          · have := hu2 k (by omega) hk2
            rw [notLessAt_ordersBy ho (by omega) (by omega)] at this
            simpa using this
        have hR1 : ∀ k, j2 < k → k < b → keyAt key data a < keyAt key data k := by
          intro k hk1 hk2
          by_cases hkj : j < k
          · exact hR k hkj hk2
          · have := hd2 k hk1 (by omega)
            rw [lessAt_ordersBy ho (by omega) (by omega)] at this
            simpa using this
        by_cases hgt : i1 > j2
        · rw [if_pos hgt] at h
          simp only [Option.some.injEq, Prod.mk.injEq] at h
          obtain ⟨rfl, rfl⟩ := h
          exact ⟨Within.refl _ _ _, by omega, by omega, hL1,
            fun k hk1 hk2 => hR1 k (by omega) hk2⟩
        · rw [if_neg hgt] at h
          cases hs : swapAt data i1 j2 with
          | none => rw [hs] at h; cases h
          | some d1 =>
            rw [hs] at h
            dsimp only at h
            have hstop1 : keyAt key data a < keyAt key data i1 := by
              have := hu3 (by omega)
              rw [notLessAt_ordersBy ho (by omega) (by omega)] at this
              simpa using this
            have hstop2 : keyAt key data j2 ≤ keyAt key data a := by
              have := hd3 (by omega)
              rw [lessAt_ordersBy ho (by omega) (by omega)] at this
              simpa using this
            have hne : i1 ≠ j2 := by
              intro he
              rw [he] at hstop1
              omega
            have hw1 : Within (a + 1) b data d1 :=
              Within.swap hs (by omega) (by omega) (by omega) (by omega)
            have hka : keyAt key d1 a = keyAt key data a :=
              hw1.keyAt_frame key (Or.inl (by omega))
            obtain ⟨hw, h1, h2, h3, h4⟩ := partitionEqualLoop_spec a b fuel d1 d (i1 + 1)
              (j2 - 1) i2 h (hw1.ordersBy ho) (by omega) (by omega) (by omega) (by omega)
              (by rw [hw1.length_eq]; exact hb)
              (fun k hk1 hk2 => by
                have e := hL1 k hk1
                rw [hka, keyAt_swapAt key hs k]
                split_ifs <;> omega)
              (fun k hk1 hk2 => by
                have e := hR1 k
                rw [hka, keyAt_swapAt key hs k]
                split_ifs <;> omega)
            rw [hka] at h3 h4
            exact ⟨hw1.trans hw, h1, h2, h3, h4⟩

/-- `partitionEqual_func` puts the keys not greater than the pivot's before `newpivot`
and the greater ones from `newpivot` on. -/
theorem partitionEqual_func_spec {less : α → α → Option Bool} {key : α → Int} {data d : List α}
    {a b pivot mid : Nat} (h : partitionEqual_func less data a b pivot = some (d, mid))
    (ho : OrdersBy less key data) (hab : a < b) (hb : b ≤ data.length) (hap : a ≤ pivot)
    (hpb : pivot < b) :
    Within a b data d ∧ a < mid ∧ mid ≤ b ∧
      (∀ k, a ≤ k → k < mid → keyAt key d k ≤ keyAt key data pivot) ∧
      (∀ k, mid ≤ k → k < b → keyAt key data pivot < keyAt key d k) := by
  unfold partitionEqual_func at h
  cases hs0 : swapAt data a pivot with
  | none => rw [hs0] at h; cases h
  | some d1 =>
    rw [hs0] at h
    dsimp only at h
    have hw0 : Within a b data d1 := Within.swap hs0 (le_refl _) hab hap hpb
    have hp : keyAt key d1 a = keyAt key data pivot := by
      rw [keyAt_swapAt key hs0 a]
      by_cases h1 : a = pivot
      · rw [if_pos h1, h1]
      · rw [if_neg h1, if_pos rfl]
    obtain ⟨hw, h1, h2, h3, h4⟩ := partitionEqualLoop_spec a b _ d1 d (a + 1)
      (b - 1) mid h (hw0.ordersBy ho) (by omega) (by omega) (by omega) (by omega)
      (by rw [hw0.length_eq]; exact hb) (fun k hk1 hk2 => by omega)
      (fun k hk1 hk2 => by omega)
    rw [hp] at h3 h4
    refine ⟨hw0.trans (hw.mono (by omega) (le_refl _)), h1, h2, fun k hk1 hk2 => ?_, h4⟩
    by_cases hka : k = a
    · subst hka
      rw [hw.keyAt_frame key (Or.inl (by omega)), hp]
    · exact h3 k (by omega) hk2

end SortPartitionEqual

/-! ## Package `sort`: heap sort -/

section HeapSort

variable {α : Type}

theorem siftDownLoop_spec {less : α → α → Option Bool} {key : α → Int} (hi first lo : Nat) :
    ∀ (fuel root : Nat) (data d : List α),
      siftDownLoop less hi first fuel root data = some d → OrdersBy less key data →
      first + hi ≤ data.length → lo ≤ root →
      (∀ p c, lo ≤ p → p ≠ root → (c = 2 * p + 1 ∨ c = 2 * p + 2) → c < hi →
        keyAt key data (first + c) ≤ keyAt key data (first + p)) →
      (∀ g c, lo ≤ g → (root = 2 * g + 1 ∨ root = 2 * g + 2) →
        (c = 2 * root + 1 ∨ c = 2 * root + 2) → c < hi →
        keyAt key data (first + c) ≤ keyAt key data (first + g)) →
      Within (first + lo) (first + hi) data d ∧ HeapFrom key d first lo hi
  | 0, _, _, _, h, _, _, _, _, _ => by simp [siftDownLoop] at h
  | fuel + 1, root, data, d, h, ho, hlen, hlo, hA, hB => by
    rw [siftDownLoop] at h
    dsimp only at h
    by_cases hchild : 2 * root + 1 ≥ hi
    · rw [if_pos hchild] at h
      simp only [Option.some.injEq] at h
      subst h
      refine ⟨Within.refl _ _ _, fun p c hp hc hch => ?_⟩
      by_cases hpr : p = root
      · omega
      · exact hA p c hp hpr hc hch
    · rw [if_neg hchild] at h
      have rest : ∀ child1 : Nat, (child1 = 2 * root + 1 ∨ child1 = 2 * root + 2) →
          child1 < hi →
          (∀ c, (c = 2 * root + 1 ∨ c = 2 * root + 2) → c < hi →
            keyAt key data (first + c) ≤ keyAt key data (first + child1)) →
          (match lessAt less data (first + root) (first + child1) with
            | none => none
            | some false => some data
            | some true =>
              match swapAt data (first + root) (first + child1) with
              | none => none
              | some data1 => siftDownLoop less hi first fuel child1 data1) = some d →
          Within (first + lo) (first + hi) data d ∧ HeapFrom key d first lo hi := by
        intro child1 hc1 hc1hi hmax h
        rw [lessAt_ordersBy ho (by omega) (by omega)] at h
        by_cases hlt : keyAt key data (first + root) < keyAt key data (first + child1)
        · simp only [hlt, decide_True] at h
          cases hs : swapAt data (first + root) (first + child1) with
          | none => rw [hs] at h; cases h
          | some d1 =>
            rw [hs] at h
            dsimp only at h
            have hw1 : Within (first + lo) (first + hi) data d1 :=
              Within.swap hs (by omega) (by omega) (by omega) (by omega)
            obtain ⟨hw, hheap⟩ := siftDownLoop_spec hi first lo fuel child1 d1 d h
              (hw1.ordersBy ho) (by rw [hw1.length_eq]; exact hlen) (by omega)
              (fun p c hp hpc hc hch => by
                rw [keyAt_swapAt key hs (first + c), keyAt_swapAt key hs (first + p),
                  if_neg (by omega : ¬first + p = first + child1)]
                by_cases hpr : p = root
                · subst hpr
                  rw [if_pos rfl]
                  by_cases hcc : c = child1
                  · subst hcc
                    rw [if_pos rfl]
                    exact le_of_lt hlt
                  · rw [if_neg (by omega), if_neg (by omega)]
                    exact hmax c hc hch
                · rw [if_neg (by omega : ¬first + p = first + root),
                    if_neg (by omega : ¬first + c = first + child1)]
                  by_cases hcr : c = root
                  · subst hcr
                    rw [if_pos rfl]
                    exact hB p child1 hp hc hc1 hc1hi
                  · rw [if_neg (by omega)]
                    exact hA p c hp hpr hc hch)
              (fun g c hg hgc hc hch => by
                have hgr : g = root := by omega
                subst hgr
                rw [keyAt_swapAt key hs (first + c), keyAt_swapAt key hs (first + g),
                  if_neg (by omega : ¬first + c = first + child1),
                  if_neg (by omega : ¬first + c = first + g),
                  if_neg (by omega : ¬first + g = first + child1), if_pos rfl]
                exact hA child1 c (by omega) (by omega) hc hch)
            exact ⟨hw1.trans hw, hheap⟩
        · simp only [hlt, decide_False, Option.some.injEq] at h
          subst h
          refine ⟨Within.refl _ _ _, fun p c hp hc hch => ?_⟩
          by_cases hpr : p = root
          · subst hpr
            have := hmax c hc hch
            omega
          · exact hA p c hp hpr hc hch
      by_cases h2 : 2 * root + 1 + 1 < hi
      · rw [if_pos h2, lessAt_ordersBy ho (by omega) (by omega)] at h
        dsimp only at h
        by_cases hlt : keyAt key data (first + (2 * root + 1)) <
            keyAt key data (first + (2 * root + 1) + 1)
        · simp only [hlt, decide_True, if_true] at h
          refine rest (2 * root + 2) (Or.inr rfl) h2 (fun c hc hch => ?_) h
          have e1 : first + (2 * root + 1) + 1 = first + (2 * root + 2) := by omega
          rw [e1] at hlt
          rcases hc with hc | hc
          · subst hc; omega
          · subst hc; exact le_refl _
        · simp only [hlt, decide_False, Bool.false_eq_true, if_false] at h
          refine rest (2 * root + 1) (Or.inl rfl) (by omega) (fun c hc hch => ?_) h
          have e1 : first + (2 * root + 1) + 1 = first + (2 * root + 2) := by omega
          rw [e1] at hlt
          rcases hc with hc | hc
          · subst hc; exact le_refl _
          · subst hc; omega
      · rw [if_neg h2] at h
        simp only [Bool.false_eq_true, if_false] at h
        refine rest (2 * root + 1) (Or.inl rfl) (by omega) (fun c hc hch => ?_) h
        rcases hc with hc | hc
        · subst hc; exact le_refl _
        · omega

theorem siftDown_func_spec {less : α → α → Option Bool} {key : α → Int} {data d : List α}
    {lo hi first : Nat} (h : siftDown_func less data lo hi first = some d)
    (ho : OrdersBy less key data) (hlen : first + hi ≤ data.length)
    (hheap : HeapFrom key data first (lo + 1) hi) :
    Within (first + lo) (first + hi) data d ∧ HeapFrom key d first lo hi :=
  siftDownLoop_spec hi first lo (hi + 1) lo data d h ho hlen (le_refl _)
    (fun p c hp hpr hc hch => hheap p c (by omega) hc hch)
    (fun g c hg hgr _ _ => by omega)

theorem heapSort_build_spec {less : α → α → Option Bool} {key : α → Int} (hi first : Nat) :
    ∀ (n : Nat) (data d : List α),
      (List.range n).reverse.foldlM (fun d i => siftDown_func less d i hi first) data =
        some d →
      OrdersBy less key data → first + hi ≤ data.length → HeapFrom key data first n hi →
      Within first (first + hi) data d ∧ HeapFrom key d first 0 hi
  | 0, data, d, h, _, _, hheap => by
    simp only [List.range_zero, List.reverse_nil, List.foldlM_nil, Option.pure_def,
      Option.some.injEq] at h
    subst h
    exact ⟨Within.refl _ _ _, hheap⟩
  | n + 1, data, d, h, ho, hlen, hheap => by
    rw [List.range_succ, List.reverse_append, List.reverse_singleton, List.singleton_append,
      List.foldlM_cons] at h
    cases h1 : siftDown_func less data n hi first with
    | none => simp [h1] at h
    | some d1 =>
      simp only [h1, Option.bind_eq_bind, Option.some_bind] at h
      obtain ⟨hw1, hheap1⟩ := siftDown_func_spec h1 ho hlen hheap
      obtain ⟨hw2, hheap2⟩ := heapSort_build_spec hi first n d1 d h (hw1.ordersBy ho)
        (by rw [hw1.length_eq]; exact hlen) hheap1
      exact ⟨(hw1.mono (by omega) (le_refl _)).trans hw2, hheap2⟩

/-- The root of a heap holds its greatest key. -/
theorem HeapFrom.root_max {key : α → Int} {data : List α} {first m : Nat}
    (h : HeapFrom key data first 0 m) :
    ∀ c, c < m → keyAt key data (first + c) ≤ keyAt key data first := by
  intro c
  induction c using Nat.strong_induction_on with
  | _ c ih =>
    intro hc
    by_cases h0 : c = 0
    · subst h0; exact le_refl _
    · have h1 := h ((c - 1) / 2) c (Nat.zero_le _) (by omega) hc
      have h2 := ih ((c - 1) / 2) (by omega) (by omega)
      omega

theorem heapSort_pop_spec {less : α → α → Option Bool} {key : α → Int} (hi first : Nat) :
    ∀ (n : Nat) (data d : List α),
      (List.range n).reverse.foldlM
        (fun d i =>
          match swapAt d first (first + i) with
          | none => none
          | some d1 => siftDown_func less d1 0 i first) data = some d →
      OrdersBy less key data → first + hi ≤ data.length → n ≤ hi →
      HeapFrom key data first 0 n → SortedOn key data (first + n) (first + hi) →
      (∀ p q, p < n → n ≤ q → q < hi →
        keyAt key data (first + p) ≤ keyAt key data (first + q)) →
      Within first (first + hi) data d ∧ SortedOn key d first (first + hi)
  | 0, data, d, h, _, _, _, _, hs, _ => by
    simp only [List.range_zero, List.reverse_nil, List.foldlM_nil, Option.pure_def,
      Option.some.injEq] at h
    subst h
    exact ⟨Within.refl _ _ _, hs⟩
  | n + 1, data, d, h, ho, hlen, hn, hheap, hs, hcross => by
    rw [List.range_succ, List.reverse_append, List.reverse_singleton, List.singleton_append,
      List.foldlM_cons] at h
    cases hsw : swapAt data first (first + n) with
    | none => simp [hsw] at h
    | some d1 =>
      cases hsd : siftDown_func less d1 0 n first with
      | none => simp [hsw, hsd] at h
      | some d2 =>
        simp only [hsw, hsd, Option.bind_eq_bind, Option.some_bind] at h
        have hmax := hheap.root_max
        have hw1 : Within first (first + hi) data d1 :=
          Within.swap hsw (le_refl _) (by omega) (by omega) (by omega)
        have ho1 := hw1.ordersBy ho
        have hk1 : ∀ x, keyAt key d1 x =
            if x = first + n then keyAt key data first
            else if x = first then keyAt key data (first + n) else keyAt key data x :=
          keyAt_swapAt key hsw
        have hheap1 : HeapFrom key d1 first (0 + 1) n := by
          intro p c hp hc hch
          have e := hheap p c (Nat.zero_le _) hc (by omega)
          rw [hk1 (first + c), hk1 (first + p)]
          split_ifs <;> omega
        obtain ⟨hw2, hheap2⟩ := siftDown_func_spec hsd ho1
          (by rw [hw1.length_eq]; omega) hheap1
        rw [Nat.add_zero] at hw2
        have hk2 : ∀ x, first + n ≤ x → keyAt key d2 x = keyAt key d1 x :=
          fun x hx => hw2.keyAt_frame key (Or.inr hx)
        have hcross0 : ∀ q, n + 1 ≤ q → q < hi →
            keyAt key data first ≤ keyAt key data (first + q) := by
          intro q hq hqhi
          have := hcross 0 q (by omega) hq hqhi
          rwa [Nat.add_zero] at this
        have hlow : ∀ p, p < n → keyAt key d2 (first + p) ≤ keyAt key data first := by
          intro p hp
          obtain ⟨k1, hk11, hk12, hk13⟩ := hw2.keyAt_range key (k := first + p) (by omega)
            (by omega)
          rw [hk13, hk1 k1]
          have e1 := hmax (k1 - first) (by omega)
          have e2 := hmax n (by omega)
          have e3 : first + (k1 - first) = k1 := by omega
          rw [e3] at e1
          split_ifs <;> omega
        obtain ⟨hw3, hs3⟩ := heapSort_pop_spec hi first n d2 d h (hw2.ordersBy ho1)
          (by rw [hw2.length_eq, hw1.length_eq]; exact hlen) (by omega) hheap2
          (fun i j hi1 hij hj => by
            rw [hk2 i hi1, hk2 j (by omega), hk1 i, hk1 j]
            have e1 := hs i j
            have e2 : first + n < j → keyAt key data first ≤ keyAt key data j := by
              intro hlt
              have := hcross0 (j - first) (by omega) (by omega)
              have e3 : first + (j - first) = j := by omega
              rwa [e3] at this
            split_ifs <;> omega)
          (fun p q hp hq hqhi => by
            have e1 := hlow p hp
            rw [hk2 (first + q) (by omega), hk1 (first + q)]
            have e2 := hcross0 q
            split_ifs <;> omega)
        exact ⟨(hw1.trans (hw2.mono (le_refl _) (by omega))).trans hw3, hs3⟩

/-- `heapSort_func` sorts `data[a:b]` by key and touches nothing else. -/
theorem heapSort_func_spec {less : α → α → Option Bool} {key : α → Int} {data d : List α}
    {a b : Nat} (h : heapSort_func less data a b = some d) (ho : OrdersBy less key data)
    (hab : a ≤ b) (hb : b ≤ data.length) :
    Within a b data d ∧ SortedOn key d a b := by
  unfold heapSort_func at h
  dsimp only at h
  cases h1 : (List.range ((b - a - 1) / 2 + 1)).reverse.foldlM
      (fun d i => siftDown_func less d i (b - a) a) data with
  | none => rw [h1] at h; cases h
  | some d1 =>
    rw [h1] at h
    dsimp only at h
    have e : a + (b - a) = b := by omega
    obtain ⟨hw1, hheap1⟩ := heapSort_build_spec (b - a) a _ data d1 h1 ho
      (by omega) (fun p c hp hc hch => by omega)
    obtain ⟨hw2, hs2⟩ := heapSort_pop_spec (b - a) a (b - a) d1 d h
      (hw1.ordersBy ho) (by rw [hw1.length_eq]; omega) (le_refl _) hheap1
      (fun i j hi hij hj => by omega) (fun p q hp hq hqhi => by omega)
    rw [e] at hw1 hw2 hs2
    exact ⟨hw1.trans hw2, hs2⟩

end HeapSort

/-! ## Package `sort`: partial insertion sort -/

section PartialInsertionSort

variable {α : Type}

theorem LowerBound.within {key : α → Int} {data d : List α} {a b : Nat}
    (h : LowerBound key data a b) (hw : Within a b data d) : LowerBound key d a b := by
  by_cases ha : a = 0
  · exact Or.inl ha
  rcases h with h | h
  · exact Or.inl h
  · refine Or.inr (fun k hk1 hk2 => ?_)
    obtain ⟨k1, h1, h2, h3⟩ := hw.keyAt_range key hk1 hk2
    rw [h3, hw.keyAt_frame key (Or.inl (by omega))]
    exact h k1 h1 h2

theorem LowerBound.shrink {key : α → Int} {data : List α} {a b b1 : Nat}
    (h : LowerBound key data a b) (hb : b1 ≤ b) : LowerBound key data a b1 := by
  rcases h with h | h
  · exact Or.inl h
  · exact Or.inr (fun k hk1 hk2 => h k hk1 (by omega))

theorem SortedOn.frame {key : α → Int} {data d : List α} {a i a1 b1 : Nat}
    (hs : SortedOn key data a i) (hw : Within a1 b1 data d) (h : i ≤ a1 ∨ b1 ≤ a) :
    SortedOn key d a i := by
  intro p q hp hpq hq
  rw [hw.keyAt_frame key (by omega), hw.keyAt_frame key (by omega)]
  exact hs p q hp hpq hq

/-- Ordered neighbours extend a sorted prefix. -/
theorem SortedOn.extend {key : α → Int} {data : List α} {a i i1 : Nat}
    (hs : SortedOn key data a i)
    (h : ∀ k, i ≤ k → k < i1 → a < k → keyAt key data (k - 1) ≤ keyAt key data k) :
    SortedOn key data a i1 := by
  intro p q
  induction q using Nat.strong_induction_on with
  | _ q ih =>
    intro hp hpq hq
    by_cases hqi : q < i
    · exact hs p q hp hpq hqi
    · by_cases hpq2 : p = q
      · subst hpq2; exact le_refl _
      · have h1 := ih (q - 1) (by omega) hp (by omega) (by omega)
        have h2 := h q (by omega) hq (by omega)
        omega

theorem shiftSmallerLeft_eq_insertionSortInner {less : α → α → Option Bool} {key : α → Int}
    (a : Nat) :
    ∀ (j : Nat) (data : List α), OrdersBy less key data → j < data.length → a ≤ j →
      (a = 0 ∨ ∀ k, a ≤ k → k ≤ j → keyAt key data (a - 1) ≤ keyAt key data k) →
      shiftSmallerLeft less j data = insertionSortInner less a j data
  | 0, data, _, _, _, _ => by simp [shiftSmallerLeft, insertionSortInner]
  | j + 1, data, ho, hj, haj, hlow => by
    rw [shiftSmallerLeft, insertionSortInner]
    by_cases ha : a < j + 1
    · rw [if_pos ha]
      cases hc : lessAt less data (j + 1) j with
      | none => rfl
      | some c =>
        cases c
        · rfl
        · dsimp only
          cases hs : swapAt data (j + 1) j with
          | none => rfl
          | some d1 =>
            dsimp only
            refine shiftSmallerLeft_eq_insertionSortInner a j d1 (ho.perm (swapAt_perm hs))
              (by rw [(swapAt_perm hs).length_eq]; omega) (by omega) ?_
            by_cases ha0 : a = 0
            · exact Or.inl ha0
            rcases hlow with h0 | hlow
            · exact Or.inl h0
            · refine Or.inr (fun k hk1 hk2 => ?_)
              rw [keyAt_swapAt key hs (a - 1), keyAt_swapAt key hs k,
                if_neg (by omega : ¬a - 1 = j), if_neg (by omega : ¬a - 1 = j + 1),
                if_neg (by omega : ¬k = j + 1)]
              by_cases hkj : k = j
              · rw [if_pos hkj]
                exact hlow (j + 1) (by omega) (le_refl _)
              · rw [if_neg hkj]
                exact hlow k hk1 (by omega)
    · rw [if_neg ha, lessAt_ordersBy ho hj (by omega)]
      have haj2 : a = j + 1 := by omega
      rcases hlow with h0 | hlow
      · omega
      · have := hlow (j + 1) (by omega) (le_refl _)
        have e : a - 1 = j := by omega
        rw [e] at this
        simp [not_lt.2 this]

theorem partialInsertionSortLoop_spec {less : α → α → Option Bool} {key : α → Int} (a b : Nat) :
    ∀ (steps i : Nat) (data d : List α) (sorted : Bool),
      partialInsertionSortLoop less a b steps i data = some (d, sorted) →
      OrdersBy less key data → a < i → i ≤ b → b ≤ data.length →
      LowerBound key data a b → SortedOn key data a i →
      Within a b data d ∧ (sorted = true → SortedOn key d a b)
  | 0, i, data, d, sorted, h, _, _, _, _, _, _ => by
    simp only [partialInsertionSortLoop, Option.some.injEq, Prod.mk.injEq] at h
    obtain ⟨rfl, rfl⟩ := h
    exact ⟨Within.refl _ _ _, fun h => by cases h⟩
  | steps + 1, i, data, d, sorted, h, ho, hai, hib, hb, hlow, hs => by
    rw [partialInsertionSortLoop] at h
    cases hi1 : scanUp (fun k => notLessAt less data k (k - 1)) b (b - i) i with
    | none => rw [hi1] at h; cases h
    | some i1 =>
      rw [hi1] at h
      dsimp only at h
      obtain ⟨hu1, hu2, hu3, hu4⟩ := scanUp_spec _ _ _ _ _ hi1
      have hs1 : SortedOn key data a i1 := by
        refine hs.extend (fun k hk1 hk2 hk3 => ?_)
        have := hu2 k hk1 hk2
        rw [notLessAt_ordersBy ho (by omega) (by omega)] at this
        simpa using this
      by_cases hib1 : i1 = b
      · rw [if_pos hib1] at h
        simp only [Option.some.injEq, Prod.mk.injEq] at h
        obtain ⟨rfl, rfl⟩ := h
        exact ⟨Within.refl _ _ _, fun _ => hib1 ▸ hs1⟩
      rw [if_neg hib1] at h
      by_cases h50 : b - a < 50
      · rw [if_pos h50] at h
        simp only [Option.some.injEq, Prod.mk.injEq] at h
        obtain ⟨rfl, rfl⟩ := h
        exact ⟨Within.refl _ _ _, fun h => by cases h⟩
      rw [if_neg h50] at h
      have hi1b : i1 < b := by omega
      have hstop : keyAt key data i1 < keyAt key data (i1 - 1) := by
        have := hu3 hi1b
        rw [notLessAt_ordersBy ho (by omega) (by omega)] at this
        simpa using this
      cases hsw : swapAt data i1 (i1 - 1) with
      | none => rw [hsw] at h; cases h
      | some d1 =>
        rw [hsw] at h
        dsimp only at h
        have hw1 : Within a b data d1 :=
          Within.swap hsw (by omega) (by omega) (by omega) (by omega)
        have ho1 := hw1.ordersBy ho
        have hlow1 := hlow.within hw1
        have hk1 : ∀ x, keyAt key d1 x =
            if x = i1 - 1 then keyAt key data i1
            else if x = i1 then keyAt key data (i1 - 1) else keyAt key data x :=
          keyAt_swapAt key hsw
        -- after the swap, `data[a : i1+1]` is sorted except for the element at `i1 - 1`
        have hinv : ∀ p q, a ≤ p → p < q → q ≤ i1 → q ≠ i1 - 1 →
            keyAt key d1 p ≤ keyAt key d1 q := by
          intro p q hp hpq hq hq1
          rw [hk1 p, hk1 q, if_neg hq1]
          by_cases hqi : q = i1
          · subst hqi
            rw [if_pos rfl, if_neg (by omega : ¬p = q)]
            by_cases hp1 : p = q - 1
            · rw [if_pos hp1]
              exact le_of_lt hstop
            · rw [if_neg hp1]
              exact hs1 p (q - 1) hp (by omega) (by omega)
          · rw [if_neg hqi, if_neg (by omega : ¬p = i1 - 1), if_neg (by omega : ¬p = i1)]
            exact hs1 p q hp (by omega) (by omega)
        cases hsl : (if i1 - a ≥ 2 then shiftSmallerLeft less (i1 - 1) d1 else some d1) with
        | none => rw [hsl] at h; cases h
        | some d2 =>
          rw [hsl] at h
          dsimp only at h
          have hd2 : Within a b d1 d2 ∧ SortedOn key d2 a i1 := by
            by_cases h2 : i1 - a ≥ 2
            · rw [if_pos h2, shiftSmallerLeft_eq_insertionSortInner a (i1 - 1) d1
                ho1 (by rw [hw1.length_eq]; omega) (by omega)
                (hlow1.elim Or.inl (fun hl => Or.inr (fun k hk1 hk2 => hl k hk1 (by omega))))]
                at hsl
              obtain ⟨hw, hso, _⟩ := insertionSortInner_spec a i1 (i1 - 1) d1 d2
                hsl ho1 (by omega) (by omega) (by rw [hw1.length_eq]; omega) hinv
              exact ⟨hw.mono (le_refl _) (by omega),
                fun p q hp hpq hq => hso p q hp hpq (by omega)⟩
            · rw [if_neg h2] at hsl
              simp only [Option.some.injEq] at hsl
              subst hsl
              refine ⟨Within.refl _ _ _, fun p q hp hpq hq => ?_⟩
              have : p = q := by omega
              subst this
              exact le_refl _
          obtain ⟨hw2, hs2⟩ := hd2
          have ho2 := hw2.ordersBy ho1
          cases hsr : (if b - i1 ≥ 2 then
              shiftGreaterRight less b (b - (i1 + 1)) (i1 + 1) d2 else some d2) with
          | none => rw [hsr] at h; cases h
          | some d3 =>
            rw [hsr] at h
            dsimp only at h
            have hw3 : Within i1 b d2 d3 := by
              by_cases h2 : b - i1 ≥ 2
              · rw [if_pos h2] at hsr
                have := shiftGreaterRight_within less b _ _ _ _ hsr (by omega)
                simpa using this
              · rw [if_neg h2] at hsr
                simp only [Option.some.injEq] at hsr
                subst hsr
                exact Within.refl _ _ _
            have hw03 : Within a b data d3 :=
              (hw1.trans hw2).trans (hw3.mono (by omega) (le_refl _))
            obtain ⟨hw4, hs4⟩ := partialInsertionSortLoop_spec a b steps i1 d3 d sorted h
              (hw3.ordersBy ho2) (by omega) (by omega) (by rw [hw03.length_eq]; exact hb)
              (hlow.within hw03) (hs2.frame hw3 (Or.inl (le_refl _)))
            exact ⟨hw03.trans hw4, hs4⟩

theorem partialInsertionSort_func_spec {less : α → α → Option Bool} {key : α → Int}
    {data d : List α} {a b : Nat} {sorted : Bool}
    (h : partialInsertionSort_func less data a b = some (d, sorted))
    (ho : OrdersBy less key data) (hab : a < b) (hb : b ≤ data.length)
    (hlow : LowerBound key data a b) :
    Within a b data d ∧ (sorted = true → SortedOn key d a b) :=
  partialInsertionSortLoop_spec a b 5 (a + 1) data d sorted h ho (by omega) (by omega) hb hlow
    (fun p q hp hpq hq => by
      have : p = q := by omega
      subst this
      exact le_refl _)

end PartialInsertionSort

/-! ## Package `sort`: `pdqsort_func` sorts -/

section Pdqsort

variable {α : Type}

theorem pdqsortBreakPatterns_within (next : Nat → Nat) {data d : List α} {a b limit limit1 : Nat}
    {wasBalanced : Bool}
    (h : pdqsortBreakPatterns next data a b limit wasBalanced = some (d, limit1))
    (hab : a ≤ b) : Within a b data d := by
  unfold pdqsortBreakPatterns at h
  split_ifs at h
  · cases hb : breakPatterns_func next data a b with
    | none => rw [hb] at h; cases h
    | some d1 =>
      rw [hb] at h
      simp only [Option.some.injEq, Prod.mk.injEq] at h
      obtain ⟨rfl, _⟩ := h
      exact breakPatterns_func_within next hb hab
  · simp only [Option.some.injEq, Prod.mk.injEq] at h
    obtain ⟨rfl, _⟩ := h
    exact Within.refl _ _ _

theorem pdqsortChoosePivot_spec {less : α → α → Option Bool} {data d : List α} {a b pivot : Nat}
    {hint : sortedHint} (h : pdqsortChoosePivot less data a b = some (d, pivot, hint))
    (hab : a + 8 ≤ b) (hb : b ≤ data.length) (hff : FaultFree less data) :
    Within a b data d ∧ a ≤ pivot ∧ pivot < b := by
  unfold pdqsortChoosePivot at h
  obtain ⟨pivot0, hint0, hc, h1, h2⟩ := choosePivot_func_safe less data a b hab hb hff
  rw [hc] at h
  dsimp only at h
  split_ifs at h
  · cases hr : reverseRange_func data a b with
    | none => rw [hr] at h; cases h
    | some d1 =>
      rw [hr] at h
      simp only [Option.some.injEq, Prod.mk.injEq] at h
      obtain ⟨rfl, rfl, _⟩ := h
      exact ⟨reverseRange_func_within hr (by omega), by omega, by omega⟩
  · simp only [Option.some.injEq, Prod.mk.injEq] at h
    obtain ⟨rfl, rfl, _⟩ := h
    exact ⟨Within.refl _ _ _, h1, h2⟩

theorem pdqsortLikelySorted_spec {less : α → α → Option Bool} {key : α → Int} {data d : List α}
    {a b : Nat} {wasBalanced wasPartitioned sorted : Bool} {hint : sortedHint}
    (h : pdqsortLikelySorted less data a b wasBalanced wasPartitioned hint = some (d, sorted))
    (ho : OrdersBy less key data) (hab : a < b) (hb : b ≤ data.length)
    (hlow : LowerBound key data a b) :
    Within a b data d ∧ (sorted = true → SortedOn key d a b) := by
  unfold pdqsortLikelySorted at h
  split_ifs at h
  · exact partialInsertionSort_func_spec h ho hab hb hlow
  · simp only [Option.some.injEq, Prod.mk.injEq] at h
    obtain ⟨rfl, rfl⟩ := h
    exact ⟨Within.refl _ _ _, fun h => by cases h⟩

theorem pdqsortManyDuplicates_spec {less : α → α → Option Bool} {key : α → Int} {data : List α}
    {a pivot : Nat} (h : pdqsortManyDuplicates less data a pivot = some true)
    (ho : OrdersBy less key data) (ha : a ≤ data.length) (hp : pivot < data.length) :
    0 < a ∧ keyAt key data pivot ≤ keyAt key data (a - 1) := by
  unfold pdqsortManyDuplicates at h
  split_ifs at h with ha0
  · rw [notLessAt_ordersBy ho (by omega) hp] at h
    exact ⟨ha0, by simpa using h⟩
  · cases h

/-- Two sorted halves around a pivot make a sorted slice. -/
theorem SortedOn.of_partition {key : α → Int} {d4 d : List α} {a mid b : Nat}
    (hpL : ∀ k, a ≤ k → k < mid → keyAt key d4 k < keyAt key d4 mid)
    (hpR : ∀ k, mid < k → k < b → keyAt key d4 mid ≤ keyAt key d4 k)
    (hL : ∀ k, a ≤ k → k < mid → ∃ k1, a ≤ k1 ∧ k1 < mid ∧ keyAt key d k = keyAt key d4 k1)
    (hM : keyAt key d mid = keyAt key d4 mid)
    (hR : ∀ k, mid < k → k < b → ∃ k1, mid < k1 ∧ k1 < b ∧ keyAt key d k = keyAt key d4 k1)
    (hsL : SortedOn key d a mid) (hsR : SortedOn key d (mid + 1) b) : SortedOn key d a b := by
  intro i j hi hij hj
  by_cases hjm : j < mid
  · exact hsL i j hi hij hjm
  by_cases him : mid < i
  · exact hsR i j (by omega) hij hj
  have hi_le : keyAt key d i ≤ keyAt key d4 mid := by
    by_cases hie : i = mid
    · subst hie; exact le_of_eq hM
    · obtain ⟨k1, h1, h2, h3⟩ := hL i hi (by omega)
      rw [h3]
      exact le_of_lt (hpL k1 h1 h2)
  have hj_ge : keyAt key d4 mid ≤ keyAt key d j := by
    by_cases hje : j = mid
    · subst hje; exact le_of_eq hM.symm
    · obtain ⟨k1, h1, h2, h3⟩ := hR j (by omega) hj
      rw [h3]
      exact hpR k1 h1 h2
  exact le_trans hi_le hj_ge

/-- `pdqsort_func` sorts `data[a:b]` by key and touches nothing else, provided the
comparison closure orders the elements by that key. -/
theorem pdqsortLoop_spec {less : α → α → Option Bool} {key : α → Int} (next : Nat → Nat) :
    ∀ (fuel : Nat) (data d : List α) (a b limit : Nat) (wasBalanced wasPartitioned : Bool),
      pdqsortLoop next less fuel data a b limit wasBalanced wasPartitioned = some d →
      OrdersBy less key data → a ≤ b → b ≤ data.length → LowerBound key data a b →
      Within a b data d ∧ SortedOn key d a b
  | 0, _, _, _, _, _, _, _, h, _, _, _, _ => by simp [pdqsortLoop] at h
  | fuel + 1, data, d, a, b, limit, wasBalanced, wasPartitioned, h, ho, hab, hb, hlow => by
    rw [pdqsortLoop] at h
    dsimp only at h
    by_cases h12 : b - a ≤ 12
    · rw [if_pos h12] at h
      obtain ⟨hw, hs, _⟩ := insertionSort_func_spec h ho hab hb
      exact ⟨hw, hs⟩
    rw [if_neg h12] at h
    by_cases hlimit : limit = 0
    · rw [if_pos hlimit] at h
      exact heapSort_func_spec h ho hab hb
    rw [if_neg hlimit] at h
    cases h1 : pdqsortBreakPatterns next data a b limit wasBalanced with
    | none => rw [h1] at h; cases h
    | some r1 =>
    obtain ⟨d1, limit1⟩ := r1
    rw [h1] at h
    dsimp only at h
    have hw1 := pdqsortBreakPatterns_within next h1 hab
    cases h2 : pdqsortChoosePivot less d1 a b with
    | none => rw [h2] at h; cases h
    | some r2 =>
    obtain ⟨d2, pivot, hint⟩ := r2
    rw [h2] at h
    dsimp only at h
    obtain ⟨hw2, hpa, hpb⟩ := pdqsortChoosePivot_spec h2 (by omega)
      (by rw [hw1.length_eq]; exact hb) (hw1.ordersBy ho).faultFree
    have hw02 := hw1.trans hw2
    cases h3 : pdqsortLikelySorted less d2 a b wasBalanced wasPartitioned hint with
    | none => rw [h3] at h; cases h
    | some r3 =>
    obtain ⟨d3, sorted⟩ := r3
    rw [h3] at h
    obtain ⟨hw3, hs3⟩ := pdqsortLikelySorted_spec h3 (hw02.ordersBy ho) (by omega)
      (by rw [hw02.length_eq]; exact hb) (hlow.within hw02)
    have hw03 := hw02.trans hw3
    have ho3 := hw03.ordersBy ho
    have hl3 := hw03.length_eq
    have hlow3 := hlow.within hw03
    cases sorted
    swap
    · simp only [Option.some.injEq] at h
      subst h
      exact ⟨hw03, hs3 rfl⟩
    dsimp only at h
    cases h4 : pdqsortManyDuplicates less d3 a pivot with
    | none => rw [h4] at h; cases h
    | some c =>
    rw [h4] at h
    cases c
    · -- the ordinary partition, then both sides
      dsimp only at h
      cases h5 : partition_func less d3 a b pivot with
      | none => rw [h5] at h; cases h
      | some r5 =>
      obtain ⟨d4, mid, already⟩ := r5
      rw [h5] at h
      dsimp only at h
      obtain ⟨hw4, hm1, hm2, hpL, hpR⟩ := partition_func_spec h5 ho3 (by omega)
        (by omega) hpa hpb
      have hw04 := hw03.trans hw4
      have ho4 := hw04.ordersBy ho
      have hl4 := hw04.length_eq
      have hlow4 := hlow.within hw04
      by_cases hlr : mid - a < b - mid
      · rw [if_pos hlr] at h
        cases h6 : pdqsortLoop next less fuel d4 a mid limit1 true true with
        | none => rw [h6] at h; cases h
        | some d5 =>
        rw [h6] at h
        dsimp only at h
        obtain ⟨hw5, hs5⟩ := pdqsortLoop_spec next fuel d4 d5 a mid limit1 true true h6 ho4 hm1
          (by omega) (hlow4.shrink (by omega))
        obtain ⟨hw6, hs6⟩ := pdqsortLoop_spec next fuel d5 d (mid + 1) b limit1 _ _ h
          (hw5.ordersBy ho4) (by omega) (by rw [hw5.length_eq]; omega)
          (Or.inr (fun k hk1 hk2 => by
            rw [Nat.add_sub_cancel, hw5.keyAt_frame key (Or.inr (le_refl _)),
              hw5.keyAt_frame key (Or.inr (by omega))]
            exact hpR k (by omega) hk2))
        refine ⟨hw04.trans ((hw5.mono (le_refl _) (by omega)).trans
          (hw6.mono (by omega) (le_refl _))), ?_⟩
        refine SortedOn.of_partition hpL hpR (fun k hk1 hk2 => ?_) ?_ (fun k hk1 hk2 => ?_)
          (hs5.frame hw6 (Or.inl (by omega))) hs6
        · obtain ⟨k1, e1, e2, e3⟩ := hw5.keyAt_range key hk1 hk2
          exact ⟨k1, e1, e2, by rw [hw6.keyAt_frame key (Or.inl (by omega)), e3]⟩
        · rw [hw6.keyAt_frame key (Or.inl (by omega)),
            hw5.keyAt_frame key (Or.inr (le_refl _))]
        · obtain ⟨k1, e1, e2, e3⟩ := hw6.keyAt_range key (k := k) (by omega) hk2
          exact ⟨k1, by omega, e2, by rw [e3, hw5.keyAt_frame key (Or.inr (by omega))]⟩
      · rw [if_neg hlr] at h
        cases h6 : pdqsortLoop next less fuel d4 (mid + 1) b limit1 true true with
        | none => rw [h6] at h; cases h
        | some d5 =>
        rw [h6] at h
        dsimp only at h
        obtain ⟨hw5, hs5⟩ := pdqsortLoop_spec next fuel d4 d5 (mid + 1) b limit1 true true h6
          ho4 (by omega) (by omega)
          (Or.inr (fun k hk1 hk2 => by
            rw [Nat.add_sub_cancel]
            exact hpR k (by omega) hk2))
        obtain ⟨hw6, hs6⟩ := pdqsortLoop_spec next fuel d5 d a mid limit1 _ _ h
          (hw5.ordersBy ho4) hm1 (by rw [hw5.length_eq]; omega)
          (by
            rcases hlow4 with h0 | h0
            · exact Or.inl h0
            · refine Or.inr (fun k hk1 hk2 => ?_)
              rw [hw5.keyAt_frame key (Or.inl (by omega)),
                hw5.keyAt_frame key (Or.inl (by omega))]
              exact h0 k hk1 (by omega))
        refine ⟨hw04.trans ((hw5.mono (by omega) (le_refl _)).trans
          (hw6.mono (le_refl _) (by omega))), ?_⟩
        refine SortedOn.of_partition hpL hpR (fun k hk1 hk2 => ?_) ?_ (fun k hk1 hk2 => ?_)
          hs6 (hs5.frame hw6 (Or.inr (by omega)))
        · obtain ⟨k1, e1, e2, e3⟩ := hw6.keyAt_range key hk1 hk2
          exact ⟨k1, e1, e2, by rw [e3, hw5.keyAt_frame key (Or.inl (by omega))]⟩
        · rw [hw6.keyAt_frame key (Or.inr (le_refl _)),
            hw5.keyAt_frame key (Or.inl (by omega))]
        · obtain ⟨k1, e1, e2, e3⟩ := hw5.keyAt_range key (k := k) (by omega) hk2
          exact ⟨k1, by omega, e2, by rw [hw6.keyAt_frame key (Or.inr (by omega)), e3]⟩
    · -- many duplicates: the keys equal to the pivot's go first
      dsimp only at h
      obtain ⟨ha0, hdup⟩ := pdqsortManyDuplicates_spec h4 ho3 (by omega)
        (by omega)
      cases h5 : partitionEqual_func less d3 a b pivot with
      | none => rw [h5] at h; cases h
      | some r5 =>
      obtain ⟨d4, mid⟩ := r5
      rw [h5] at h
      dsimp only at h
      obtain ⟨hw4, hm1, hm2, hpL, hpR⟩ := partitionEqual_func_spec h5 ho3
        (by omega) (by omega) hpa hpb
      have hw04 := hw03.trans hw4
      have ho4 := hw04.ordersBy ho
      have hlow3' : ∀ k, a ≤ k → k < b → keyAt key d3 (a - 1) ≤ keyAt key d3 k := by
        rcases hlow3 with h0 | h0
        · omega
        · exact h0
      -- every key of `data[a:b]` is at least the pivot's
      have hge : ∀ k, a ≤ k → k < b → keyAt key d3 pivot ≤ keyAt key d4 k := by
        intro k hk1 hk2
        obtain ⟨k1, e1, e2, e3⟩ := hw4.keyAt_range key hk1 hk2
        rw [e3]
        exact le_trans hdup (hlow3' k1 e1 e2)
      obtain ⟨hw5, hs5⟩ := pdqsortLoop_spec next fuel d4 d mid b limit1 _ _ h ho4 hm2
        (by rw [hw04.length_eq]; exact hb)
        (Or.inr (fun k hk1 hk2 => by
          have e1 := hpL (mid - 1) (by omega) (by omega)
          have e2 := hpR k hk1 hk2
          omega))
      refine ⟨hw04.trans (hw5.mono (by omega) (le_refl _)), fun i j hi hij hj => ?_⟩
      by_cases him : mid ≤ i
      · exact hs5 i j him hij hj
      · rw [hw5.keyAt_frame key (Or.inl (by omega))]
        have e1 := hpL i hi (by omega)
        by_cases hjm : mid ≤ j
        · obtain ⟨k1, e2, e3, e4⟩ := hw5.keyAt_range key hjm hj
          rw [e4]
          have e5 := hpR k1 e2 e3
          omega
        · rw [hw5.keyAt_frame key (Or.inl (by omega))]
          have e2 := hge j (by omega) hj
          omega

/-- `sort.Slice` sorts: when the comparison closure orders the elements by an integer
key, the result is a permutation of the slice in ascending key order. -/
theorem Slice_sorted {less : α → α → Option Bool} {key : α → Int} (next : Nat → Nat) {x d : List α}
    (h : Slice next x less = some d) (ho : OrdersBy less key x) :
    d.Perm x ∧ d.Pairwise (fun s t => key s ≤ key t) := by
  obtain ⟨hw, hs⟩ := pdqsortLoop_spec next _ x d 0 x.length _ true true h ho (Nat.zero_le _)
    (le_refl _) (Or.inl rfl)
  rw [← hw.length_eq] at hs
  exact ⟨hw.perm, hs.pairwise⟩

end Pdqsort

/-! ## Package `sort`: whenever a run ends, it ends in a rearrangement

These hold for every comparison closure, also one that faults on some elements. -/

section SortPerm

variable {α : Type}

theorem insertionSortInner_perm (less : α → α → Option Bool) (a : Nat) :
    ∀ (j : Nat) (data d : List α), insertionSortInner less a j data = some d → d.Perm data
  | 0, data, d, h => by
    simp only [insertionSortInner, Option.some.injEq] at h
    rw [← h]
  | j + 1, data, d, h => by
    rw [insertionSortInner] at h
    split at h
    · split at h
      · cases h
      · cases h
        exact List.Perm.refl _
      · split at h
        · cases h
        · rename_i d1 hs
          exact (insertionSortInner_perm less a j d1 d h).trans (swapAt_perm hs)
    · cases h
      exact List.Perm.refl _

/-- A loop whose body, when it ends, ends in a rearrangement, ends in a rearrangement
when it ends. -/
theorem foldlM_perm {ι : Type} (f : List α → ι → Option (List α))
    (hf : ∀ (i : ι) (d d1 : List α), f d i = some d1 → d1.Perm d) :
    ∀ (l : List ι) (data d : List α), l.foldlM f data = some d → d.Perm data
  | [], data, d, h => by
    simp only [List.foldlM_nil, Option.pure_def, Option.some.injEq] at h
    rw [← h]
  | i :: l, data, d, h => by
    simp only [List.foldlM_cons, Option.bind_eq_bind] at h
    cases h1 : f data i with
    | none => rw [h1] at h; cases h
    | some d1 =>
      rw [h1] at h
      exact (foldlM_perm f hf l d1 d h).trans (hf i data d1 h1)

theorem insertionSort_func_perm (less : α → α → Option Bool) (data d : List α) (a b : Nat)
    (h : insertionSort_func less data a b = some d) : d.Perm data :=
  foldlM_perm _ (fun i d0 d1 h1 => insertionSortInner_perm less a i d0 d1 h1) _ data d h

theorem siftDownLoop_perm (less : α → α → Option Bool) (hi first : Nat) :
    ∀ (fuel root : Nat) (data d : List α),
      siftDownLoop less hi first fuel root data = some d → d.Perm data
  | 0, _, _, _, h => by simp [siftDownLoop] at h
  | fuel + 1, root, data, d, h => by
    rw [siftDownLoop] at h
    dsimp only at h
    split at h
    · cases h
      exact List.Perm.refl _
    · split at h
      · cases h
      · split at h
        · cases h
        · cases h
          exact List.Perm.refl _
        · split at h
          · cases h
          · rename_i d1 hs
            exact (siftDownLoop_perm less hi first fuel _ d1 d h).trans (swapAt_perm hs)

theorem siftDown_func_perm (less : α → α → Option Bool) (data d : List α)
    (lo hi first : Nat) (h : siftDown_func less data lo hi first = some d) : d.Perm data :=
  siftDownLoop_perm less hi first _ _ data d h

theorem heapSort_func_perm (less : α → α → Option Bool) (data d : List α) (a b : Nat)
    (h : heapSort_func less data a b = some d) : d.Perm data := by
  unfold heapSort_func at h
  dsimp only at h
  split at h
  · cases h
  · rename_i d1 h1
    have hp1 := foldlM_perm _
      (fun i d0 d2 h2 => siftDown_func_perm less d0 d2 i (b - a) a h2) _ data d1 h1
    refine (foldlM_perm _ (fun i d0 d2 h2 => ?_) _ d1 d h).trans hp1
    split at h2
    · cases h2
    · rename_i d3 hs
      exact (siftDown_func_perm less d3 d2 0 i a h2).trans (swapAt_perm hs)

theorem partitionLoop_perm (less : α → α → Option Bool) (a : Nat) :
    ∀ (fuel : Nat) (data d : List α) (i j j1 : Nat),
      partitionLoop less a fuel data i j = some (d, j1) → d.Perm data
  | 0, _, _, _, _, _, h => by simp [partitionLoop] at h
  | fuel + 1, data, d, i, j, j1, h => by
    rw [partitionLoop] at h
    split at h
    · cases h
    · split at h
      · cases h
      · split at h
        · cases h
          exact List.Perm.refl _
        · split at h
          · cases h
          · rename_i d1 hs
            exact (partitionLoop_perm less a fuel d1 d _ _ j1 h).trans (swapAt_perm hs)

theorem partition_func_perm (less : α → α → Option Bool) (data d : List α)
    (a b pivot mid : Nat) (already : Bool)
    (h : partition_func less data a b pivot = some (d, mid, already)) : d.Perm data := by
  unfold partition_func at h
  split at h
  · cases h
  · rename_i d1 hs1
    dsimp only at h
    split at h
    · cases h
    · split at h
      · cases h
      · split at h
        · split at h
          · cases h
          · rename_i d2 hs2
            cases h
            exact (swapAt_perm hs2).trans (swapAt_perm hs1)
        · split at h
          · cases h
          · rename_i d2 hs2
            split at h
            · cases h
            · rename_i d3 j2 hl
              split at h
              · cases h
              · rename_i d4 hs4
                cases h
                exact ((swapAt_perm hs4).trans
                  ((partitionLoop_perm less a _ d2 d3 _ _ _ hl).trans (swapAt_perm hs2))).trans
                  (swapAt_perm hs1)

theorem partitionEqualLoop_perm (less : α → α → Option Bool) (a : Nat) :
    ∀ (fuel : Nat) (data d : List α) (i j i1 : Nat),
      partitionEqualLoop less a fuel data i j = some (d, i1) → d.Perm data
  | 0, _, _, _, _, _, h => by simp [partitionEqualLoop] at h
  | fuel + 1, data, d, i, j, i1, h => by
    rw [partitionEqualLoop] at h
    split at h
    · cases h
    · split at h
      · cases h
      · split at h
        · cases h
          exact List.Perm.refl _
        · split at h
          · cases h
          · rename_i d1 hs
            exact (partitionEqualLoop_perm less a fuel d1 d _ _ i1 h).trans (swapAt_perm hs)

theorem partitionEqual_func_perm (less : α → α → Option Bool) (data d : List α)
    (a b pivot mid : Nat) (h : partitionEqual_func less data a b pivot = some (d, mid)) :
    d.Perm data := by
  unfold partitionEqual_func at h
  split at h
  · cases h
  · rename_i d1 hs
    exact (partitionEqualLoop_perm less a _ d1 d _ _ mid h).trans (swapAt_perm hs)

theorem shiftSmallerLeft_perm (less : α → α → Option Bool) :
    ∀ (j : Nat) (data d : List α), shiftSmallerLeft less j data = some d → d.Perm data
  | 0, data, d, h => by
    simp only [shiftSmallerLeft, Option.some.injEq] at h
    rw [← h]
  | j + 1, data, d, h => by
    rw [shiftSmallerLeft] at h
    split at h
    · cases h
    · cases h
      exact List.Perm.refl _
    · split at h
      · cases h
      · rename_i d1 hs
        exact (shiftSmallerLeft_perm less j d1 d h).trans (swapAt_perm hs)

theorem shiftGreaterRight_perm (less : α → α → Option Bool) (b : Nat) :
    ∀ (fuel j : Nat) (data d : List α),
      shiftGreaterRight less b fuel j data = some d → d.Perm data
  | 0, j, data, d, h => by
    rw [shiftGreaterRight] at h
    split at h
    · cases h
    · cases h
      exact List.Perm.refl _
  | fuel + 1, j, data, d, h => by
    rw [shiftGreaterRight] at h
    split at h
    · split at h
      · cases h
      · cases h
        exact List.Perm.refl _
      · split at h
        · cases h
        · rename_i d1 hs
          exact (shiftGreaterRight_perm less b fuel _ d1 d h).trans (swapAt_perm hs)
    · cases h
      exact List.Perm.refl _

theorem partialInsertionSortLoop_perm (less : α → α → Option Bool) (a b : Nat) :
    ∀ (steps i : Nat) (data d : List α) (sorted : Bool),
      partialInsertionSortLoop less a b steps i data = some (d, sorted) → d.Perm data
  | 0, _, data, d, sorted, h => by
    simp only [partialInsertionSortLoop, Option.some.injEq, Prod.mk.injEq] at h
    rw [← h.1]
  | steps + 1, i, data, d, sorted, h => by
    rw [partialInsertionSortLoop] at h
    split at h
    · cases h
    · split at h
      · cases h
        exact List.Perm.refl _
      · split at h
        · cases h
          exact List.Perm.refl _
        · split at h
          · cases h
          · rename_i d1 hs
            split at h
            · cases h
            · rename_i d2 h2
              split at h
              · cases h
              · rename_i d3 h3
                have hp2 : d2.Perm d1 := by
                  split at h2
                  · exact shiftSmallerLeft_perm less _ d1 d2 h2
                  · cases h2
                    exact List.Perm.refl _
                have hp3 : d3.Perm d2 := by
                  split at h3
                  · exact shiftGreaterRight_perm less b _ _ d2 d3 h3
                  · cases h3
                    exact List.Perm.refl _
                exact (partialInsertionSortLoop_perm less a b steps _ d3 d sorted h).trans
                  ((hp3.trans hp2).trans (swapAt_perm hs))

theorem breakPatterns_func_perm (next : Nat → Nat) (data d : List α) (a b : Nat)
    (h : breakPatterns_func next data a b = some d) : d.Perm data := by
  unfold breakPatterns_func at h
  dsimp only at h
  have step : ∀ (st st1 : List α × Nat) (i : Nat),
      breakPatternsStep next a (b - a) st i = some st1 → st1.1.Perm st.1 := by
    intro st st1 i hst
    unfold breakPatternsStep at hst
    dsimp only at hst
    split at hst
    · cases hst
    · rename_i d1 hs
      cases hst
      exact swapAt_perm hs
  split at h
  · split at h
    · cases h
    · rename_i st1 h1
      split at h
      · cases h
      · rename_i st2 h2
        split at h
        · cases h
        · rename_i st3 h3
          cases h
          exact ((step _ _ _ h3).trans (step _ _ _ h2)).trans (step _ _ _ h1)
  · cases h
    exact List.Perm.refl _

theorem reverseRangeLoop_perm :
    ∀ (fuel i j : Nat) (data d : List α), reverseRangeLoop fuel i j data = some d →
      d.Perm data
  | 0, i, j, data, d, h => by
    rw [reverseRangeLoop] at h
    split at h
    · cases h
    · cases h
      exact List.Perm.refl _
  | fuel + 1, i, j, data, d, h => by
    rw [reverseRangeLoop] at h
    split at h
    · split at h
      · cases h
      · rename_i d1 hs
        exact (reverseRangeLoop_perm fuel _ _ d1 d h).trans (swapAt_perm hs)
    · cases h
      exact List.Perm.refl _

/-- Whenever `pdqsort_func` ends, it ends in a rearrangement of the slice, whatever the
comparison closure. -/
theorem pdqsortLoop_perm (next : Nat → Nat) (less : α → α → Option Bool) :
    ∀ (fuel : Nat) (data d : List α) (a b limit : Nat) (wasBalanced wasPartitioned : Bool),
      pdqsortLoop next less fuel data a b limit wasBalanced wasPartitioned = some d →
      d.Perm data
  | 0, _, _, _, _, _, _, _, h => by simp [pdqsortLoop] at h
  | fuel + 1, data, d, a, b, limit, wasBalanced, wasPartitioned, h => by
    rw [pdqsortLoop] at h
    dsimp only at h
    split at h
    · exact insertionSort_func_perm less data d a b h
    split at h
    · exact heapSort_func_perm less data d a b h
    cases h1 : pdqsortBreakPatterns next data a b limit wasBalanced with
    | none => rw [h1] at h; cases h
    | some r1 =>
    obtain ⟨d1, limit1⟩ := r1
    rw [h1] at h
    dsimp only at h
    have hp1 : d1.Perm data := by
      unfold pdqsortBreakPatterns at h1
      split at h1
      · split at h1
        · cases h1
        · rename_i d0 hb
          cases h1
          exact breakPatterns_func_perm next data _ a b hb
      · cases h1
        exact List.Perm.refl _
    cases h2 : pdqsortChoosePivot less d1 a b with
    | none => rw [h2] at h; cases h
    | some r2 =>
    obtain ⟨d2, pivot, hint⟩ := r2
    rw [h2] at h
    dsimp only at h
    have hp2 : d2.Perm d1 := by
      unfold pdqsortChoosePivot at h2
      split at h2
      · cases h2
      · split at h2
        · split at h2
          · cases h2
          · rename_i d0 hr
            cases h2
            exact reverseRangeLoop_perm _ _ _ d1 _ hr
        · cases h2
          exact List.Perm.refl _
    cases h3 : pdqsortLikelySorted less d2 a b wasBalanced wasPartitioned hint with
    | none => rw [h3] at h; cases h
    | some r3 =>
    obtain ⟨d3, sorted⟩ := r3
    rw [h3] at h
    have hp3 : d3.Perm d2 := by
      unfold pdqsortLikelySorted at h3
      split at h3
      · exact partialInsertionSortLoop_perm less a b _ _ d2 d3 sorted h3
      · cases h3
        exact List.Perm.refl _
    have hp03 : d3.Perm data := (hp3.trans hp2).trans hp1
    cases sorted
    swap
    · cases h
      exact hp03
    dsimp only at h
    cases h4 : pdqsortManyDuplicates less d3 a pivot with
    | none => rw [h4] at h; cases h
    | some c =>
    rw [h4] at h
    cases c
    · dsimp only at h
      cases h5 : partition_func less d3 a b pivot with
      | none => rw [h5] at h; cases h
      | some r5 =>
      obtain ⟨d4, mid, already⟩ := r5
      rw [h5] at h
      dsimp only at h
      have hp4 := partition_func_perm less d3 d4 a b pivot mid already h5
      split at h
      · cases h6 : pdqsortLoop next less fuel d4 a mid limit1 true true with
        | none => rw [h6] at h; cases h
        | some d5 =>
          rw [h6] at h
          exact ((pdqsortLoop_perm next less fuel d5 d _ _ _ _ _ h).trans
            (pdqsortLoop_perm next less fuel d4 d5 _ _ _ _ _ h6)).trans (hp4.trans hp03)
      · cases h6 : pdqsortLoop next less fuel d4 (mid + 1) b limit1 true true with
        | none => rw [h6] at h; cases h
        | some d5 =>
          rw [h6] at h
          exact ((pdqsortLoop_perm next less fuel d5 d _ _ _ _ _ h).trans
            (pdqsortLoop_perm next less fuel d4 d5 _ _ _ _ _ h6)).trans (hp4.trans hp03)
    · dsimp only at h
      cases h5 : partitionEqual_func less d3 a b pivot with
      | none => rw [h5] at h; cases h
      | some r5 =>
      obtain ⟨d4, mid⟩ := r5
      rw [h5] at h
      dsimp only at h
      exact (pdqsortLoop_perm next less fuel d4 d _ _ _ _ _ h).trans
        ((partitionEqual_func_perm less d3 d4 a b pivot mid h5).trans hp03)

/-- Whenever `sort.Slice` ends, it ends in a rearrangement of the slice, whatever the
comparison closure. -/
theorem Slice_perm (next : Nat → Nat) (x d : List α) (less : α → α → Option Bool)
    (h : Slice next x less = some d) : d.Perm x :=
  pdqsortLoop_perm next less _ x d _ _ _ _ _ h

end SortPerm

/-! ## The filter predicates (`filterEvents`, lines 240-261) -/

theorem stringsContains_iff (s substr : String) :
    stringsContains s substr = true ↔ substr.data <:+: s.data := by
  simp [stringsContains]

/-- Line 260 is reached exactly when the five criteria hold. -/
theorem passesFilters_iff (opts : Options) (event : RawEvent) (ctEvent : CloudTrailEvent) :
    passesFilters opts event ctEvent = true ↔
      (opts.EventSource = "" ∨ event.EventSource = opts.EventSource) ∧
      (opts.CallSource = "" ∨ ctEvent.SourceIPAddress = opts.CallSource) ∧
      (opts.API = "" ∨ ctEvent.EventName = opts.API) ∧
      (opts.IdentityUserName = "" ∨
        ctEvent.UserIdentity.SessionContext.SessionIssuer.UserName = opts.IdentityUserName) ∧
      (opts.UserAgent = "" ∨ opts.UserAgent.data <:+: ctEvent.UserAgent.data) := by
  unfold passesFilters
  rw [← stringsContains_iff]
  split_ifs with h1 h2 h3 h4 h5
  · simp only [Bool.false_eq_true, false_iff]; tauto
  · simp only [Bool.false_eq_true, false_iff]; tauto
  · simp only [Bool.false_eq_true, false_iff]; tauto
  · simp only [Bool.false_eq_true, false_iff]; tauto
  · simp only [Bool.false_eq_true, false_iff]
    rcases h5 with ⟨h5a, h5b⟩
    simp only [Bool.not_eq_true', ] at h5b
    simp [h5a, h5b]
  · simp only [true_iff]
    simp only [Bool.not_eq_true', not_and, Decidable.not_not, Bool.not_eq_false] at h1 h2 h3 h4 h5
    refine ⟨?_, ?_, ?_, ?_, ?_⟩ <;> tauto

/-- On a non-nil `ctEvent` the guards let the event through exactly when the five
conditions hold. -/
theorem reachesAppend_some (opts : Options) (event : RawEvent) (ctEvent : CloudTrailEvent) :
    reachesAppend opts event (some ctEvent) =
      some (decide (criteriaHold opts event (some ctEvent))) := by
  have h := passesFilters_iff opts event ctEvent
  simp only [reachesAppend, Option.some.injEq]
  by_cases hp : passesFilters opts event ctEvent = true
  · rw [hp]
    symm
    rw [decide_eq_true_iff]
    simpa [criteriaHold] using h.1 hp
  · have hc : ¬ criteriaHold opts event (some ctEvent) := fun hc =>
      hp (h.2 (by simpa [criteriaHold] using hc))
    rw [Bool.not_eq_true] at hp
    rw [hp]
    symm
    rw [decide_eq_false_iff_not]
    exact hc

/-- On a nil `ctEvent` the guards fault when they read it, and otherwise let the event
through exactly when the five conditions hold. -/
theorem reachesAppend_none (opts : Options) (event : RawEvent) :
    reachesAppend opts event none =
      if nilRead opts event none then none
      else some (decide (criteriaHold opts event none)) := by
  unfold reachesAppend nilRead criteriaHold
  by_cases h1 : opts.EventSource = "" <;> by_cases h2 : event.EventSource = opts.EventSource <;>
    by_cases h3 : opts.CallSource = "" <;> by_cases h4 : opts.API = "" <;>
    by_cases h5 : opts.IdentityUserName = "" <;> by_cases h6 : opts.UserAgent = "" <;>
    simp [h1, h2, h3, h4, h5, h6]

/-- The guards, for every value of `ctEvent`. -/
theorem reachesAppend_eq (opts : Options) (event : RawEvent)
    (ctEvent : Option CloudTrailEvent) :
    reachesAppend opts event ctEvent =
      if nilRead opts event ctEvent then none
      else some (decide (criteriaHold opts event ctEvent)) := by
  cases ctEvent with
  | none => exact reachesAppend_none opts event
  | some c =>
    rw [reachesAppend_some, if_neg]
    exact fun h => by simp [nilRead] at h

/-- What the page loop returns on a page whose payloads all decode. -/
theorem filterPage_decoded (env : Env) (opts : Options) :
    ∀ (output : List RawEvent) (decoded : List (Option CloudTrailEvent))
      (filteredEvents : List (Option CloudTrailEvent)),
      output.map (fun event => env.Unmarshal event.CloudTrailEvent) =
        decoded.map Except.ok →
      filterPage env opts output filteredEvents =
        if ∃ p ∈ output.zip decoded, nilRead opts p.1 p.2 then none
        else
          some (filteredEvents ++
            ((output.zip decoded).filter
              (fun p => decide (criteriaHold opts p.1 p.2))).map Prod.snd, none)
  | [], decoded, filteredEvents, _ => by
    simp [filterPage]
  | event :: output, [], _, h => by simp at h
  | event :: output, ctEvent :: decoded, filteredEvents, h => by
    simp only [List.map_cons, List.cons.injEq] at h
    obtain ⟨hhead, htail⟩ := h
    rw [filterPage, hhead]
    simp only [List.zip_cons_cons, List.exists_mem_cons_iff]
    rw [reachesAppend_eq]
    by_cases hnil : nilRead opts event ctEvent
    · rw [if_pos hnil, if_pos (Or.inl hnil)]
    · rw [if_neg hnil]
      by_cases hc : criteriaHold opts event ctEvent
      · simp only [hc, decide_True]
        rw [filterPage_decoded env opts output decoded _ htail]
        simp only [hnil, false_or, List.filter_cons, hc, decide_True, if_true, List.map_cons,
          List.append_assoc, List.singleton_append]
      · simp only [hc, decide_False]
        rw [filterPage_decoded env opts output decoded _ htail]
        simp only [hnil, false_or, List.filter_cons, hc, decide_False, Bool.false_eq_true,
          if_false]

/-- C1. In `filterEvents`, a raw event whose payload decodes is appended to the
filtered list if and only if the five conditions hold: each of EventSource (compared
with the page-level envelope), CallSource, API and IdentityUserName is empty or equals
the corresponding field exactly, and UserAgent is empty or occurs in the decoded user
agent as a substring. Precisely: (1) for every raw event and every value of `ctEvent`
after a successful decode, nil included, the guards of lines 245-259 reach the `append`
exactly when the five conditions hold; (2) on a page whose payloads all decode, the
page loop faults when a guard reads a nil `ctEvent`, and otherwise returns the filtered
list extended by exactly the decoded events for which the five conditions hold, in page
order, with no error; (3) the `eventSource` field of the decoded payload plays no
part. -/
theorem filterEvents_appends_iff (env : Env) (opts : Options) (output : List RawEvent)
    (decoded : List (Option CloudTrailEvent)) (filteredEvents : List (Option CloudTrailEvent))
    (hdecode : output.map (fun event => env.Unmarshal event.CloudTrailEvent) =
      decoded.map Except.ok) :
    (∀ (event : RawEvent) (ctEvent : Option CloudTrailEvent),
        reachesAppend opts event ctEvent = some true ↔ criteriaHold opts event ctEvent) ∧
      filterPage env opts output filteredEvents =
        (if ∃ p ∈ output.zip decoded, nilRead opts p.1 p.2 then none
        else
          some (filteredEvents ++
            ((output.zip decoded).filter
              (fun p => decide (criteriaHold opts p.1 p.2))).map Prod.snd, none)) ∧
      ∀ (event : RawEvent) (ctEvent : Option CloudTrailEvent) (s : String),
        reachesAppend opts event (ctEvent.map (fun c => { c with EventSource := s })) =
          reachesAppend opts event ctEvent := by
  refine ⟨fun event ctEvent => ?_, filterPage_decoded env opts output decoded filteredEvents
    hdecode, fun event ctEvent s => ?_⟩
  · rw [reachesAppend_eq]
    by_cases hnil : nilRead opts event ctEvent
    · rw [if_pos hnil]
      refine ⟨fun h => (by cases h), fun hc => ?_⟩
      exfalso
      obtain ⟨rfl, _, hread⟩ := hnil
      obtain ⟨_, h2, h3, h4, h5⟩ := hc
      simp only [Option.map_none'] at h2 h3 h4 h5
      rcases hread with h | h | h | h
      · exact h (h2.resolve_right (fun e => by cases e))
      · exact h (h3.resolve_right (fun e => by cases e))
      · exact h (h4.resolve_right (fun e => by cases e))
      · exact h (h5.resolve_right (fun e => by cases e))
    · rw [if_neg hnil]
      simp
  · cases ctEvent with
    | none => rfl
    | some c => rfl

/-- C1, at a concrete input: with the criterion EventSource = `ec2.amazonaws.com` the
page `mixedPage` decodes, no guard reads the nil payload (its envelope says
`eks.amazonaws.com`), and the page loop keeps the first event, whose payload says
`sts.amazonaws.com`, and the third. -/
theorem filterEvents_appends_iff_witness :
    mixedPage.map (fun event => (referenceEnv []).Unmarshal event.CloudTrailEvent) =
        [some (mkEvent "sts.amazonaws.com" "DescribeInstances" ""), none,
          some (mkEvent "ec2.amazonaws.com" "RunInstances" "")].map Except.ok ∧
      filterPage (referenceEnv []) { noFilter with EventSource := "ec2.amazonaws.com" }
          mixedPage [] =
        some ([some (mkEvent "sts.amazonaws.com" "DescribeInstances" ""),
          some (mkEvent "ec2.amazonaws.com" "RunInstances" "")], none) := by
  have hdec : mixedPage.map (fun event => (referenceEnv []).Unmarshal event.CloudTrailEvent) =
      [some (mkEvent "sts.amazonaws.com" "DescribeInstances" ""), none,
        some (mkEvent "ec2.amazonaws.com" "RunInstances" "")].map Except.ok := by decide
  refine ⟨hdec, ?_⟩
  rw [(filterEvents_appends_iff (referenceEnv [])
    { noFilter with EventSource := "ec2.amazonaws.com" } mixedPage _ [] hdec).2.1]
  decide

/-- C10 fails as stated: with the criteria API = `DescribeInstances` and UserAgent =
`karpenter`, an event named `TerminateInstances` is rejected, and stays rejected when
its user agent is replaced by one that contains the criterion. -/
theorem userAgent_flip_counterexample :
    ({ noFilter with API := "DescribeInstances", UserAgent := "karpenter" } : Options).UserAgent ≠ "" ∧
      passesFilters { noFilter with API := "DescribeInstances", UserAgent := "karpenter" }
        { EventSource := "ec2.amazonaws.com", CloudTrailEvent := "" }
        { mkEvent "ec2.amazonaws.com" "TerminateInstances" "" with UserAgent := "aws-cli" } = false ∧
      stringsContains "karpenter.sh/v0.31" "karpenter" = true ∧
      passesFilters { noFilter with API := "DescribeInstances", UserAgent := "karpenter" }
        { EventSource := "ec2.amazonaws.com", CloudTrailEvent := "" }
        { mkEvent "ec2.amazonaws.com" "TerminateInstances" "" with
            UserAgent := "karpenter.sh/v0.31" } = false := by
  decide

/-- C10 (amended). With a non-empty UserAgent criterion: an accepted event becomes
rejected when its user agent is replaced by a string that does not contain the
criterion; a rejected event whose envelope and payload satisfy the four other criteria
becomes accepted when its user agent is replaced by a string that contains it. -/
theorem userAgent_flip (opts : Options) (event : RawEvent) (ctEvent : CloudTrailEvent)
    (userAgent : String) (hcriterion : opts.UserAgent ≠ "") :
    (passesFilters opts event ctEvent = true →
        stringsContains userAgent opts.UserAgent = false →
        passesFilters opts event { ctEvent with UserAgent := userAgent } = false) ∧
      (passesFilters opts event ctEvent = false →
        (opts.EventSource = "" ∨ event.EventSource = opts.EventSource) →
        (opts.CallSource = "" ∨ ctEvent.SourceIPAddress = opts.CallSource) →
        (opts.API = "" ∨ ctEvent.EventName = opts.API) →
        (opts.IdentityUserName = "" ∨
          ctEvent.UserIdentity.SessionContext.SessionIssuer.UserName = opts.IdentityUserName) →
        stringsContains userAgent opts.UserAgent = true →
        passesFilters opts event { ctEvent with UserAgent := userAgent } = true) := by
  constructor
  · intro _ hnot
    cases hres : passesFilters opts event { ctEvent with UserAgent := userAgent }
    · rfl
    · have h := ((passesFilters_iff opts event _).1 hres).2.2.2.2
      rcases h with h | h
      · exact absurd h hcriterion
      · have hc := (stringsContains_iff userAgent opts.UserAgent).2 h
        rw [hnot] at hc
        exact absurd hc (by decide)
  · intro _ h1 h2 h3 h4 hc
    exact (passesFilters_iff opts event _).2
      ⟨h1, h2, h3, h4, Or.inr ((stringsContains_iff userAgent opts.UserAgent).1 hc)⟩

/-- C10 (amended), at a concrete input: the criterion `karpenter` alone; the user agent
`aws-cli` is rejected, `karpenter.sh/v0.31` is accepted. -/
theorem userAgent_flip_witness :
    ({ noFilter with UserAgent := "karpenter" } : Options).UserAgent ≠ "" ∧
      passesFilters { noFilter with UserAgent := "karpenter" }
        { EventSource := "ec2.amazonaws.com", CloudTrailEvent := "" }
        { mkEvent "ec2.amazonaws.com" "DescribeInstances" "" with UserAgent := "aws-cli" } = false ∧
      passesFilters { noFilter with UserAgent := "karpenter" }
        { EventSource := "ec2.amazonaws.com", CloudTrailEvent := "" }
        { mkEvent "ec2.amazonaws.com" "DescribeInstances" "" with
            UserAgent := "karpenter.sh/v0.31" } = true :=
  ⟨by decide, by decide,
    (userAgent_flip { noFilter with UserAgent := "karpenter" }
      { EventSource := "ec2.amazonaws.com", CloudTrailEvent := "" }
      { mkEvent "ec2.amazonaws.com" "DescribeInstances" "" with UserAgent := "aws-cli" }
      "karpenter.sh/v0.31" (by decide)).2 (by decide) (by decide) (by decide) (by decide)
      (by decide) (by decide)⟩

/-! ## `parseTimeOrDuration` -/

/-- Negating an `int64` other than the least one does not wrap. -/
theorem wrapInt64_neg (d : Int) (hlo : -2 ^ 63 < d) (hhi : d < 2 ^ 63) :
    wrapInt64 (-1 * d) = -d := by
  unfold wrapInt64
  have h : (-1 * d + 2 ^ 63) % 2 ^ 64 = -1 * d + 2 ^ 63 :=
    Int.emod_eq_of_lt (by omega) (by omega)
  rw [h]
  omega

/-- C8 fails as stated: the input `-9223372036854775808ns` is no RFC3339 timestamp and
parses as the duration `d = -2^63` ns; `-1 * d` wraps around to `d`, and the result is
`now + d` (`2^63` ns before now), not `now - d`. -/
theorem parseTimeOrDuration_counterexample :
    (∃ err, (referenceEnv []).Parse "-9223372036854775808ns" = .error err) ∧
      (referenceEnv []).ParseDuration "-9223372036854775808ns" = .ok (-2 ^ 63) ∧
      parseTimeOrDuration (referenceEnv []) "-9223372036854775808ns" =
        .ok ((referenceEnv []).Now + -2 ^ 63) ∧
      parseTimeOrDuration (referenceEnv []) "-9223372036854775808ns" ≠
        .ok ((referenceEnv []).Now - -2 ^ 63) := by
  refine ⟨⟨_, rfl⟩, by decide, by decide, by decide⟩

/-- C8 (amended). `parseTimeOrDuration` tries RFC3339 first and a duration second:
(1) an input that parses as a timestamp yields that instant; (2) otherwise an input that
parses as a duration `d` other than the least `int64` yields `now - d`; (3) an error
is returned exactly when both parsers fail, and (4) it wraps both parse errors. On the
reference environment `2024-01-01T00:00:00Z` yields that instant, `30m` yields
now minus 30 minutes, and `not-a-time` fails. -/
theorem parseTimeOrDuration_resolves (env : Env) (input : String) :
    (∀ t, env.Parse input = .ok t → parseTimeOrDuration env input = .ok t) ∧
      (∀ err d, env.Parse input = .error err → env.ParseDuration input = .ok d →
        -2 ^ 63 < d → d < 2 ^ 63 → parseTimeOrDuration env input = .ok (env.Now - d)) ∧
      ((∃ e, parseTimeOrDuration env input = .error e) ↔
        (∃ err, env.Parse input = .error err) ∧
          (∃ derr, env.ParseDuration input = .error derr)) ∧
      (∀ err derr, env.Parse input = .error err → env.ParseDuration input = .error derr →
        ∃ e, parseTimeOrDuration env input = .error e ∧ e.unwrap = [err, derr]) ∧
      parseTimeOrDuration (referenceEnv []) "2024-01-01T00:00:00Z" =
        .ok 1704067200000000000 ∧
      (referenceEnv []).Parse "2024-01-01T00:00:00Z" = .ok 1704067200000000000 ∧
      (referenceEnv []).ParseDuration "30m" = .ok (30 * 60 * 1000000000) ∧
      parseTimeOrDuration (referenceEnv []) "30m" =
        .ok ((referenceEnv []).Now - 30 * 60 * 1000000000) ∧
      (∃ e, parseTimeOrDuration (referenceEnv []) "not-a-time" = .error e) := by
  refine ⟨?_, ?_, ?_, ?_, by decide, by decide, by decide, by decide, ⟨_, rfl⟩⟩
  · intro t ht
    simp [parseTimeOrDuration, ht]
  · intro err d herr hd hlo hhi
    simp only [parseTimeOrDuration, herr, hd, Time.Add, wrapInt64_neg d hlo hhi]
    rfl
  · unfold parseTimeOrDuration
    cases hp : env.Parse input with
    | ok t => simp
    | error err =>
      cases hd : env.ParseDuration input with
      | ok d => simp
      | error derr => simp
  · intro err derr herr hderr
    simp [parseTimeOrDuration, herr, hderr]

/-! ## `filterEvents`: the sort step and the two counts -/

/-- A slice of at most one element is returned as it is: the closure is not called. -/
theorem Slice_short {α : Type} (next : Nat → Nat) (x : List α) (less : α → α → Option Bool)
    (h : x.length ≤ 1) : Slice next x less = some x := by
  rw [Slice_small next x less (by omega)]
  match x, h with
  | [], _ => rfl
  | [_], _ => rfl

/-- The closure of lines 263-273 faults on no two entries of a list without nil
entries. -/
theorem eventLess_faultFree (env : Env) (filteredEvents : List (Option CloudTrailEvent))
    (h : ∀ p ∈ filteredEvents, p ≠ none) : FaultFree (eventLess env) filteredEvents := by
  intro x hx y hy
  cases x with
  | none => exact absurd rfl (h _ hx)
  | some ei =>
    cases y with
    | none => exact absurd rfl (h _ hy)
    | some ej =>
      cases hpi : env.Parse ei.EventTime with
      | error _ => exact ⟨true, by simp only [eventLess, hpi]⟩
      | ok ti =>
        cases hpj : env.Parse ej.EventTime with
        | error _ => exact ⟨true, by simp only [eventLess, hpi, hpj]⟩
        | ok tj => exact ⟨Time.Before ti tj, by simp only [eventLess, hpi, hpj]⟩

/-- C6 fails as stated: a page of two raw events with the payload `null` and no filter
criterion gives the filtered list `[nil, nil]`; the first comparison of the sort reads
`filteredEvents[1].EventTime` through the nil pointer, and `filterEvents` ends in a
run-time fault instead of returning a permutation. -/
theorem filterEvents_sort_counterexample :
    filterPage (referenceEnv []) noFilter
        [{ EventSource := "ec2.amazonaws.com", CloudTrailEvent := "null" },
          { EventSource := "ec2.amazonaws.com", CloudTrailEvent := "null" }] [] =
        some ([none, none], none) ∧
      eventLess (referenceEnv []) none none = none ∧
      filterEventsLoop (referenceEnv []) noFilter [] 2 [none, none] = none ∧
      filterEvents (referenceEnv twoNullPayloads) noFilter = none := by
  decide

/-- C6 (amended). The sort step of `filterEvents` never rejects or drops an event: for
every filtered event list that has no nil entry or has at most one entry, whatever its
`EventTime` strings are (parsable as RFC3339 or not), the sort ends without a run-time
fault and the returned list is a permutation of the list before sorting, of the same
length. -/
theorem filterEvents_sort_permutation (env : Env) (opts : Options) (rawEvents : Nat)
    (filteredEvents : List (Option CloudTrailEvent))
    (h : (∀ p ∈ filteredEvents, p ≠ none) ∨ filteredEvents.length ≤ 1) :
    ∃ sorted, filterEventsLoop env opts [] rawEvents filteredEvents =
        some (rawEvents, sorted, none) ∧
      sorted.Perm filteredEvents ∧ sorted.length = filteredEvents.length := by
  rcases h with h | h
  · obtain ⟨sorted, hs, hp⟩ := Slice_safe env.xorshiftNext filteredEvents (eventLess env)
      (eventLess_faultFree env filteredEvents h)
    refine ⟨sorted, ?_, hp, hp.length_eq⟩
    rw [filterEventsLoop, hs]
  · refine ⟨filteredEvents, ?_, List.Perm.refl _, rfl⟩
    rw [filterEventsLoop, Slice_short _ _ _ h]

/-- C6 (amended), at a concrete input: three events none of whose times parses; the
sort returns all three. -/
theorem filterEvents_sort_permutation_witness :
    ((∀ p ∈ threeUnparsable.map some, p ≠ none) ∨ (threeUnparsable.map some).length ≤ 1) ∧
      (∃ sorted, filterEventsLoop (referenceEnv []) noFilter [] 3 (threeUnparsable.map some) =
          some (3, sorted, none) ∧
        sorted.Perm (threeUnparsable.map some) ∧
        sorted.length = (threeUnparsable.map some).length) ∧
      filterEventsLoop (referenceEnv []) noFilter [] 3 (threeUnparsable.map some) =
        some (3,
          [some (mkEvent "sts.amazonaws.com" "AssumeRole" "2024-01-01 10:00:00"),
            some (mkEvent "ec2.amazonaws.com" "DescribeInstances" ""),
            some (mkEvent "ec2.amazonaws.com" "RunInstances" "yesterday")],
          none) :=
  have h : (∀ p ∈ threeUnparsable.map some, p ≠ none) ∨
      (threeUnparsable.map some).length ≤ 1 :=
    Or.inl (fun p hp => by
      simp only [List.mem_map] at hp
      obtain ⟨e, _, rfl⟩ := hp
      exact fun he => by cases he)
  ⟨h, filterEvents_sort_permutation (referenceEnv []) noFilter 3 (threeUnparsable.map some) h,
    by decide⟩

/-- A page adds at most its own length to the filtered list. -/
theorem filterPage_length (env : Env) (opts : Options) :
    ∀ (output : List RawEvent) (filteredEvents filteredEvents1 : List (Option CloudTrailEvent))
      (err : Option GoError),
      filterPage env opts output filteredEvents = some (filteredEvents1, err) →
      filteredEvents1.length ≤ filteredEvents.length + output.length
  | [], filteredEvents, filteredEvents1, err, h => by
    simp only [filterPage, Option.some.injEq, Prod.mk.injEq] at h
    rw [← h.1]
    omega
  | event :: rest, filteredEvents, filteredEvents1, err, h => by
    rw [filterPage] at h
    cases hdec : env.Unmarshal event.CloudTrailEvent with
    | error e =>
      rw [hdec] at h
      simp only [Option.some.injEq, Prod.mk.injEq] at h
      rw [← h.1]
      simp only [List.length_cons]
      omega
    | ok ctEvent =>
      rw [hdec] at h
      dsimp only at h
      cases hr : reachesAppend opts event ctEvent with
      | none => rw [hr] at h; cases h
      | some c =>
        rw [hr] at h
        cases c
        · have := filterPage_length env opts rest filteredEvents _ _ h
          simp only [List.length_cons]
          omega
        · have := filterPage_length env opts rest (filteredEvents ++ [ctEvent]) _ _ h
          simp only [List.length_append, List.length_cons, List.length_nil] at this
          simp only [List.length_cons]
          omega

/-- Whenever the page loop of `filterEvents` returns, the raw count bounds the length
of the filtered list, and when it returns no error every page was fetched and the raw
count has grown by the total number of events on the pages. -/
theorem filterEventsLoop_counts (env : Env) (opts : Options) :
    ∀ (pages : List (Except String (List RawEvent))) (rawEvents : Nat)
      (filteredEvents : List (Option CloudTrailEvent)), filteredEvents.length ≤ rawEvents →
      ∀ (raw : Nat) (events : List (Option CloudTrailEvent)) (err : Option GoError),
        filterEventsLoop env opts pages rawEvents filteredEvents = some (raw, events, err) →
        events.length ≤ raw ∧
        (err = none → ∃ outputs : List (List RawEvent),
          pages = outputs.map Except.ok ∧ raw = rawEvents + (outputs.map List.length).sum)
  | [], rawEvents, filteredEvents, h, raw, events, err, hloop => by
    rw [filterEventsLoop] at hloop
    cases hs : Slice env.xorshiftNext filteredEvents (eventLess env) with
    | none => rw [hs] at hloop; cases hloop
    | some sorted =>
      rw [hs] at hloop
      simp only [Option.some.injEq, Prod.mk.injEq] at hloop
      obtain ⟨rfl, rfl, rfl⟩ := hloop
      have hp := Slice_perm _ _ _ _ hs
      exact ⟨by rw [hp.length_eq]; exact h, fun _ => ⟨[], rfl, by simp⟩⟩
  | .error e :: rest, rawEvents, filteredEvents, h, raw, events, err, hloop => by
    rw [filterEventsLoop] at hloop
    simp only [Option.some.injEq, Prod.mk.injEq] at hloop
    obtain ⟨rfl, rfl, rfl⟩ := hloop
    exact ⟨h, fun hnone => by cases hnone⟩
  | .ok output :: rest, rawEvents, filteredEvents, h, raw, events, err, hloop => by
    rw [filterEventsLoop] at hloop
    cases hpage : filterPage env opts output filteredEvents with
    | none => rw [hpage] at hloop; cases hloop
    | some r =>
      obtain ⟨filtered1, perr⟩ := r
      rw [hpage] at hloop
      have hlen := filterPage_length env opts output filteredEvents filtered1 perr hpage
      cases perr with
      | some e =>
        simp only [Option.some.injEq, Prod.mk.injEq] at hloop
        obtain ⟨rfl, rfl, rfl⟩ := hloop
        exact ⟨by omega, fun hnone => by cases hnone⟩
      | none =>
        dsimp only at hloop
        obtain ⟨hle, hnone⟩ := filterEventsLoop_counts env opts rest
          (rawEvents + output.length) filtered1 (by omega) raw events err hloop
        refine ⟨hle, fun he => ?_⟩
        obtain ⟨outputs, hrest, hraw⟩ := hnone he
        refine ⟨output :: outputs, by simp [hrest], ?_⟩
        simp only [List.map_cons, List.sum_cons]
        omega

/-- When no payload decodes to a nil pointer, the page loop does not fault and keeps
the filtered list free of nil entries. -/
theorem filterPage_returns (env : Env) (opts : Options)
    (hdecode : ∀ payload, env.Unmarshal payload ≠ .ok none) :
    ∀ (output : List RawEvent) (filteredEvents : List (Option CloudTrailEvent)),
      (∀ p ∈ filteredEvents, p ≠ none) →
      ∃ filteredEvents1 err, filterPage env opts output filteredEvents =
          some (filteredEvents1, err) ∧
        ∀ p ∈ filteredEvents1, p ≠ none
  | [], filteredEvents, h => ⟨filteredEvents, none, rfl, h⟩
  | event :: rest, filteredEvents, h => by
    rw [filterPage]
    cases hdec : env.Unmarshal event.CloudTrailEvent with
    | error e => exact ⟨filteredEvents, _, rfl, h⟩
    | ok ctEvent =>
      cases ctEvent with
      | none => exact absurd hdec (hdecode _)
      | some c =>
        dsimp only [reachesAppend]
        cases passesFilters opts event c
        · exact filterPage_returns env opts hdecode rest filteredEvents h
        · refine filterPage_returns env opts hdecode rest (filteredEvents ++ [some c])
            (fun p hp => ?_)
          rw [List.mem_append, List.mem_singleton] at hp
          rcases hp with hp | rfl
          · exact h p hp
          · exact fun he => by cases he

/-- When no payload decodes to a nil pointer, `filterEvents` returns. -/
theorem filterEventsLoop_returns (env : Env) (opts : Options)
    (hdecode : ∀ payload, env.Unmarshal payload ≠ .ok none) :
    ∀ (pages : List (Except String (List RawEvent))) (rawEvents : Nat)
      (filteredEvents : List (Option CloudTrailEvent)), (∀ p ∈ filteredEvents, p ≠ none) →
      ∃ raw events err, filterEventsLoop env opts pages rawEvents filteredEvents =
        some (raw, events, err)
  | [], rawEvents, filteredEvents, h => by
    obtain ⟨sorted, hs, _⟩ := Slice_safe env.xorshiftNext filteredEvents (eventLess env)
      (eventLess_faultFree env filteredEvents h)
    exact ⟨rawEvents, sorted, none, by rw [filterEventsLoop, hs]⟩
  | .error e :: rest, rawEvents, filteredEvents, _ => ⟨_, _, _, by rw [filterEventsLoop]⟩
  | .ok output :: rest, rawEvents, filteredEvents, h => by
    rw [filterEventsLoop]
    obtain ⟨filtered1, perr, hpage, h1⟩ :=
      filterPage_returns env opts hdecode output filteredEvents h
    rw [hpage]
    cases perr with
    | some e => exact ⟨_, _, _, rfl⟩
    | none => exact filterEventsLoop_returns env opts hdecode rest _ filtered1 h1

/-- C7. On every return path of `filterEvents` (normal completion, page-fetch error,
payload decode error, configuration error) the returned raw-event count is at least the
length of the returned filtered list; on normal completion the raw count is the total
number of events over all fetched pages. `filterEvents` returns whenever no payload
decodes to a nil pointer. On three raw events of which two are named
`DescribeInstances`, the criterion API = `DescribeInstances` yields those two events
(in chronological order) and the raw count 3. -/
theorem filterEvents_rawCount_ge (env : Env) (opts : Options) :
    (∀ (raw : Nat) (events : List (Option CloudTrailEvent)) (err : Option GoError),
        filterEvents env opts = some (raw, events, err) →
        events.length ≤ raw ∧
        (err = none → ∃ outputs : List (List RawEvent),
          env.LookupEvents (lookupInput opts) = outputs.map Except.ok ∧
            raw = (outputs.map List.length).sum)) ∧
      ((∀ payload, env.Unmarshal payload ≠ .ok none) →
        ∃ raw events err, filterEvents env opts = some (raw, events, err)) ∧
      filterEvents (referenceEnv threeRawEvents) { noFilter with API := "DescribeInstances" } =
        some (3,
          [some (mkEvent "ec2.amazonaws.com" "DescribeInstances" "2024-01-01T10:00:00Z"),
            some (mkEvent "ec2.amazonaws.com" "DescribeInstances" "2024-01-01T10:05:00Z")],
          none) := by
  refine ⟨fun raw events err h => ?_, fun hdecode => ?_, by decide⟩
  · unfold filterEvents at h
    cases hc : env.LoadDefaultConfig with
    | error e =>
      rw [hc] at h
      simp only [Option.some.injEq, Prod.mk.injEq] at h
      obtain ⟨rfl, rfl, rfl⟩ := h
      exact ⟨le_refl _, fun hnone => by cases hnone⟩
    | ok u =>
      rw [hc] at h
      obtain ⟨hle, hnone⟩ := filterEventsLoop_counts env opts
        (env.LookupEvents (lookupInput opts)) 0 [] (le_refl _) raw events err h
      refine ⟨hle, fun he => ?_⟩
      obtain ⟨outputs, h1, h2⟩ := hnone he
      exact ⟨outputs, h1, by omega⟩
  · unfold filterEvents
    cases env.LoadDefaultConfig with
    | error e => exact ⟨_, _, _, rfl⟩
    | ok u =>
      exact filterEventsLoop_returns env opts hdecode _ 0 [] (fun p hp => by cases hp)

/-! ## `filterEvents`: the order of the result -/

/-- The comparison closure of `filterEvents` orders non-nil entries whose times parse by
their instants. -/
theorem eventLess_ordersBy (env : Env) (filteredEvents : List (Option CloudTrailEvent))
    (hparse : ∀ p ∈ filteredEvents, ∃ e t, p = some e ∧ env.Parse e.EventTime = .ok t) :
    OrdersBy (eventLess env) (eventInstant env) filteredEvents := by
  intro x hx y hy
  obtain ⟨ex, tx, rfl, hpx⟩ := hparse x hx
  obtain ⟨ey, ty, rfl, hpy⟩ := hparse y hy
  simp only [eventLess, eventInstant, hpx, hpy, Time.Before]

/-- C2. For every filtered event list in which every `EventTime` parses as RFC3339
(so that no entry is nil), the sort step of `filterEvents` returns the events in
ascending chronological order: the returned list is a permutation of the filtered list
and, for all positions `i < j`, both times parse and the instant at `j` is not before
the instant at `i` (instants, not strings, are compared). -/
theorem filterEvents_sorted_chronologically (env : Env) (opts : Options) (rawEvents : Nat)
    (filteredEvents : List (Option CloudTrailEvent))
    (hparse : ∀ p ∈ filteredEvents, ∃ e t, p = some e ∧ env.Parse e.EventTime = .ok t) :
    ∃ sorted, filterEventsLoop env opts [] rawEvents filteredEvents =
        some (rawEvents, sorted, none) ∧
      sorted.Perm filteredEvents ∧
      ∀ (i j : Nat) (hi : i < sorted.length) (hj : j < sorted.length), i < j →
        ∃ ei ej ti tj, sorted[i] = some ei ∧ sorted[j] = some ej ∧
          env.Parse ei.EventTime = .ok ti ∧ env.Parse ej.EventTime = .ok tj ∧
          Time.Before tj ti = false := by
  have ho := eventLess_ordersBy env filteredEvents hparse
  obtain ⟨sorted, hs, hp⟩ := Slice_safe env.xorshiftNext filteredEvents (eventLess env)
    ho.faultFree
  refine ⟨sorted, by rw [filterEventsLoop, hs], hp, fun i j hi hj hij => ?_⟩
  have hpw := (Slice_sorted env.xorshiftNext hs ho).2
  have hle := List.pairwise_iff_getElem.mp hpw i j hi hj hij
  obtain ⟨ei, ti, hei, hti⟩ := hparse sorted[i] (hp.subset (List.getElem_mem hi))
  obtain ⟨ej, tj, hej, htj⟩ := hparse sorted[j] (hp.subset (List.getElem_mem hj))
  refine ⟨ei, ej, ti, tj, hei, hej, hti, htj, ?_⟩
  rw [hei, hej] at hle
  simp only [eventInstant, hti, htj] at hle
  simpa [Time.Before] using hle

/-- C2 on two events with different zone offsets: both times parse, and the event at
`01:00:00+02:00` (23:00 UTC of the day before) comes first although its time string is
the greater one. -/
theorem filterEvents_sorted_chronologically_witness :
    (∀ p ∈ twoZoneEvents.map some,
        ∃ e t, p = some e ∧ (referenceEnv []).Parse e.EventTime = .ok t) ∧
      (∃ sorted, filterEventsLoop (referenceEnv []) noFilter [] 2 (twoZoneEvents.map some) =
          some (2, sorted, none) ∧
        sorted.Perm (twoZoneEvents.map some) ∧
        ∀ (i j : Nat) (hi : i < sorted.length) (hj : j < sorted.length), i < j →
          ∃ ei ej ti tj, sorted[i] = some ei ∧ sorted[j] = some ej ∧
            (referenceEnv []).Parse ei.EventTime = .ok ti ∧
            (referenceEnv []).Parse ej.EventTime = .ok tj ∧
            Time.Before tj ti = false) ∧
      filterEventsLoop (referenceEnv []) noFilter [] 2 (twoZoneEvents.map some) =
        some (2,
          [some (mkEvent "ec2.amazonaws.com" "DescribeInstances" "2024-01-01T01:00:00+02:00"),
            some (mkEvent "ec2.amazonaws.com" "DescribeInstances" "2024-01-01T00:00:00Z")],
          none) :=
  have hparse : ∀ p ∈ twoZoneEvents.map some,
      ∃ e t, p = some e ∧ (referenceEnv []).Parse e.EventTime = .ok t := by
    intro p hp
    simp only [twoZoneEvents, List.map_cons, List.map_nil, List.mem_cons, List.mem_singleton,
      List.not_mem_nil, or_false] at hp
    rcases hp with rfl | rfl
    · exact ⟨_, 1704067200000000000, rfl, by decide⟩
    · exact ⟨_, 1704063600000000000, rfl, by decide⟩
  ⟨hparse,
    filterEvents_sorted_chronologically (referenceEnv []) noFilter 2 (twoZoneEvents.map some)
      hparse,
    by decide⟩

/-- A return of the page loop without an error is a return of the sort step: the
returned list is `sort.Slice` of some filtered list. -/
theorem filterEventsLoop_none (env : Env) (opts : Options) :
    ∀ (pages : List (Except String (List RawEvent))) (rawEvents : Nat)
      (filteredEvents : List (Option CloudTrailEvent)) (raw : Nat)
      (events : List (Option CloudTrailEvent)),
      filterEventsLoop env opts pages rawEvents filteredEvents = some (raw, events, none) →
      ∃ filtered, Slice env.xorshiftNext filtered (eventLess env) = some events
  | [], rawEvents, filteredEvents, raw, events, h => by
    rw [filterEventsLoop] at h
    cases hs : Slice env.xorshiftNext filteredEvents (eventLess env) with
    | none => rw [hs] at h; cases h
    | some sorted =>
      rw [hs] at h
      simp only [Option.some.injEq, Prod.mk.injEq] at h
      exact ⟨filteredEvents, by rw [hs, h.2.1]⟩
  | .error e :: _, rawEvents, filteredEvents, raw, events, h => by
    rw [filterEventsLoop] at h
    simp at h
  | .ok output :: rest, rawEvents, filteredEvents, raw, events, h => by
    rw [filterEventsLoop] at h
    cases hpage : filterPage env opts output filteredEvents with
    | none => rw [hpage] at h; cases h
    | some r =>
      obtain ⟨filtered1, perr⟩ := r
      rw [hpage] at h
      cases perr with
      | some e => simp at h
      | none => exact filterEventsLoop_none env opts rest _ filtered1 raw events h

/-- The whole of `filterEvents`: when it returns without an error a list in which
every entry is an event whose `EventTime` parses, that list is in ascending
chronological order. -/
theorem filterEvents_result_chronological (env : Env) (opts : Options) (raw : Nat)
    (events : List (Option CloudTrailEvent))
    (h : filterEvents env opts = some (raw, events, none))
    (hparse : ∀ p ∈ events, ∃ e t, p = some e ∧ env.Parse e.EventTime = .ok t) :
    events.Pairwise (fun ei ej => eventInstant env ei ≤ eventInstant env ej) := by
  unfold filterEvents at h
  cases hc : env.LoadDefaultConfig with
  | error e => rw [hc] at h; simp at h
  | ok u =>
    rw [hc] at h
    obtain ⟨filtered, hs⟩ := filterEventsLoop_none env opts _ _ _ raw events h
    have hp := Slice_perm _ _ _ _ hs
    exact (Slice_sorted env.xorshiftNext hs
      (eventLess_ordersBy env filtered (fun p hp1 => hparse p (hp.mem_iff.mpr hp1)))).2

/-! ## `computeStats`: the counting loop -/

theorem incrementCalls_length : ∀ (p : Nat) (statsList : List Stat),
    (incrementCalls p statsList).length = statsList.length
  | 0, [] => rfl
  | _ + 1, [] => rfl
  | 0, _ :: _ => rfl
  | p + 1, stat :: rest => by
    simp [incrementCalls, incrementCalls_length p rest]

theorem incrementCalls_sum : ∀ (p : Nat) (statsList : List Stat), p < statsList.length →
    ((incrementCalls p statsList).map Stat.Calls).sum = (statsList.map Stat.Calls).sum + 1
  | _, [], h => by simp at h
  | 0, stat :: rest, _ => by
    simp only [incrementCalls, List.map_cons, List.sum_cons]
    omega
  | p + 1, stat :: rest, h => by
    have := incrementCalls_sum p rest (by simpa using h)
    simp only [incrementCalls, List.map_cons, List.sum_cons]
    omega

/-- Counting a call changes no (event source, API name) pair. -/
theorem incrementCalls_statPair : ∀ (p : Nat) (statsList : List Stat),
    (incrementCalls p statsList).map statPair = statsList.map statPair
  | 0, [] => rfl
  | _ + 1, [] => rfl
  | 0, _ :: _ => rfl
  | p + 1, stat :: rest => by
    simp [incrementCalls, incrementCalls_statPair p rest]

theorem lookup_cons_some {key k : String} {p q : Nat} {stats : List (String × Nat)}
    (h : List.lookup k ((key, p) :: stats) = some q) :
    q = p ∨ List.lookup k stats = some q := by
  rw [List.lookup_cons] at h
  split at h
  · exact Or.inl (Option.some.inj h).symm
  · exact Or.inr h

/-- The loop of `computeStats` faults only on a nil entry: on a list without nil
entries it ends. -/
theorem computeStatsLoop_returns :
    ∀ (events : List CloudTrailEvent) (stats : List (String × Nat)) (statsList : List Stat),
      ∃ result, computeStatsLoop (events.map some) stats statsList = some result
  | [], _, statsList => ⟨statsList, rfl⟩
  | event :: events, stats, statsList => by
    rw [List.map_cons, computeStatsLoop]
    dsimp only
    cases List.lookup (statKey event) stats with
    | some p => exact computeStatsLoop_returns events _ _
    | none => exact computeStatsLoop_returns events _ _

/-- When the loop of `computeStats` ends, no entry of the list is nil. -/
theorem computeStatsLoop_nonnil :
    ∀ (events : List (Option CloudTrailEvent)) (stats : List (String × Nat))
      (statsList result : List Stat), computeStatsLoop events stats statsList = some result →
      ∃ evs : List CloudTrailEvent, events = evs.map some
  | [], _, _, _, _ => ⟨[], rfl⟩
  | none :: _, _, _, _, h => by simp [computeStatsLoop] at h
  | some event :: events, stats, statsList, result, h => by
    rw [computeStatsLoop] at h
    dsimp only at h
    cases hl : List.lookup (statKey event) stats with
    | some p =>
      rw [hl] at h
      obtain ⟨evs, rfl⟩ := computeStatsLoop_nonnil events _ _ result h
      exact ⟨event :: evs, rfl⟩
    | none =>
      rw [hl] at h
      obtain ⟨evs, rfl⟩ := computeStatsLoop_nonnil events _ _ result h
      exact ⟨event :: evs, rfl⟩

/-- The loop of `computeStats` counts every event once: the calls of the stats list
grow by the number of events processed, as long as every pointer in the map refers to
an entry of the list. -/
theorem computeStatsLoop_sum :
    ∀ (events : List (Option CloudTrailEvent)) (stats : List (String × Nat))
      (statsList result : List Stat),
      (∀ k p, stats.lookup k = some p → p < statsList.length) →
      computeStatsLoop events stats statsList = some result →
      (result.map Stat.Calls).sum = (statsList.map Stat.Calls).sum + events.length
  | [], _, _, _, _, h => by
    simp only [computeStatsLoop, Option.some.injEq] at h
    simp [h]
  | none :: _, _, _, _, _, h => by simp [computeStatsLoop] at h
  | some event :: events, stats, statsList, result, hinv, h => by
    rw [computeStatsLoop] at h
    dsimp only at h
    cases hl : List.lookup (statKey event) stats with
    | some p =>
      rw [hl] at h
      dsimp only at h
      rw [computeStatsLoop_sum events stats (incrementCalls p statsList) result
        (fun k q hk => by rw [incrementCalls_length]; exact hinv k q hk) h,
        incrementCalls_sum p statsList (hinv _ _ hl)]
      simp only [List.length_cons, Nat.cast_add, Nat.cast_one]
      omega
    | none =>
      rw [hl] at h
      dsimp only at h
      rw [computeStatsLoop_sum events _ _ result (fun k q hk => by
          rw [incrementCalls_length, List.length_append]
          rcases lookup_cons_some hk with h | h
          · simp [h]
          · have := hinv k q h
            simp only [List.length_cons, List.length_nil]
            omega) h,
        incrementCalls_sum _ _ (by simp)]
      simp only [List.map_append, List.sum_append, List.map_cons, List.map_nil, List.sum_cons,
        List.sum_nil, List.length_cons, Nat.cast_add, Nat.cast_one]
      omega

/-- The closure of lines 329-331 orders stats by `Calls`, and faults on none. -/
theorem statLess_ordersBy (statsList : List Stat) :
    OrdersBy (fun si sj => some (statLess si sj)) Stat.Calls statsList :=
  fun _ _ _ _ => rfl

/-- When `computeStats` returns, its input has no nil entry. -/
theorem computeStats_nonnil (env : Env) (events : List (Option CloudTrailEvent))
    (stats : List Stat) (h : computeStats env events = some stats) :
    ∃ evs : List CloudTrailEvent, events = evs.map some := by
  unfold computeStats at h
  cases hl : computeStatsLoop events [] [] with
  | none => rw [hl] at h; cases h
  | some statsList => exact computeStatsLoop_nonnil events [] [] statsList hl

/-- C4. For every input event list the sum of `Calls` over the stats returned by
`computeStats` equals the length of the input: on a list without nil entries
`computeStats` returns such stats, and whenever it returns at all the sum is the length
of the input; for the empty input the returned stats list is empty, without a
run-time fault. -/
theorem computeStats_calls_sum (env : Env) (events : List CloudTrailEvent) :
    (∃ stats, computeStats env (events.map some) = some stats ∧
        (stats.map Stat.Calls).sum = (events.length : Int)) ∧
      (∀ (input : List (Option CloudTrailEvent)) (stats : List Stat),
        computeStats env input = some stats →
        (stats.map Stat.Calls).sum = (input.length : Int)) ∧
      computeStats env [] = some [] := by
  have key : ∀ (input : List (Option CloudTrailEvent)) (stats : List Stat),
      computeStats env input = some stats →
      (stats.map Stat.Calls).sum = (input.length : Int) := by
    intro input stats h
    unfold computeStats at h
    cases hl : computeStatsLoop input [] [] with
    | none => rw [hl] at h; cases h
    | some statsList =>
      rw [hl] at h
      dsimp only at h
      rw [((Slice_perm _ _ _ _ h).map Stat.Calls).sum_eq,
        computeStatsLoop_sum input [] [] statsList (by simp) hl]
      simp
  refine ⟨?_, key, rfl⟩
  obtain ⟨statsList, hl⟩ := computeStatsLoop_returns events [] []
  obtain ⟨stats, hs, _⟩ := Slice_safe env.xorshiftNext statsList
    (fun si sj => some (statLess si sj)) (statLess_ordersBy statsList).faultFree
  have hc : computeStats env (events.map some) = some stats := by
    unfold computeStats
    rw [hl]
    exact hs
  refine ⟨stats, hc, ?_⟩
  rw [key _ _ hc, List.length_map]

/-- C5. For every input event list `computeStats` returns a list sorted ascending by
call count: on a list without nil entries it returns stats such that, for all positions
`i < j` of the output, `output[i].Calls ≤ output[j].Calls`, and whenever it returns at
all the output is sorted in this way. The events `(svc1, DescribeX)`,
`(svc1, DescribeX)`, `(svc2, DescribeY)` yield
`[{svc2, DescribeY, 1}, {svc1, DescribeX, 2}]`. -/
theorem computeStats_sorted_by_calls (env : Env) (events : List CloudTrailEvent) :
    (∃ stats, computeStats env (events.map some) = some stats ∧
        ∀ (i j : Nat) (hi : i < stats.length) (hj : j < stats.length), i < j →
          stats[i].Calls ≤ stats[j].Calls) ∧
      (∀ (input : List (Option CloudTrailEvent)) (stats : List Stat),
        computeStats env input = some stats →
        ∀ (i j : Nat) (hi : i < stats.length) (hj : j < stats.length), i < j →
          stats[i].Calls ≤ stats[j].Calls) ∧
      computeStats env
          [some (mkEvent "svc1" "DescribeX" ""), some (mkEvent "svc1" "DescribeX" ""),
            some (mkEvent "svc2" "DescribeY" "")] =
        some [{ EventSource := "svc2", API := "DescribeY", Calls := 1 },
          { EventSource := "svc1", API := "DescribeX", Calls := 2 }] := by
  have key : ∀ (input : List (Option CloudTrailEvent)) (stats : List Stat),
      computeStats env input = some stats →
      ∀ (i j : Nat) (hi : i < stats.length) (hj : j < stats.length), i < j →
        stats[i].Calls ≤ stats[j].Calls := by
    intro input stats h
    unfold computeStats at h
    cases hl : computeStatsLoop input [] [] with
    | none => rw [hl] at h; cases h
    | some statsList =>
      rw [hl] at h
      dsimp only at h
      exact List.pairwise_iff_getElem.mp
        (Slice_sorted env.xorshiftNext h (statLess_ordersBy statsList)).2
  refine ⟨?_, key, ?_⟩
  · obtain ⟨statsList, hl⟩ := computeStatsLoop_returns events [] []
    obtain ⟨stats, hs, _⟩ := Slice_safe env.xorshiftNext statsList
      (fun si sj => some (statLess si sj)) (statLess_ordersBy statsList).faultFree
    have hc : computeStats env (events.map some) = some stats := by
      unfold computeStats
      rw [hl]
      exact hs
    exact ⟨stats, hc, key _ _ hc⟩
  · have hl : computeStatsLoop
        [some (mkEvent "svc1" "DescribeX" ""), some (mkEvent "svc1" "DescribeX" ""),
          some (mkEvent "svc2" "DescribeY" "")] [] [] =
        some [{ EventSource := "svc1", API := "DescribeX", Calls := 2 },
          { EventSource := "svc2", API := "DescribeY", Calls := 1 }] := by decide
    unfold computeStats
    rw [hl]
    dsimp only
    rw [Slice_small _ _ _ (by decide)]
    decide

/-! ## `computeStats`: the key of the map -/

/-- C3, at the failing input: the events `(a:b, c)` and `(a, b:c)` have the same map
key `a:b:c`; `computeStats` returns the single stat `(a:b, c)` with 2 calls, and no
stat for the pair `(a, b:c)`. -/
theorem computeStats_key_collision :
    statKey (mkEvent "a:b" "c" "") = statKey (mkEvent "a" "b:c" "") ∧
      computeStats (referenceEnv []) [some (mkEvent "a:b" "c" ""), some (mkEvent "a" "b:c" "")] =
        some [{ EventSource := "a:b", API := "c", Calls := 2 }] := by
  decide

/-! ## `computeStats`: the order of ties -/

theorem firstIndexOf_lt_length (q : String × String) :
    ∀ (l : List (String × String)), q ∈ l → firstIndexOf q l < l.length
  | [], h => by cases h
  | r :: rest, h => by
    rw [firstIndexOf]
    by_cases hr : r = q
    · rw [if_pos hr]
      simp
    · rw [if_neg hr]
      have hmem : q ∈ rest := by
        rcases List.mem_cons.1 h with h1 | h1
        · exact absurd h1.symm hr
        · exact h1
      have := firstIndexOf_lt_length q rest hmem
      simp only [List.length_cons]
      omega

theorem firstIndexOf_append_of_mem (q : String × String) (l2 : List (String × String)) :
    ∀ (l1 : List (String × String)), q ∈ l1 →
      firstIndexOf q (l1 ++ l2) = firstIndexOf q l1
  | [], h => by cases h
  | r :: rest, h => by
    rw [List.cons_append, firstIndexOf, firstIndexOf]
    by_cases hr : r = q
    · rw [if_pos hr, if_pos hr]
    · rw [if_neg hr, if_neg hr]
      have hmem : q ∈ rest := by
        rcases List.mem_cons.1 h with h1 | h1
        · exact absurd h1.symm hr
        · exact h1
      rw [firstIndexOf_append_of_mem q l2 rest hmem]

theorem firstIndexOf_append_of_not_mem (q : String × String) (l2 : List (String × String)) :
    ∀ (l1 : List (String × String)), q ∉ l1 →
      firstIndexOf q (l1 ++ l2) = l1.length + firstIndexOf q l2
  | [], _ => by simp
  | r :: rest, h => by
    rw [List.cons_append, firstIndexOf]
    have hr : ¬ r = q := fun e => h (e ▸ List.mem_cons_self r rest)
    rw [if_neg hr, firstIndexOf_append_of_not_mem q l2 rest
      (fun hm => h (List.mem_cons_of_mem r hm))]
    simp only [List.length_cons]
    omega

/-- The state of the loop after an event whose key is in the map. -/
theorem LoopState.seen_key {seen : List CloudTrailEvent} {stats : List (String × Nat)}
    {pairs : List (String × String)} (h : LoopState seen stats pairs)
    (event : CloudTrailEvent) (hl : stats.lookup (statKey event) ≠ none) :
    LoopState (seen ++ [event]) stats pairs where
  keys := h.keys
  occurs := fun q hq => by
    rw [List.map_append]
    exact List.mem_append_left _ (h.occurs q hq)
  covers := fun e he => by
    rw [List.mem_append, List.mem_singleton] at he
    rcases he with he | rfl
    · exact h.covers e he
    · by_contra hnot
      exact hl ((h.keys _).2 hnot)
  ordered := by
    refine List.Pairwise.imp_of_mem (fun {q r} hq hr hqr => ?_) h.ordered
    rw [List.map_append, firstIndexOf_append_of_mem _ _ _ (h.occurs q hq),
      firstIndexOf_append_of_mem _ _ _ (h.occurs r hr)]
    exact hqr
  distinct := h.distinct

/-- The state of the loop after an event whose key is not in the map. -/
theorem LoopState.new_key {seen : List CloudTrailEvent} {stats : List (String × Nat)}
    {pairs : List (String × String)} (h : LoopState seen stats pairs)
    (event : CloudTrailEvent) (p : Nat) (hl : stats.lookup (statKey event) = none) :
    LoopState (seen ++ [event]) ((statKey event, p) :: stats) (pairs ++ [eventPair event]) := by
  have hkey : statKey event ∉ pairs.map pairKey := (h.keys _).1 hl
  have hnew : eventPair event ∉ seen.map eventPair := by
    intro hmem
    obtain ⟨e0, he0, hpair⟩ := List.mem_map.1 hmem
    have hk : statKey e0 = statKey event := by
      have h1 : statKey e0 = pairKey (eventPair e0) := rfl
      have h2 : statKey event = pairKey (eventPair event) := rfl
      rw [h1, h2, hpair]
    exact hkey (hk ▸ h.covers e0 he0)
  refine ⟨fun k => ?_, fun q hq => ?_, fun e he => ?_, ?_, ?_⟩
  · rw [List.lookup_cons, List.map_append, List.mem_append]
    by_cases hk : k = statKey event
    · subst hk
      simp [pairKey, eventPair, statKey]
    · have hbeq : (k == statKey event) = false := by simpa using hk
      rw [hbeq]
      simp only [List.map_cons, List.map_nil, List.mem_singleton]
      have hk2 : ¬ k = pairKey (eventPair event) := hk
      rw [h.keys k]
      tauto
  · rw [List.map_append]
    rw [List.mem_append, List.mem_singleton] at hq
    rcases hq with hq | rfl
    · exact List.mem_append_left _ (h.occurs q hq)
    · exact List.mem_append_right _ (by simp)
  · rw [List.map_append, List.mem_append]
    rw [List.mem_append, List.mem_singleton] at he
    rcases he with he | rfl
    · exact Or.inl (h.covers e he)
    · exact Or.inr (by simp [pairKey, eventPair, statKey])
  · rw [List.pairwise_append]
    refine ⟨?_, List.pairwise_singleton _ _, fun q hq r hr => ?_⟩
    · refine List.Pairwise.imp_of_mem (fun {q r} hq hr hqr => ?_) h.ordered
      rw [List.map_append, firstIndexOf_append_of_mem _ _ _ (h.occurs q hq),
        firstIndexOf_append_of_mem _ _ _ (h.occurs r hr)]
      exact hqr
    · rw [List.mem_singleton] at hr
      subst hr
      rw [List.map_append, firstIndexOf_append_of_mem _ _ _ (h.occurs q hq),
        firstIndexOf_append_of_not_mem _ _ _ hnew]
      have := firstIndexOf_lt_length _ _ (h.occurs q hq)
      omega
  · rw [List.map_append, List.nodup_append]
    refine ⟨h.distinct, List.nodup_singleton _, ?_⟩
    intro k hk hk2
    rw [List.map_cons, List.map_nil, List.mem_singleton] at hk2
    subst hk2
    exact hkey hk

/-- The loop of `computeStats` keeps its state: on a list without nil entries it ends,
and the stats it returns are listed in the order in which their pairs first occur. -/
theorem computeStatsLoop_state :
    ∀ (rest seen : List CloudTrailEvent) (stats : List (String × Nat)) (statsList : List Stat),
      LoopState seen stats (statsList.map statPair) →
      ∃ result stats1, computeStatsLoop (rest.map some) stats statsList = some result ∧
        LoopState (seen ++ rest) stats1 (result.map statPair)
  | [], seen, stats, statsList, h => ⟨statsList, stats, rfl, by rwa [List.append_nil]⟩
  | event :: rest, seen, stats, statsList, h => by
    rw [List.map_cons, computeStatsLoop]
    dsimp only
    cases hl : List.lookup (statKey event) stats with
    | some p =>
      dsimp only
      have h1 : LoopState (seen ++ [event]) stats ((incrementCalls p statsList).map statPair) := by
        rw [incrementCalls_statPair]
        exact h.seen_key event (by rw [hl]; exact fun e => by cases e)
      obtain ⟨result, stats1, hr, hs⟩ := computeStatsLoop_state rest _ _ _ h1
      exact ⟨result, stats1, hr, by rwa [List.append_assoc, List.singleton_append] at hs⟩
    | none =>
      dsimp only
      have h1 : LoopState (seen ++ [event]) ((statKey event, statsList.length) :: stats)
          ((incrementCalls statsList.length
            (statsList ++
              [{ EventSource := event.EventSource, API := event.EventName, Calls := 0 }])).map
            statPair) := by
        rw [incrementCalls_statPair, List.map_append]
        exact h.new_key event _ hl
      obtain ⟨result, stats1, hr, hs⟩ := computeStatsLoop_state rest _ _ _ h1
      exact ⟨result, stats1, hr, by rwa [List.append_assoc, List.singleton_append] at hs⟩

/-- The stats list that `computeStats` sorts: one stat per key, in the order in which
the pairs first occur in the input, each pair occurring in the input. -/
theorem computeStatsLoop_firstSeen (events : List CloudTrailEvent) :
    ∃ statsList, computeStatsLoop (events.map some) [] [] = some statsList ∧
      statsList.Pairwise (fun s t => firstSeenAt events s < firstSeenAt events t) ∧
      (∀ s ∈ statsList, firstSeenAt events s < events.length) ∧
      statsList.length ≤ ((events.map statKey).dedup).length := by
  have h0 : LoopState [] [] (([] : List Stat).map statPair) :=
    { keys := fun k => by simp
      occurs := fun q hq => by cases hq
      covers := fun e he => by cases he
      ordered := List.Pairwise.nil
      distinct := List.nodup_nil }
  obtain ⟨statsList, stats1, hr, hs⟩ := computeStatsLoop_state events [] [] [] h0
  rw [List.nil_append] at hs
  refine ⟨statsList, hr, ?_, fun s hs1 => ?_, ?_⟩
  · have h1 := List.pairwise_map.1 hs.ordered
    exact h1
  · have := firstIndexOf_lt_length _ _ (hs.occurs _ (List.mem_map_of_mem statPair hs1))
    rwa [List.length_map] at this
  · have hsub : (statsList.map statPair).map pairKey ⊆ (events.map statKey).dedup := by
      intro k hk
      obtain ⟨q, hq, rfl⟩ := List.mem_map.1 hk
      obtain ⟨e, he, rfl⟩ := List.mem_map.1 (hs.occurs q hq)
      exact List.mem_dedup.2 (List.mem_map_of_mem statKey he)
    have := (List.subperm_of_subset hs.distinct hsub).length_le
    rwa [List.length_map, List.length_map] at this

/-- C9 fails as stated: on thirteen distinct pairs, the first called twice and the
others once, the pair `(svc1, Api)` first occurs at position 2 of the input and the pair
`(svc6, Api)` at position 7; both have one call, and `computeStats` returns the stat of
`svc6` before the stat of `svc1`. -/
theorem computeStats_ties_counterexample :
    firstSeenAt thirteenPairs ⟨"svc1", "Api", 1⟩ = 2 ∧
      firstSeenAt thirteenPairs ⟨"svc6", "Api", 1⟩ = 7 ∧
      computeStatsLoop (thirteenPairs.map some) [] [] =
        some [⟨"svc0", "Api", 2⟩, ⟨"svc1", "Api", 1⟩, ⟨"svc2", "Api", 1⟩, ⟨"svc3", "Api", 1⟩,
          ⟨"svc4", "Api", 1⟩, ⟨"svc5", "Api", 1⟩, ⟨"svc6", "Api", 1⟩, ⟨"svc7", "Api", 1⟩,
          ⟨"svc8", "Api", 1⟩, ⟨"svc9", "Api", 1⟩, ⟨"svc10", "Api", 1⟩, ⟨"svc11", "Api", 1⟩,
          ⟨"svc12", "Api", 1⟩] ∧
      computeStats (referenceEnv []) (thirteenPairs.map some) =
        some [⟨"svc6", "Api", 1⟩, ⟨"svc1", "Api", 1⟩, ⟨"svc2", "Api", 1⟩, ⟨"svc3", "Api", 1⟩,
          ⟨"svc4", "Api", 1⟩, ⟨"svc5", "Api", 1⟩, ⟨"svc7", "Api", 1⟩, ⟨"svc8", "Api", 1⟩,
          ⟨"svc9", "Api", 1⟩, ⟨"svc10", "Api", 1⟩, ⟨"svc11", "Api", 1⟩, ⟨"svc12", "Api", 1⟩,
          ⟨"svc0", "Api", 2⟩] := by
  decide

/-- C9 (amended). When the input has at most 12 distinct map keys (so that
`computeStats` builds at most 12 stats), the final ordering of `computeStats` is stable
with respect to first-seen order. The list `statsList` built by the loop holds the
stats in the order in which their pairs first occur in the input; the returned list is
a permutation of it, ascending in `Calls`; the pair of every returned stat occurs in
the input; and of two returned stats with equal `Calls` the one whose pair first occurs
earlier in the input appears earlier in the output (for positions `i`, `j` with equal
`Calls`: `i < j` exactly when the pair at `i` first occurs before the pair at `j`). -/
theorem computeStats_ties_stable (env : Env) (events : List CloudTrailEvent)
    (hsmall : ((events.map statKey).dedup).length ≤ 12) :
    ∃ statsList stats, computeStatsLoop (events.map some) [] [] = some statsList ∧
      statsList.Pairwise (fun s t => firstSeenAt events s < firstSeenAt events t) ∧
      computeStats env (events.map some) = some stats ∧
      stats.Perm statsList ∧
      stats.Pairwise (fun s t => s.Calls ≤ t.Calls) ∧
      (∀ s ∈ stats, firstSeenAt events s < events.length) ∧
      ∀ (i j : Nat) (hi : i < stats.length) (hj : j < stats.length),
        stats[i].Calls = stats[j].Calls →
        (i < j ↔ firstSeenAt events stats[i] < firstSeenAt events stats[j]) := by
  obtain ⟨statsList, hl, hord, hocc, hlen⟩ := computeStatsLoop_firstSeen events
  obtain ⟨stats, hs, hp⟩ := Slice_safe env.xorshiftNext statsList
    (fun si sj => some (statLess si sj)) (statLess_ordersBy statsList).faultFree
  have hc : computeStats env (events.map some) = some stats := by
    unfold computeStats
    rw [hl]
    exact hs
  have hins := hs
  rw [Slice_small _ _ _ (by omega)] at hins
  obtain ⟨_, hsorted, hstable⟩ := insertionSort_func_spec hins
    (statLess_ordersBy _) (Nat.zero_le _) (le_refl _)
  rw [← hp.length_eq] at hsorted
  -- ties are in first-seen order
  have hties : ∀ (i j : Nat) (hi : i < stats.length) (hj : j < stats.length), i < j →
      stats[i].Calls = stats[j].Calls →
      firstSeenAt events stats[i] < firstSeenAt events stats[j] := by
    intro i j hi hj hij hcalls
    have hf := hord.filter (fun s => decide (s.Calls = stats[j].Calls))
    rw [← hstable stats[j].Calls, List.pairwise_filter] at hf
    exact List.pairwise_iff_getElem.mp hf i j hi hj hij (by simpa using hcalls) (by simp)
  refine ⟨statsList, stats, hl, hord, hc, hp, hsorted.pairwise,
    fun s hs1 => hocc s (hp.subset hs1),
    fun i j hi hj hcalls => ⟨fun hij => hties i j hi hj hij hcalls, fun hlt => ?_⟩⟩
  by_contra hnot
  rcases Nat.lt_or_ge j i with hji | hji
  · have := hties j i hj hi hji hcalls.symm
    omega
  · have hij : i = j := by omega
    subst hij
    omega

/-- C9 (amended), at a concrete input: the pairs `svc1`, `svc2`, `svc3` are first seen
in this order; `svc2` and `svc3` tie at one call and keep their order. -/
theorem computeStats_ties_stable_witness :
    ((fourEvents.map statKey).dedup).length ≤ 12 ∧
      computeStats (referenceEnv []) (fourEvents.map some) =
        some [⟨"svc2", "DescribeY", 1⟩, ⟨"svc3", "DescribeZ", 1⟩, ⟨"svc1", "DescribeX", 2⟩] ∧
      ∃ statsList stats, computeStatsLoop (fourEvents.map some) [] [] = some statsList ∧
        statsList.Pairwise (fun s t => firstSeenAt fourEvents s < firstSeenAt fourEvents t) ∧
        computeStats (referenceEnv []) (fourEvents.map some) = some stats ∧
        stats.Perm statsList ∧
        stats.Pairwise (fun s t => s.Calls ≤ t.Calls) ∧
        (∀ s ∈ stats, firstSeenAt fourEvents s < fourEvents.length) ∧
        ∀ (i j : Nat) (hi : i < stats.length) (hj : j < stats.length),
          stats[i].Calls = stats[j].Calls →
          (i < j ↔ firstSeenAt fourEvents stats[i] < firstSeenAt fourEvents stats[j]) :=
  ⟨by decide, by decide, computeStats_ties_stable (referenceEnv []) fourEvents (by decide)⟩

end ApiCallAnalyzer
